import Mathlib

/-!
# Finite automata: minimisation, column matching and the example-driven builder

A shallow embedding of `extra-task-20.cpp` and `extra-task-7.cpp`.

* C++ `int` values (state indices, transition entries, the start state) are `Int`;
  loop counters that run from `0` to a container size are `Nat`.
* `std::vector<T>` is `List T`; `v[i]` is `List.getD` (an index outside the vector is
  undefined behaviour in the source, the default value only makes the model total).
* `std::set<int>` is a strictly increasing `List Int`; `std::set<std::set<int>>` is a list of
  such lists, strictly increasing in the lexicographic order used by `std::set::operator<`.
* `std::map<std::string,int>` is an association list with unique keys; the iteration order of
  a map is only used by the printing code, which is not modelled.
* `std::map<int,int>` read through `operator[]` is a total function `Int → Int` that is `0`
  on every key never written.
* `while` loops carry a fuel argument and return `none` when it runs out; the theorems show
  that the fuel supplied by `minimize` is always enough.
* `assert` is active: a failing assertion ends the call with `assertFailed`.
-/

namespace Tafya

/-! ## Data model -/

/-- The `std::map<std::string,int>` of the source. -/
abbrev StrMap := List (String × Int)

/-- The values of `std::set<int>`. -/
abbrev IntSet := List Int

/-- The values of `std::set<std::set<int>>`. -/
abbrev Fam := List (List Int)

/-- The `struct FSA` of both programs (`Σ` is written `sigma`). -/
structure FSA where
  sigma : StrMap
  Q : StrMap
  δ : List (List Int)
  F : List Bool
  s : Int
deriving DecidableEq, Repr

/-- The read `m.find(k)`: the value stored under `k`, if any. -/
def mapFind (m : StrMap) (k : String) : Option Int := m.lookup k

/-- The write `m[k] = v`. -/
def mapSet : StrMap → String → Int → StrMap
  | [], k, v => [(k, v)]
  | (k0, v0) :: rest, k, v => if k0 = k then (k0, v) :: rest else (k0, v0) :: mapSet rest k v

/-- The read `m[k]` of a key (a missing key reads as `0`). -/
def mapGet (m : StrMap) (k : String) : Int := (m.lookup k).getD 0

/-- The entry `a.δ[row][letter]` for a loop counter `row`. -/
def FSA.entry (a : FSA) (row letter : Nat) : Int := (a.δ.getD row []).getD letter 0

/-- The entry `a.δ[q][letter]` for an `int` state `q`. -/
def FSA.tr (a : FSA) (q : Int) (letter : Nat) : Int := a.entry q.toNat letter

/-- The flag `a.F[q]` for an `int` state `q`. -/
def FSA.acc (a : FSA) (q : Int) : Bool := a.F.getD q.toNat false

/-! ## Ordered sets -/

/-- The call `S.insert(x)` on a `std::set<int>`. -/
def setInsert (x : Int) : IntSet → IntSet
  | [] => [x]
  | y :: ys => if x < y then x :: y :: ys else if y < x then y :: setInsert x ys else y :: ys

/-- The comparison `S < T` of two `std::set<int>` (lexicographic). -/
def setLt : IntSet → IntSet → Bool
  | _, [] => false
  | [], _ :: _ => true
  | x :: xs, y :: ys => if x < y then true else if y < x then false else setLt xs ys

/-- The call `P.insert(S)` on a `std::set<std::set<int>>`. -/
def famInsert (S : IntSet) : Fam → Fam
  | [] => [S]
  | T :: Ts => if setLt S T then S :: T :: Ts else if setLt T S then T :: famInsert S Ts else T :: Ts

/-- The call `P.erase(S)` on a `std::set<std::set<int>>`. -/
def famErase (S : IntSet) (P : Fam) : Fam := P.filter (fun T => decide (T ≠ S))

/-- The result of `std::set_intersection(X, Y)`: the members of `X` that are in `Y`. -/
def setIntersection (X Y : IntSet) : IntSet := X.filter (fun e => decide (e ∈ Y))

/-- The result of `std::set_difference(Y, X)`: the members of `Y` that are not in `X`. -/
def setDifference (Y X : IntSet) : IntSet := Y.filter (fun e => decide (e ∉ X))

/-! ## `minimize` -/

/-- The first loop of `minimize`: the accepting and the non-accepting states. -/
def classify (a : FSA) : IntSet × IntSet :=
  (List.range a.δ.length).foldl
    (fun fn i => if a.F.getD i false then (setInsert (i : Int) fn.1, fn.2)
      else (fn.1, setInsert (i : Int) fn.2))
    ([], [])

/-- The partition `P` (and the queue `W`) before the `while` loop. -/
def initialBlocks (a : FSA) : Fam :=
  let fn := classify a
  let P0 : Fam := if fn.1.length > 0 then famInsert fn.1 [] else []
  if fn.2.length > 0 then famInsert fn.2 P0 else P0

/-- The set `X` of one letter: the rows whose `letter` entry lies in `A`. -/
def preimage (a : FSA) (A : IntSet) (letter : Nat) : IntSet :=
  (List.range a.δ.length).foldl
    (fun X row => if a.entry row letter ∈ A then setInsert (row : Int) X else X) []

/-- The scan `it++` over `P`: the first block that `X` cuts in two. -/
def findSplit (X : IntSet) : Fam → Option IntSet
  | [] => none
  | Y :: rest =>
    if (setIntersection X Y).isEmpty || (setDifference Y X).isEmpty then findSplit X rest
    else some Y

/-- The update of `W` after `Y` was replaced in `P` by its two halves. The source reads `Y`
through a reference into the node that `P.erase(it)` has just destroyed; this definition
reads the value the block had before the erase. The compiled program finds the intersection
there: that reading is `updateQueueStale`, and `finalPartitionStale_eq` shows that the loops
end with the same partition under both readings. -/
def updateQueue (W : Fam) (Y inter diff : IntSet) : Fam :=
  if Y ∈ W then famInsert diff (famInsert inter (famErase Y W))
  else if inter.length ≤ diff.length then famInsert inter W
  else famInsert diff W

/-- The inner `while (it != P.end())` loop for one set `X`: every split restarts the scan. -/
def refineLoop (X : IntSet) : Nat → Fam → Fam → Option (Fam × Fam)
  | 0, _, _ => none
  | fuel + 1, P, W =>
    match findSplit X P with
    | none => some (P, W)
    | some Y =>
      let inter := setIntersection X Y
      let diff := setDifference Y X
      refineLoop X fuel (famInsert diff (famInsert inter (famErase Y P)))
        (updateQueue W Y inter diff)

/-- The `for (letter ...)` loop for one block `A` taken from the queue. -/
def letterLoop (a : FSA) (A : IntSet) (fuel : Nat) : List Nat → Fam → Fam → Option (Fam × Fam)
  | [], P, W => some (P, W)
  | letter :: rest, P, W =>
    match refineLoop (preimage a A letter) fuel P W with
    | none => none
    | some PW => letterLoop a A fuel rest PW.1 PW.2

/-- The `while (!W.empty())` loop: the final partition. -/
def whileLoop (a : FSA) (innerFuel : Nat) : Nat → Fam → Fam → Option Fam
  | _, P, [] => some P
  | 0, _, _ :: _ => none
  | fuel + 1, P, A :: W =>
    match letterLoop a A innerFuel (List.range a.sigma.length) P W with
    | none => none
    | some PW => whileLoop a innerFuel fuel PW.1 PW.2

/-- The loop that fills `state_map`: every member of the block numbered `state_id`. -/
def assignIds : Fam → Int → (Int → Int) → (Int → Int)
  | [], _, sm => sm
  | p :: ps, state_id, sm =>
    assignIds ps (if p.length ≠ 0 then state_id + 1 else state_id)
      (p.foldl (fun m e => Function.update m e state_id) sm)

/-- The `state_map` of `minimize` for the final partition `P`. -/
def stateMap (P : Fam) : Int → Int := assignIds P 0 (fun _ => 0)

/-- The automaton under construction in the last loop of `minimize`. -/
structure Draft where
  δ : List (List Int)
  F : List Bool
  Q : StrMap

/-- The inner `for (letter ...)` loop of the output construction, on the row `new_state`. -/
def fillRow (a : FSA) (sm : Int → Int) (representative : Int) (row : List Int) : List Int :=
  (List.range a.sigma.length).foldl
    (fun r letter => r.set letter (sm (a.tr representative letter))) row

/-- One iteration of the last loop of `minimize`, for the block `p`. -/
def emitBlock (a : FSA) (sm : Int → Int) (out : Draft) (p : IntSet) : Draft :=
  let representative := p.headD 0
  let new_state := sm representative
  { δ := out.δ.set new_state.toNat
      (fillRow a sm representative (out.δ.getD new_state.toNat []))
    F := out.F.set new_state.toNat (a.acc representative)
    Q := mapSet out.Q (toString new_state) new_state }

/-- How a call of `minimize` ends. -/
inductive Outcome where
  | ok (a : FSA)
  | assertFailed
  | outOfFuel
deriving DecidableEq, Repr

/-- The part of `minimize` after the `while` loop, for the final partition `P`. -/
def output (a : FSA) (P : Fam) : Outcome :=
  let sm := stateMap P
  let out0 : Draft :=
    { δ := List.replicate P.length (List.replicate a.sigma.length (-1))
      F := List.replicate P.length false
      Q := [] }
  let out := P.foldl (emitBlock a sm) out0
  let s := sm a.s
  if s ≠ -1 then .ok { sigma := a.sigma, Q := out.Q, δ := out.δ, F := out.F, s := s }
  else .assertFailed

/-- The final partition computed by `minimize`. -/
def finalPartition (a : FSA) : Option Fam :=
  let P := initialBlocks a
  whileLoop a (a.δ.length + 1) (2 * a.δ.length + 3) P P

/-- The function `minimize` of `extra-task-20.cpp`. -/
def minimize (a : FSA) : Outcome :=
  match finalPartition a with
  | none => .outOfFuel
  | some P => output a P

/-- The function `minimize` of `extra-task-7.cpp`: the same body after two assertions. -/
def minimize7 (a : FSA) : Outcome :=
  let fn := classify a
  if fn.1.length > 0 then
    if fn.2.length > 0 then minimize a else .assertFailed
  else .assertFailed

/-! ## `fsa_equal` -/

/-- The loop over the rows `k`: whether column `i` of `a1` equals column `j` of `a2`. -/
def columnsEqual (a1 a2 : FSA) (i j : Nat) : Bool :=
  (List.range a1.δ.length).foldl
    (fun equal k => if a1.entry k i ≠ a2.entry k j then false else equal) true

/-- The loop over the columns `j` of `a2`, left at the first equal column. -/
def findEqualCol (a1 a2 : FSA) (i : Nat) : List Nat → Bool
  | [] => false
  | j :: js => if columnsEqual a1 a2 i j then true else findEqualCol a1 a2 i js

/-- The loop over the columns `i` of `a1`, left at the first column without a match. -/
def allColsFound (a1 a2 : FSA) : List Nat → Bool
  | [] => true
  | i :: is =>
    if !findEqualCol a1 a2 i (List.range a2.sigma.length) then false
    else allColsFound a1 a2 is

/-- The function `fsa_equal` of `extra-task-7.cpp`; its first test compares `a1.Σ.size()`
with itself, as the source does. -/
def fsa_equal (a1 a2 : FSA) : Bool :=
  if a1.sigma.length ≠ a1.sigma.length then false
  else if a1.δ.length ≠ a2.δ.length then false
  else allColsFound a1 a2 (List.range a1.sigma.length)

/-! ## Running an automaton -/

/-- The state reached from `q` after reading the symbol indices `w`. -/
def FSA.run (a : FSA) : Int → List Nat → Int
  | q, [] => q
  | q, c :: w => a.run (a.tr q c) w

/-- Whether `a` accepts `w` from state `q`. -/
def FSA.acceptsFrom (a : FSA) (q : Int) (w : List Nat) : Bool := a.acc (a.run q w)

/-- Whether `a` accepts `w` from its start state. -/
def FSA.accepts (a : FSA) (w : List Nat) : Bool := a.acceptsFrom a.s w

/-- A word over the symbol indices of `a`. -/
def FSA.IsWord (a : FSA) (w : List Nat) : Prop := ∀ c ∈ w, c < a.sigma.length

/-- A state index of `a`. -/
def FSA.IsState (a : FSA) (q : Int) : Prop := 0 ≤ q ∧ q < a.δ.length

/-- A completed transition table: at least one state, one accepting flag per state, every row
has `|Σ|` entries and every entry is a state index. -/
structure FSA.TableOk (a : FSA) : Prop where
  states : 0 < a.δ.length
  flags : a.F.length = a.δ.length
  rows : ∀ r ∈ a.δ, r.length = a.sigma.length
  targets : ∀ r ∈ a.δ, ∀ e ∈ r, 0 ≤ e ∧ e < a.δ.length

/-- A well-formed completed automaton: a completed table and a start state that is a state
index. -/
structure FSA.WellFormed (a : FSA) : Prop where
  table : a.TableOk
  start : a.IsState a.s

/-- Language equivalence of two states: no word over the symbol indices tells them apart. -/
def FSA.Equiv (a : FSA) (p q : Int) : Prop :=
  ∀ w, a.IsWord w → a.acceptsFrom p w = a.acceptsFrom q w

/-! ## Predicates on partitions -/

/-- Both `x` and `y` lie in one block of `P`. -/
def SameBlock (P : Fam) (x y : Int) : Prop := ∃ Y ∈ P, x ∈ Y ∧ y ∈ Y

/-- Some set of `W` contains exactly one of `x` and `y`. -/
def Separated (W : Fam) (x y : Int) : Prop := ∃ S ∈ W, ¬(x ∈ S ↔ y ∈ S)

/-- A set of states closed under language equivalence. -/
def Saturated (a : FSA) (S : IntSet) : Prop :=
  ∀ p q, a.IsState p → a.IsState q → a.Equiv p q → p ∈ S → q ∈ S

/-- The blocks of `P` are non-empty, duplicate-free, pairwise disjoint sets of states of `a`
that cover every state. -/
structure IsPartition (a : FSA) (P : Fam) : Prop where
  nonempty : ∀ Y ∈ P, Y ≠ []
  nodup : ∀ Y ∈ P, Y.Nodup
  states : ∀ Y ∈ P, ∀ x ∈ Y, a.IsState x
  cover : ∀ x, a.IsState x → ∃ Y ∈ P, x ∈ Y
  disjoint : P.Pairwise List.Disjoint

/-- The number of splits a family of blocks can still undergo. -/
def potential (P : Fam) : Nat := (P.map (fun Y => Y.length - 1)).sum

/-- The invariant of the refinement loops. `pend x y c` holds for the targets `x`, `y` of two
states on letter `c` when the block `A` being processed still has to tell them apart. -/
structure Refining (a : FSA) (pend : Int → Int → Nat → Prop) (P W : Fam) : Prop where
  part : IsPartition a P
  hom : ∀ Y ∈ P, ∀ p ∈ Y, ∀ q ∈ Y, a.acc p = a.acc q
  pending : ∀ Y ∈ P, ∀ p ∈ Y, ∀ q ∈ Y, ∀ c, c < a.sigma.length →
    SameBlock P (a.tr p c) (a.tr q c) ∨ Separated W (a.tr p c) (a.tr q c) ∨
      pend (a.tr p c) (a.tr q c) c
  satP : ∀ Y ∈ P, Saturated a Y
  satW : ∀ S ∈ W, Saturated a S

/-- The automaton `m` is the quotient of `a` by the partition `P`: block `i` of `P` is state
`i`, with the transitions and the flag of its first member. -/
structure IsQuotient (a : FSA) (P : Fam) (m : FSA) : Prop where
  sigma : m.sigma = a.sigma
  δ : m.δ = P.map (fun p =>
    (List.range a.sigma.length).map (fun c => stateMap P (a.tr (p.headD 0) c)))
  F : m.F = P.map (fun p => a.acc (p.headD 0))
  s : m.s = stateMap P a.s

/-! ## The builder of `extra-task-20.cpp` (`main`) -/

/-- One input line: the first token and the remaining tokens. -/
structure Line where
  plus_or_minus : String
  word : List String
deriving DecidableEq, Repr

/-- The test `plus_or_minus == "+"` that selects the branch of `main`. -/
def Line.positive (l : Line) : Bool := decide (l.plus_or_minus = "+")

/-- The variables of `main`: the automaton and the decided marks. -/
structure Builder where
  a : FSA
  important_states : List Bool
deriving DecidableEq, Repr

/-- The variables of `main` before the first line is read. -/
def Builder.init : Builder :=
  { a := { sigma := [], Q := [("0", 0)], δ := [], F := [], s := 0 }
    important_states := [false] }

/-- The body of the tokenising loop for one token: a new symbol gets the next index and every
row one more entry `0`; `none` when the assertion on the row length fails. -/
def registerToken (a : FSA) (token : String) : Option FSA :=
  if mapFind a.sigma token = none then
    let next_id : Int := a.sigma.length
    let a1 : FSA := { a with sigma := mapSet a.sigma token next_id }
    if a1.δ.length > 0 then
      let a2 : FSA := { a1 with δ := a1.δ.map (fun row => row ++ [0]) }
      if a2.sigma.length = (a2.δ.getD 0 []).length then some a2 else none
    else some a1
  else some a

/-- The tokenising loop over the tokens of one line. -/
def registerTokens : FSA → List String → Option FSA
  | a, [] => some a
  | a, token :: rest =>
    match registerToken a token with
    | none => none
    | some a1 => registerTokens a1 rest

/-- The test `a.δ.size() == 0` at the start of both branches: the first row and flag. -/
def ensureRoot (pol : Bool) (a : FSA) : FSA :=
  if a.δ.length = 0 then
    { a with δ := a.δ ++ [List.replicate a.sigma.length 0], F := a.F ++ [pol] }
  else a

/-- The write `δ[q][letter] = v`. -/
def tableSet (δ : List (List Int)) (q : Int) (letter : Nat) (v : Int) : List (List Int) :=
  δ.set q.toNat ((δ.getD q.toNat []).set letter v)

/-- The body of the loop over the word, in the branch of polarity `pol`: an unset entry
allocates a new state, then `q` moves along the entry. -/
def walkLetter (pol : Bool) (st : Builder × Int) (token : String) : Builder × Int :=
  let b := st.1
  let q := st.2
  let letter := (mapGet b.a.sigma token).toNat
  if b.a.tr q letter = 0 then
    let next_state_id : Int := b.a.δ.length
    let a1 : FSA :=
      { b.a with
        δ := tableSet (b.a.δ ++ [List.replicate b.a.sigma.length 0]) q letter next_state_id
        F := b.a.F ++ [pol]
        Q := mapSet b.a.Q (toString next_state_id) next_state_id }
    ({ a := a1, important_states := b.important_states ++ [false] }, a1.tr q letter)
  else (b, b.a.tr q letter)

/-- The loop over the word of one line, from the start state. -/
def walk (pol : Bool) (b : Builder) (word : List String) : Builder × Int :=
  word.foldl (walkLetter pol) (b, b.a.s)

/-- The decided mark `important_states[q]`. -/
def Builder.decided (b : Builder) (q : Int) : Bool := b.important_states.getD q.toNat false

/-- The test that reports `Conflict!` in the branch of polarity `pol`. -/
def conflictTest (pol : Bool) (b : Builder) (q : Int) : Bool :=
  if pol then (!b.a.acc q && b.decided q) else (b.a.acc q && b.decided q)

/-- How the body of the `while (std::getline ...)` loop ends for one line. -/
inductive StepResult where
  | ok (b : Builder)
  | conflict (b : Builder)
  | assertFailed
deriving DecidableEq, Repr

/-- The body of the `while (std::getline ...)` loop for one line. The two branches of the
source differ only in the polarity constant, here `pol`. The rendering calls and the call of
`patch_up_fsa` at the end of the body read `a` without changing it. -/
def processLine (b : Builder) (line : Line) : StepResult :=
  match registerTokens b.a line.word with
  | none => .assertFailed
  | some a1 =>
    let pol := line.positive
    let r := walk pol { b with a := ensureRoot pol a1 } line.word
    let b2 := r.1
    let q := r.2
    if conflictTest pol b2 q then .conflict b2
    else .ok
      { a := { b2.a with F := b2.a.F.set q.toNat pol }
        important_states := b2.important_states.set q.toNat true }

/-- The `while (std::getline ...)` loop over the lines; a conflict ends it (`return 1`). -/
def processLines : Builder → List Line → StepResult
  | b, [] => .ok b
  | b, line :: rest =>
    match processLine b line with
    | .ok b1 => processLines b1 rest
    | r => r

/-- Following the symbols of a word from state `q` through set (non-zero) entries. -/
def follow (a : FSA) : Int → List String → Option Int
  | q, [] => some q
  | q, token :: rest =>
    match mapFind a.sigma token with
    | none => none
    | some letter =>
      if a.tr q letter.toNat = 0 then none else follow a (a.tr q letter.toNat) rest

/-- The structural invariant of the builder: sizes agree, symbols are numbered below `|Σ|`
without repetition, and the set entries form a tree that grows away from state 0. -/
structure Builder.Inv (b : Builder) : Prop where
  flags : b.a.F.length = b.a.δ.length
  marks : b.important_states.length = max b.a.δ.length 1
  unmarked : ∀ i, b.a.δ.length ≤ i → b.important_states.getD i false = false
  rows : ∀ r ∈ b.a.δ, r.length = b.a.sigma.length
  symbols : ∀ t v, mapFind b.a.sigma t = some v → 0 ≤ v ∧ v < b.a.sigma.length
  symbolsInj : ∀ t1 t2 v, mapFind b.a.sigma t1 = some v → mapFind b.a.sigma t2 = some v → t1 = t2
  targets : ∀ r c, b.a.entry r c ≠ 0 → 0 < b.a.entry r c ∧ b.a.entry r c < b.a.δ.length
  inj : ∀ r1 c1 r2 c2, b.a.entry r1 c1 ≠ 0 → b.a.entry r1 c1 = b.a.entry r2 c2 →
    r1 = r2 ∧ c1 = c2
  start : b.a.s = 0

/-- The builder `b1` extends `b`: symbols keep their index, set entries their value, states
their flag, and no decided mark changes. -/
structure Grows (b b1 : Builder) : Prop where
  symbols : ∀ t v, mapFind b.a.sigma t = some v → mapFind b1.a.sigma t = some v
  entries : ∀ r c, b.a.entry r c ≠ 0 → b1.a.entry r c = b.a.entry r c
  size : b.a.δ.length ≤ b1.a.δ.length
  flags : ∀ i, i < b.a.δ.length → b1.a.F.getD i false = b.a.F.getD i false
  marks : ∀ i, b1.important_states.getD i false = b.important_states.getD i false

/-- The builder `b` records the lines `L`: every word of `L` leads to a decided state with
the flag of its line, and every decided state is the end of a word of `L`. -/
structure Records (b : Builder) (L : List Line) : Prop where
  recorded : ∀ l ∈ L, ∃ q, follow b.a 0 l.word = some q ∧ b.a.acc q = l.positive ∧
    b.decided q = true
  decidedBy : ∀ i : Nat, b.important_states.getD i false = true →
    ∃ l ∈ L, follow b.a 0 l.word = some (i : Int)

/-! ## Sample automata -/

/-- Four states over `{a, b}` accepting exactly the word `a`; states 2 and 3 behave alike. -/
def sample4 : FSA :=
  { sigma := [("a", 0), ("b", 1)]
    Q := [("q0", 0), ("q1", 1), ("q2", 2), ("q3", 3)]
    δ := [[1, 2], [2, 3], [2, 2], [3, 3]]
    F := [false, true, false, false]
    s := 0 }

/-- The minimal automaton for the word `a` over `{a, b}`: three states. -/
def sample3 : FSA :=
  { sigma := [("a", 0), ("b", 1)]
    Q := [("p0", 0), ("p1", 1), ("p2", 2)]
    δ := [[1, 2], [2, 2], [2, 2]]
    F := [false, true, false]
    s := 0 }

/-- The automaton `sample3` with the names of states 1 and 2 exchanged. -/
def sample3swapped : FSA :=
  { sigma := [("a", 0), ("b", 1)]
    Q := [("p0", 0), ("p2", 1), ("p1", 2)]
    δ := [[2, 1], [1, 1], [1, 1]]
    F := [false, false, true]
    s := 0 }

/-- One accepting state with a loop on the only symbol. -/
def sampleOne : FSA :=
  { sigma := [("a", 0)], Q := [("q0", 0)], δ := [[0]], F := [true], s := 0 }

/-- One accepting state with loops on two symbols. -/
def sampleWide : FSA :=
  { sigma := [("a", 0), ("b", 1)], Q := [("q0", 0)], δ := [[0, 0]], F := [true], s := 0 }

/-! ## Sample lines -/

/-- The line `+ a b`. -/
def linePlusAB : Line := { plus_or_minus := "+", word := ["a", "b"] }

/-- The line `- a b`. -/
def lineMinusAB : Line := { plus_or_minus := "-", word := ["a", "b"] }

/-- The line `- a`. -/
def lineMinusA : Line := { plus_or_minus := "-", word := ["a"] }

/-- The builder after the line `+ a b`. -/
def builtOne : Builder :=
  { a :=
      { sigma := [("a", 0), ("b", 1)]
        Q := [("0", 0), ("1", 1), ("2", 2)]
        δ := [[1, 0], [0, 2], [0, 0]]
        F := [true, true, true]
        s := 0 }
    important_states := [false, false, true] }

/-- The builder after the lines `+ a b` and `- a`. -/
def builtTwo : Builder :=
  { a :=
      { sigma := [("a", 0), ("b", 1)]
        Q := [("0", 0), ("1", 1), ("2", 2)]
        δ := [[1, 0], [0, 2], [0, 0]]
        F := [true, false, true]
        s := 0 }
    important_states := [false, true, true] }

end Tafya


namespace Tafya

/-! ## `patch_up_fsa` -/

/-- The two loops of `patch_up_fsa`: every entry `-1` of the copy becomes `0`. -/
def complete (a : FSA) : FSA :=
  { a with δ := a.δ.map (fun row => row.map (fun e => if e = -1 then 0 else e)) }

/-- The function `patch_up_fsa` of `extra-task-20.cpp`. -/
def patch_up_fsa (a : FSA) : Outcome := minimize (complete a)

/-! ## The states of the refinement loops -/

/-- The values of `(P, W)` that the loops of `minimize` can go through, with `Y` read by
value in the queue update: the initial pair, the pair after a block was taken from the
queue, and the pair after a block of `P` was split by the set `X` of some block `A` and some
letter. -/
inductive Reaches (a : FSA) : Fam → Fam → Prop where
  | start : Reaches a (initialBlocks a) (initialBlocks a)
  | pop (P : Fam) (A : IntSet) (W : Fam) : Reaches a P (A :: W) → Reaches a P W
  | split (P W : Fam) (A : IntSet) (letter : Nat) (Y : IntSet) :
      Reaches a P W → findSplit (preimage a A letter) P = some Y →
      Reaches a
        (famInsert (setDifference Y (preimage a A letter))
          (famInsert (setIntersection (preimage a A letter) Y) (famErase Y P)))
        (updateQueue W Y (setIntersection (preimage a A letter) Y)
          (setDifference Y (preimage a A letter)))

/-- The sum of the squared block cardinalities of `P`. -/
def sumSquares (P : Fam) : Nat := (P.map (fun Y => Y.length * Y.length)).sum

/-- The state labels `"0"`, `"1"`, ... of the first `k` states, each mapped to its index. -/
def stateLabels (k : Nat) : StrMap :=
  (List.range k).map (fun i : Nat => (toString (i : Int), (i : Int)))

/-- The number that a list of decimal digit characters denotes. -/
def decimalValue (cs : List Char) : Nat :=
  cs.foldl (fun acc c => acc * 10 + (c.toNat - 48)) 0

/-! ## Symbols in order of first occurrence -/

/-- The distinct tokens of a token sequence, in order of first occurrence, after `seen`. -/
def firstOccurrencesFrom (seen : List String) (tokens : List String) : List String :=
  tokens.foldl (fun acc t => if t ∈ acc then acc else acc ++ [t]) seen

/-- The distinct tokens of a token sequence, in order of first occurrence. -/
def firstOccurrences (tokens : List String) : List String := firstOccurrencesFrom [] tokens

/-- The map that sends the `i`-th label of a list to `start + i`. -/
def enumerateFrom (start : Nat) : List String → StrMap
  | [] => []
  | t :: rest => (t, (start : Int)) :: enumerateFrom (start + 1) rest

/-- The map that sends the `i`-th label of a list to `i`. -/
def enumerate (labels : List String) : StrMap := enumerateFrom 0 labels

/-- All the word tokens of a sequence of lines, in reading order. -/
def allTokens : List Line → List String
  | [] => []
  | l :: rest => l.word ++ allTokens rest

/-- The symbols of the builder are those of `tokens` in order of first occurrence, and the
state labels are the decimal numbers of the states. -/
structure Shape (b : Builder) (tokens : List String) : Prop where
  symbols : b.a.sigma = enumerate (firstOccurrences tokens)
  labels : b.a.Q = stateLabels (max b.a.δ.length 1)

/-! ## `parse_fsa` -/

/-- The extraction `stream >> s`: the next token, or the old value of `s` when the stream is
exhausted. -/
def nextToken (old : String) : List String → String × List String
  | [] => (old, [])
  | t :: rest => (t, rest)

/-- The loop over the alphabet line: `a.Σ[token] = a.Σ.size()`, the size taken first. -/
def parseAlphabet (tokens : List String) : StrMap :=
  tokens.foldl (fun m t => mapSet m t (m.length : Int)) []

/-- The variables of the loop over the state lines: the automaton and `state_count`. -/
structure ParseState where
  a : FSA
  state_count : Int
deriving DecidableEq, Repr

/-- The registration of a state name that `Q` does not have yet: the next index and a new
row of `n` entries `-1`. -/
def registerState (n : Nat) (st : ParseState) (name : String) : ParseState :=
  if mapFind st.a.Q name = none then
    { a := { st.a with Q := mapSet st.a.Q name st.state_count
                       δ := st.a.δ ++ [List.replicate n (-1)] }
      state_count := st.state_count + 1 }
  else st

/-- The body of the loop over the symbols of one state line, for the symbol `i`. -/
def parseTarget (n : Nat) (i_from : Int) (acc : ParseState × List String) (i : Nat) :
    ParseState × List String :=
  let r := nextToken "" acc.2
  let st := registerState n acc.1 r.1
  let i_to := mapGet st.a.Q r.1
  ({ st with a := { st.a with δ := tableSet st.a.δ i_from i i_to } }, r.2)

/-- The body of the loop over the state lines, for the tokens of one line; `none` when the
assertion `arrow == "->"` fails. A write `a.F[i_from] = true` outside `F` is undefined
behaviour in the source and is dropped here. -/
def parseLine (n : Nat) (st : ParseState) (tokens : List String) : Option ParseState :=
  let r0 := nextToken "" tokens
  let is_start := decide (r0.1 = "*")
  let r1 := if is_start then nextToken r0.1 r0.2 else r0
  let is_final := decide (r1.1 = "!")
  let r2 := if is_final then nextToken r1.1 r1.2 else r1
  let st1 := registerState n st r2.1
  let r3 := nextToken "" r2.2
  if r3.1 ≠ "->" then none
  else
    let i_from := mapGet st1.a.Q r2.1
    let st2 := ((List.range st1.a.sigma.length).foldl (parseTarget n i_from) (st1, r3.2)).1
    let a3 : FSA := if is_start then { st2.a with s := i_from } else st2.a
    let a4 : FSA := if is_final then { a3 with F := a3.F.set i_from.toNat true } else a3
    some { st2 with a := a4 }

/-- The loop over the state lines. -/
def parseLines (n : Nat) : ParseState → List (List String) → Option ParseState
  | st, [] => some st
  | st, tokens :: rest =>
    match parseLine n st tokens with
    | none => none
    | some st1 => parseLines n st1 rest

/-- The function `parse_fsa` of `extra-task-7.cpp` on the tokens of the alphabet line and of
the state lines; `s0` is the value the uninitialised field `s` happens to hold. -/
def parse_fsa (s0 : Int) (alphabet : List String) (lines : List (List String)) : Option FSA :=
  let sigma := parseAlphabet alphabet
  let n := sigma.length
  let a0 : FSA := { sigma := sigma, Q := [], δ := [], F := List.replicate n false, s := s0 }
  (parseLines n { a := a0, state_count := 0 } lines).map (fun st => st.a)

/-! ## More samples -/

/-- Two states and a start index that is not a state. -/
def sampleBadStart : FSA :=
  { sigma := [("a", 0)], Q := [("q0", 0), ("q1", 1)], δ := [[1], [0]], F := [true, false],
    s := 5 }

/-- Two states, start state 1 and one unset entry. -/
def samplePartial : FSA :=
  { sigma := [("a", 0)], Q := [("q0", 0), ("q1", 1)], δ := [[-1], [0]], F := [true, false],
    s := 1 }

/-- The state lines of a description of `sample3`. -/
def sample3Text : List (List String) :=
  [["*", "p0", "->", "p1", "p2"], ["!", "p1", "->", "p2", "p2"], ["p2", "->", "p2", "p2"]]

end Tafya


namespace Tafya

/-! ## `minimize` of `extra-task-7.cpp`, with what it prints -/

/-- The text that `operator<<` of `extra-task-7.cpp` writes for a `std::set<int>`: two braces
for the empty set; otherwise the members but the last, each followed by a blank, and then the
`int` read through the iterator after one more increment. That read is past the end of the
set, undefined in the source; `pastEnd` is the value it happens to find. -/
def showSet (pastEnd : Int) (s : IntSet) : String :=
  if s.length = 0 then "\x7b\x7d"
  else
    "\x7b" ++ String.join ((s.take (s.length - 1)).map (fun e => toString e ++ " ")) ++
      toString pastEnd ++ "\x7d"

/-- The line that `debug(x)` writes to `std::cout` for a set `x` of the given name. -/
def debugLine (pastEnd : IntSet → Int) (name : String) (s : IntSet) : String :=
  name ++ " = " ++ showSet (pastEnd s) s

/-- The inner `while (it != P.end())` loop of `extra-task-7.cpp`: before every split the sets
`X` and `Y` are printed. -/
def refineLoop7 (pastEnd : IntSet → Int) (X : IntSet) :
    Nat → Fam → Fam → List String → Option (Fam × Fam × List String)
  | 0, _, _, _ => none
  | fuel + 1, P, W, out =>
    match findSplit X P with
    | none => some (P, W, out)
    | some Y =>
      let inter := setIntersection X Y
      let diff := setDifference Y X
      refineLoop7 pastEnd X fuel (famInsert diff (famInsert inter (famErase Y P)))
        (updateQueue W Y inter diff)
        (out ++ [debugLine pastEnd "X" X, debugLine pastEnd "Y" Y])

/-- The `for (letter ...)` loop of `extra-task-7.cpp` for one block `A`. -/
def letterLoop7 (pastEnd : IntSet → Int) (a : FSA) (A : IntSet) (fuel : Nat) :
    List Nat → Fam → Fam → List String → Option (Fam × Fam × List String)
  | [], P, W, out => some (P, W, out)
  | letter :: rest, P, W, out =>
    match refineLoop7 pastEnd (preimage a A letter) fuel P W out with
    | none => none
    | some r => letterLoop7 pastEnd a A fuel rest r.1 r.2.1 r.2.2

/-- The `while (!W.empty())` loop of `extra-task-7.cpp`: every block taken from the queue is
printed. -/
def whileLoop7 (pastEnd : IntSet → Int) (a : FSA) (innerFuel : Nat) :
    Nat → Fam → Fam → List String → Option (Fam × List String)
  | _, P, [], out => some (P, out)
  | 0, _, _ :: _, _ => none
  | fuel + 1, P, A :: W, out =>
    match letterLoop7 pastEnd a A innerFuel (List.range a.sigma.length) P W
        (out ++ [debugLine pastEnd "A" A]) with
    | none => none
    | some r => whileLoop7 pastEnd a innerFuel fuel r.1 r.2.1 r.2.2

/-- The function `minimize` of `extra-task-7.cpp`, statement by statement: the two entry
assertions, the loops that print, and the output construction; the result and the lines
written to `std::cout`. -/
def minimize7Traced (pastEnd : IntSet → Int) (a : FSA) : Outcome × List String :=
  let fn := classify a
  if fn.1.length > 0 then
    if fn.2.length > 0 then
      let P := initialBlocks a
      match whileLoop7 pastEnd a (a.δ.length + 1) (2 * a.δ.length + 3) P P [] with
      | none => (.outOfFuel, [])
      | some r => (output a r.1, r.2)
    else (.assertFailed, [])
  else (.assertFailed, [])

end Tafya


namespace Tafya

/-! ## States of two automata with the same language -/

/-- State `p` of `a1` and state `q` of `a2` accept the same words. -/
def SameLanguage (a1 a2 : FSA) (p q : Int) : Prop :=
  ∀ w, a1.IsWord w → a1.acceptsFrom p w = a2.acceptsFrom q w

/-- Every state of `a` is reached from the start state by some word. -/
def FSA.AllReachable (a : FSA) : Prop :=
  ∀ p, a.IsState p → ∃ w, a.IsWord w ∧ a.run a.s w = p

/-- The state `p` is the smallest state of its class of language-equivalent states. -/
def FSA.IsLeast (a : FSA) (p : Int) : Prop :=
  a.IsState p ∧ ∀ q, a.IsState q → a.Equiv q p → p ≤ q

/-- The classes of language-equivalent states are met in the same order in `a1` and `a2`:
the smallest states of two classes of `a1` compare as the smallest states of the classes of
`a2` with the same languages. -/
def SameOrder (a1 a2 : FSA) : Prop :=
  ∀ p p' q q', a1.IsLeast p → a1.IsLeast p' → a2.IsLeast q → a2.IsLeast q' →
    SameLanguage a1 a2 p q → SameLanguage a1 a2 p' q' → (p < p' ↔ q < q')

/-- The automaton `sample3` with one more state, accepting and not reachable. -/
def sample3extra : FSA :=
  { sigma := [("a", 0), ("b", 1)]
    Q := [("p0", 0), ("p1", 1), ("p2", 2), ("p3", 3)]
    δ := [[1, 2], [2, 2], [2, 2], [3, 3]]
    F := [false, true, false, true]
    s := 0 }

/-! ## The queue update as the compiled program performs it -/

/-- The update of `W` after a split, for the reads of `Y` that follow `P.erase(it)`. The
reference `Y` points into the node that `P.erase(it)` has freed; `P.insert(intersection)`
allocates its node next and takes that storage again, so `W.find(Y)` and `W.erase(Y)` find
the intersection where the block was. -/
def updateQueueStale (W : Fam) (inter diff : IntSet) : Fam :=
  if inter ∈ W then famInsert diff (famInsert inter (famErase inter W))
  else if inter.length ≤ diff.length then famInsert inter W
  else famInsert diff W

/-- The inner `while (it != P.end())` loop with the queue update of the compiled program. -/
def refineLoopStale (X : IntSet) : Nat → Fam → Fam → Option (Fam × Fam)
  | 0, _, _ => none
  | fuel + 1, P, W =>
    match findSplit X P with
    | none => some (P, W)
    | some Y =>
      let inter := setIntersection X Y
      let diff := setDifference Y X
      refineLoopStale X fuel (famInsert diff (famInsert inter (famErase Y P)))
        (updateQueueStale W inter diff)

/-- The `for (letter ...)` loop with the queue update of the compiled program. -/
def letterLoopStale (a : FSA) (A : IntSet) (fuel : Nat) :
    List Nat → Fam → Fam → Option (Fam × Fam)
  | [], P, W => some (P, W)
  | letter :: rest, P, W =>
    match refineLoopStale (preimage a A letter) fuel P W with
    | none => none
    | some PW => letterLoopStale a A fuel rest PW.1 PW.2

/-- The `while (!W.empty())` loop with the queue update of the compiled program. -/
def whileLoopStale (a : FSA) (innerFuel : Nat) : Nat → Fam → Fam → Option Fam
  | _, P, [] => some P
  | 0, _, _ :: _ => none
  | fuel + 1, P, A :: W =>
    match letterLoopStale a A innerFuel (List.range a.sigma.length) P W with
    | none => none
    | some PW => whileLoopStale a innerFuel fuel PW.1 PW.2

/-- The final partition with the queue update of the compiled program. -/
def finalPartitionStale (a : FSA) : Option Fam :=
  let P := initialBlocks a
  whileLoopStale a (a.δ.length + 1) (2 * a.δ.length + 3) P P

/-- The function `minimize` with the queue update of the compiled program. -/
def minimizeStale (a : FSA) : Outcome :=
  match finalPartitionStale a with
  | none => .outOfFuel
  | some P => output a P

/-- The values of `(P, W)` that the loops go through with the queue update of the compiled
program: the initial pair, the pair after a block was taken from the queue, and the pair
after a block of `P` was split. -/
inductive ReachesStale (a : FSA) : Fam → Fam → Prop where
  | start : ReachesStale a (initialBlocks a) (initialBlocks a)
  | pop (P : Fam) (A : IntSet) (W : Fam) : ReachesStale a P (A :: W) → ReachesStale a P W
  | split (P W : Fam) (A : IntSet) (letter : Nat) (Y : IntSet) :
      ReachesStale a P W → findSplit (preimage a A letter) P = some Y →
      ReachesStale a
        (famInsert (setDifference Y (preimage a A letter))
          (famInsert (setIntersection (preimage a A letter) Y) (famErase Y P)))
        (updateQueueStale W (setIntersection (preimage a A letter) Y)
          (setDifference Y (preimage a A letter)))

/-- Four states over one symbol: states 0 and 1 accept, states 2 and 3 do not, and state 2
alone moves into an accepting state. -/
def sampleStale : FSA :=
  { sigma := [("a", 0)]
    Q := [("q0", 0), ("q1", 1), ("q2", 2), ("q3", 3)]
    δ := [[0], [1], [0], [3]]
    F := [true, true, false, false]
    s := 0 }

end Tafya

namespace Tafya

/-! ## Ordered sets: membership, order and length -/

theorem mem_setInsert (x a : Int) (S : IntSet) : x ∈ setInsert a S ↔ x = a ∨ x ∈ S := by
  induction S with
  | nil => simp [setInsert]
  | cons y ys ih =>
    unfold setInsert
    by_cases h1 : a < y
    · simp [h1]
    · by_cases h2 : y < a
      · rw [if_neg h1, if_pos h2, List.mem_cons, ih, List.mem_cons]
        tauto
      · have hya : a = y := by omega
        rw [if_neg h1, if_neg h2, List.mem_cons, hya]
        tauto

theorem setInsert_sorted (a : Int) (S : IntSet) (h : S.Pairwise (· < ·)) :
    (setInsert a S).Pairwise (· < ·) := by
  induction S with
  | nil => simp [setInsert]
  | cons y ys ih =>
    unfold setInsert
    rw [List.pairwise_cons] at h
    by_cases h1 : a < y
    · simp only [h1, if_true]
      refine List.pairwise_cons.2 ⟨?_, List.pairwise_cons.2 h⟩
      intro z hz
      rcases List.mem_cons.1 hz with rfl | hz
      · exact h1
      · exact lt_trans h1 (h.1 z hz)
    · by_cases h2 : y < a
      · simp only [h1, h2, if_false, if_true]
        refine List.pairwise_cons.2 ⟨?_, ih h.2⟩
        intro z hz
        rcases (mem_setInsert z a ys).1 hz with rfl | hz
        · exact h2
        · exact h.1 z hz
      · simp only [h1, h2, if_false]
        exact List.pairwise_cons.2 h

theorem length_setInsert_le (a : Int) (S : IntSet) : (setInsert a S).length ≤ S.length + 1 := by
  induction S with
  | nil => simp [setInsert]
  | cons y ys ih =>
    unfold setInsert
    split_ifs <;> simp only [List.length_cons] <;> omega

theorem sorted_nodup {S : IntSet} (h : S.Pairwise (· < ·)) : S.Nodup :=
  h.imp (fun hab => ne_of_lt hab)

theorem setLt_total : ∀ (S T : IntSet), setLt S T = false → setLt T S = false → S = T
  | [], [], _, _ => rfl
  | [], _ :: _, h, _ => by simp [setLt] at h
  | _ :: _, [], _, h => by simp [setLt] at h
  | x :: xs, y :: ys, h1, h2 => by
    unfold setLt at h1 h2
    by_cases hxy : x < y
    · simp [hxy] at h1
    · by_cases hyx : y < x
      · simp [hyx] at h2
      · have : x = y := by omega
        subst this
        simp only [hxy, if_false] at h1 h2
        rw [setLt_total xs ys h1 h2]

theorem mem_famInsert (T S : IntSet) (P : Fam) : T ∈ famInsert S P ↔ T = S ∨ T ∈ P := by
  induction P with
  | nil => simp [famInsert]
  | cons U Us ih =>
    unfold famInsert
    by_cases h1 : setLt S U = true
    · simp [h1]
    · by_cases h2 : setLt U S = true
      · rw [if_neg h1, if_pos h2, List.mem_cons, ih, List.mem_cons]
        tauto
      · have hSU : S = U := setLt_total S U (by simpa using h1) (by simpa using h2)
        rw [if_neg h1, if_neg h2, List.mem_cons, hSU]
        tauto

theorem famInsert_perm (S : IntSet) (P : Fam) (h : S ∉ P) : (famInsert S P).Perm (S :: P) := by
  induction P with
  | nil => simp [famInsert]
  | cons U Us ih =>
    unfold famInsert
    have hU : S ≠ U := fun e => h (by simp [e])
    have hUs : S ∉ Us := fun e => h (List.mem_cons_of_mem _ e)
    by_cases h1 : setLt S U = true
    · simp [h1]
    · by_cases h2 : setLt U S = true
      · rw [if_neg h1, if_pos h2]
        exact ((ih hUs).cons U).trans (List.Perm.swap S U Us)
      · exact absurd (setLt_total S U (by simpa using h1) (by simpa using h2)) hU

theorem famInsert_length_le (S : IntSet) (P : Fam) : (famInsert S P).length ≤ P.length + 1 := by
  induction P with
  | nil => simp [famInsert]
  | cons U Us ih =>
    unfold famInsert
    split_ifs <;> simp only [List.length_cons] <;> omega

theorem mem_famErase (T S : IntSet) (P : Fam) : T ∈ famErase S P ↔ T ∈ P ∧ T ≠ S := by
  simp [famErase]

theorem mem_setIntersection (x : Int) (X Y : IntSet) :
    x ∈ setIntersection X Y ↔ x ∈ X ∧ x ∈ Y := by
  simp [setIntersection]

theorem mem_setDifference (x : Int) (Y X : IntSet) :
    x ∈ setDifference Y X ↔ x ∈ Y ∧ x ∉ X := by
  simp [setDifference]

/-! ## `fsa_equal` -/

theorem columnsEqual_fold (f : Nat → Bool) (l : List Nat) (b : Bool) :
    l.foldl (fun equal k => if f k then false else equal) b = (b && l.all (fun k => !f k)) := by
  induction l generalizing b with
  | nil => simp
  | cons k ks ih =>
    simp only [List.foldl_cons, ih, List.all_cons]
    cases f k <;> cases b <;> simp

theorem columnsEqual_iff (a1 a2 : FSA) (i j : Nat) :
    columnsEqual a1 a2 i j = true ↔ ∀ k < a1.δ.length, a1.entry k i = a2.entry k j := by
  unfold columnsEqual
  have h := columnsEqual_fold (fun k => decide (a1.entry k i ≠ a2.entry k j))
    (List.range a1.δ.length) true
  simp only [decide_eq_true_eq] at h
  rw [h]
  simp [List.all_eq_true]

theorem findEqualCol_iff (a1 a2 : FSA) (i : Nat) (js : List Nat) :
    findEqualCol a1 a2 i js = true ↔ ∃ j ∈ js, columnsEqual a1 a2 i j = true := by
  induction js with
  | nil => simp [findEqualCol]
  | cons j js ih =>
    unfold findEqualCol
    by_cases h : columnsEqual a1 a2 i j = true
    · simp [h]
    · simp [h, ih]

theorem allColsFound_iff (a1 a2 : FSA) (is : List Nat) :
    allColsFound a1 a2 is = true ↔
      ∀ i ∈ is, findEqualCol a1 a2 i (List.range a2.sigma.length) = true := by
  induction is with
  | nil => simp [allColsFound]
  | cons i is ih =>
    unfold allColsFound
    by_cases h : findEqualCol a1 a2 i (List.range a2.sigma.length) = true
    · simp [h, ih]
    · simp [h]

theorem fsa_equal_spec (a1 a2 : FSA) :
    fsa_equal a1 a2 = true ↔
      a1.δ.length = a2.δ.length ∧
      ∀ i < a1.sigma.length, ∃ j < a2.sigma.length,
        ∀ k < a1.δ.length, a1.entry k i = a2.entry k j := by
  unfold fsa_equal
  by_cases hn : a1.δ.length = a2.δ.length
  · simp [hn, allColsFound_iff, findEqualCol_iff, columnsEqual_iff]
  · simp [hn]


/-! ## The loops of `minimize` run to completion -/

theorem length_filter_add (p : Int → Bool) (l : List Int) :
    (l.filter p).length + (l.filter (fun e => !p e)).length = l.length := by
  induction l with
  | nil => rfl
  | cons x xs ih =>
    cases h : p x <;> simp [List.filter_cons, h] <;> omega

theorem length_split (X Y : IntSet) (hX : X.Nodup) (hY : Y.Nodup) :
    (setIntersection X Y).length + (setDifference Y X).length = Y.length := by
  have h1 : (setIntersection X Y).Perm (Y.filter (fun e => decide (e ∈ X))) := by
    unfold setIntersection
    rw [List.perm_ext_iff_of_nodup (hX.filter _) (hY.filter _)]
    intro x
    simp [and_comm]
  have h2 := length_filter_add (fun e => decide (e ∈ X)) Y
  have h3 : setDifference Y X = Y.filter (fun e => !decide (e ∈ X)) := by
    unfold setDifference
    congr 1
    funext e
    simp
  rw [h1.length_eq, h3]
  exact h2

theorem potential_cons (Y : IntSet) (P : Fam) :
    potential (Y :: P) = (Y.length - 1) + potential P := by
  simp [potential]

theorem potential_famInsert_le (S : IntSet) (P : Fam) :
    potential (famInsert S P) ≤ potential P + (S.length - 1) := by
  induction P with
  | nil => simp [famInsert, potential]
  | cons U Us ih =>
    unfold famInsert
    split_ifs
    · simp only [potential_cons]; omega
    · simp only [potential_cons]; omega
    · simp only [potential_cons]; omega

theorem potential_famErase_le (S : IntSet) (P : Fam) : potential (famErase S P) ≤ potential P := by
  induction P with
  | nil => simp [famErase]
  | cons U Us ih =>
    unfold famErase at ih ⊢
    rw [List.filter_cons]
    split_ifs
    · simp only [potential_cons]; omega
    · simp only [potential_cons]; omega

theorem potential_famErase_mem (Y : IntSet) (P : Fam) (h : Y ∈ P) :
    potential (famErase Y P) + (Y.length - 1) ≤ potential P := by
  induction P with
  | nil => simp at h
  | cons U Us ih =>
    by_cases hU : U = Y
    · subst hU
      have h1 : famErase U (U :: Us) = famErase U Us := by simp [famErase]
      rw [h1, potential_cons]
      have := potential_famErase_le U Us
      omega
    · have hm : Y ∈ Us := by
        rcases List.mem_cons.1 h with e | e
        · exact absurd e.symm hU
        · exact e
      have h1 : famErase Y (U :: Us) = U :: famErase Y Us := by simp [famErase, hU]
      rw [h1, potential_cons, potential_cons]
      have := ih hm
      omega

theorem length_famErase_le (S : IntSet) (W : Fam) : (famErase S W).length ≤ W.length := by
  unfold famErase
  exact List.length_filter_le _ _

theorem length_famErase_mem (Y : IntSet) (W : Fam) (h : Y ∈ W) :
    (famErase Y W).length + 1 ≤ W.length := by
  induction W with
  | nil => simp at h
  | cons U Us ih =>
    by_cases hU : U = Y
    · subst hU
      have h1 : famErase U (U :: Us) = famErase U Us := by simp [famErase]
      rw [h1, List.length_cons]
      have := length_famErase_le U Us
      omega
    · have hm : Y ∈ Us := by
        rcases List.mem_cons.1 h with e | e
        · exact absurd e.symm hU
        · exact e
      have h1 : famErase Y (U :: Us) = U :: famErase Y Us := by simp [famErase, hU]
      rw [h1, List.length_cons, List.length_cons]
      have := ih hm
      omega

theorem length_updateQueue_le (W : Fam) (Y inter diff : IntSet) :
    (updateQueue W Y inter diff).length ≤ W.length + 1 := by
  unfold updateQueue
  split_ifs with h1 h2
  · have e1 := length_famErase_mem Y W h1
    have e2 := famInsert_length_le inter (famErase Y W)
    have e3 := famInsert_length_le diff (famInsert inter (famErase Y W))
    omega
  · exact famInsert_length_le _ _
  · exact famInsert_length_le _ _

theorem findSplit_some (X : IntSet) (P : Fam) (Y : IntSet) (h : findSplit X P = some Y) :
    Y ∈ P ∧ setIntersection X Y ≠ [] ∧ setDifference Y X ≠ [] := by
  induction P with
  | nil => simp [findSplit] at h
  | cons U Us ih =>
    unfold findSplit at h
    by_cases hc : ((setIntersection X U).isEmpty || (setDifference U X).isEmpty) = true
    · rw [if_pos hc] at h
      have := ih h
      exact ⟨List.mem_cons_of_mem _ this.1, this.2⟩
    · rw [if_neg hc] at h
      have hUY : U = Y := by simpa using h
      subst hUY
      simp only [Bool.or_eq_true, List.isEmpty_iff, not_or] at hc
      exact ⟨List.mem_cons_self _ _, hc.1, hc.2⟩

theorem findSplit_none (X : IntSet) (P : Fam) (h : findSplit X P = none) :
    ∀ Y ∈ P, setIntersection X Y = [] ∨ setDifference Y X = [] := by
  induction P with
  | nil => simp
  | cons U Us ih =>
    unfold findSplit at h
    by_cases hc : ((setIntersection X U).isEmpty || (setDifference U X).isEmpty) = true
    · rw [if_pos hc] at h
      intro Y hY
      rcases List.mem_cons.1 hY with rfl | hY
      · simpa [List.isEmpty_iff] using hc
      · exact ih h Y hY
    · rw [if_neg hc] at h
      simp at h

/-- Every block is a duplicate-free list. -/
theorem blocksNodup_split (X : IntSet) (hX : X.Nodup) (P : Fam) (Y : IntSet)
    (hP : ∀ Z ∈ P, Z.Nodup) (hY : Y ∈ P) :
    ∀ Z ∈ famInsert (setDifference Y X) (famInsert (setIntersection X Y) (famErase Y P)),
      Z.Nodup := by
  intro Z hZ
  rw [mem_famInsert, mem_famInsert, mem_famErase] at hZ
  rcases hZ with rfl | rfl | hZ
  · exact (hP Y hY).filter _
  · exact hX.filter _
  · exact hP Z hZ.1

theorem potential_split (X : IntSet) (hX : X.Nodup) (P : Fam) (Y : IntSet)
    (hP : ∀ Z ∈ P, Z.Nodup) (hY : Y ∈ P)
    (hI : setIntersection X Y ≠ []) (hD : setDifference Y X ≠ []) :
    potential (famInsert (setDifference Y X) (famInsert (setIntersection X Y) (famErase Y P)))
      + 1 ≤ potential P := by
  have h1 := potential_famInsert_le (setDifference Y X)
    (famInsert (setIntersection X Y) (famErase Y P))
  have h2 := potential_famInsert_le (setIntersection X Y) (famErase Y P)
  have h3 := potential_famErase_mem Y P hY
  have h4 := length_split X Y hX (hP Y hY)
  have h5 : 0 < (setIntersection X Y).length := List.length_pos.2 hI
  have h6 : 0 < (setDifference Y X).length := List.length_pos.2 hD
  omega

theorem refineLoop_terminates (X : IntSet) (hX : X.Nodup) :
    ∀ (fuel : Nat) (P W : Fam), (∀ Z ∈ P, Z.Nodup) → potential P < fuel →
      ∃ r, refineLoop X fuel P W = some r ∧ (∀ Z ∈ r.1, Z.Nodup) ∧
        potential r.1 ≤ potential P ∧
        2 * potential r.1 + r.2.length ≤ 2 * potential P + W.length := by
  intro fuel
  induction fuel with
  | zero => intro P W _ h; omega
  | succ fuel ih =>
    intro P W hP hfuel
    unfold refineLoop
    cases hf : findSplit X P with
    | none => exact ⟨(P, W), rfl, hP, le_refl _, le_refl _⟩
    | some Y =>
      obtain ⟨hY, hI, hD⟩ := findSplit_some X P Y hf
      have hpot := potential_split X hX P Y hP hY hI hD
      have hnd := blocksNodup_split X hX P Y hP hY
      have hq := length_updateQueue_le W Y (setIntersection X Y) (setDifference Y X)
      obtain ⟨r, hr, hr1, hr2, hr3⟩ := ih _ (updateQueue W Y (setIntersection X Y)
        (setDifference Y X)) hnd (by omega)
      exact ⟨r, hr, hr1, by omega, by omega⟩

theorem preimage_sorted_aux (a : FSA) (A : IntSet) (letter : Nat) (l : List Nat) (X : IntSet)
    (hX : X.Pairwise (· < ·)) :
    (l.foldl (fun X row => if a.entry row letter ∈ A then setInsert (row : Int) X else X)
      X).Pairwise (· < ·) := by
  induction l generalizing X with
  | nil => exact hX
  | cons r rs ih =>
    rw [List.foldl_cons]
    apply ih
    split_ifs
    · exact setInsert_sorted _ _ hX
    · exact hX

theorem preimage_nodup (a : FSA) (A : IntSet) (letter : Nat) : (preimage a A letter).Nodup :=
  sorted_nodup (preimage_sorted_aux a A letter _ [] List.Pairwise.nil)

theorem letterLoop_terminates (a : FSA) (A : IntSet) (fuel : Nat) :
    ∀ (letters : List Nat) (P W : Fam), (∀ Z ∈ P, Z.Nodup) → potential P < fuel →
      ∃ r, letterLoop a A fuel letters P W = some r ∧ (∀ Z ∈ r.1, Z.Nodup) ∧
        potential r.1 ≤ potential P ∧
        2 * potential r.1 + r.2.length ≤ 2 * potential P + W.length := by
  intro letters
  induction letters with
  | nil => intro P W hP _; exact ⟨(P, W), rfl, hP, le_refl _, le_refl _⟩
  | cons c cs ih =>
    intro P W hP hfuel
    obtain ⟨r, hr, hr1, hr2, hr3⟩ :=
      refineLoop_terminates (preimage a A c) (preimage_nodup a A c) fuel P W hP hfuel
    obtain ⟨r2, hs, hs1, hs2, hs3⟩ := ih r.1 r.2 hr1 (by omega)
    refine ⟨r2, ?_, hs1, by omega, by omega⟩
    unfold letterLoop
    rw [hr]
    exact hs

theorem whileLoop_terminates (a : FSA) (innerFuel : Nat) :
    ∀ (fuel : Nat) (P W : Fam), (∀ Z ∈ P, Z.Nodup) → potential P < innerFuel →
      2 * potential P + W.length ≤ fuel →
      ∃ R, whileLoop a innerFuel fuel P W = some R := by
  intro fuel
  induction fuel with
  | zero =>
    intro P W _ _ h
    have hW : W = [] := List.length_eq_zero.1 (by omega)
    subst hW
    exact ⟨P, by simp [whileLoop]⟩
  | succ fuel ih =>
    intro P W hP hin hfuel
    cases W with
    | nil => exact ⟨P, by simp [whileLoop]⟩
    | cons A W =>
      obtain ⟨r, hr, hr1, hr2, hr3⟩ :=
        letterLoop_terminates a A innerFuel (List.range a.sigma.length) P W hP hin
      simp only [List.length_cons] at hfuel
      obtain ⟨R, hR⟩ := ih r.1 r.2 hr1 (by omega) (by omega)
      refine ⟨R, ?_⟩
      unfold whileLoop
      rw [hr]
      exact hR


/-! ## The initial partition -/

theorem classify_aux (F : List Bool) (l : List Nat) (fn : IntSet × IntSet)
    (h1 : fn.1.Pairwise (· < ·)) (h2 : fn.2.Pairwise (· < ·)) :
    let r := l.foldl
      (fun (fn : IntSet × IntSet) (i : Nat) =>
        if F.getD i false then (setInsert (i : Int) fn.1, fn.2)
        else (fn.1, setInsert (i : Int) fn.2)) fn
    r.1.Pairwise (· < ·) ∧ r.2.Pairwise (· < ·) ∧
    r.1.length + r.2.length ≤ fn.1.length + fn.2.length + l.length ∧
    (∀ x, x ∈ r.1 ↔ x ∈ fn.1 ∨ ∃ i ∈ l, x = (i : Int) ∧ F.getD i false = true) ∧
    (∀ x, x ∈ r.2 ↔ x ∈ fn.2 ∨ ∃ i ∈ l, x = (i : Int) ∧ F.getD i false = false) := by
  induction l generalizing fn with
  | nil => simp [h1, h2]
  | cons i is ih =>
    simp only [List.foldl_cons]
    by_cases hF : F.getD i false = true
    · rw [if_pos hF]
      have := ih (setInsert (i : Int) fn.1, fn.2) (setInsert_sorted _ _ h1) h2
      obtain ⟨a1, a2, a3, a4, a5⟩ := this
      refine ⟨a1, a2, ?_, ?_, ?_⟩
      · have := length_setInsert_le (i : Int) fn.1
        simp only [List.length_cons] at a3 ⊢
        omega
      · intro x
        rw [a4 x, mem_setInsert]
        simp only [List.mem_cons, exists_eq_or_imp]
        tauto
      · intro x
        rw [a5 x]
        simp only [List.mem_cons, exists_eq_or_imp]
        constructor
        · rintro (h | h)
          · exact Or.inl h
          · exact Or.inr (Or.inr h)
        · rintro (h | ⟨_, h⟩ | h)
          · exact Or.inl h
          · rw [hF] at h; exact absurd h (by decide)
          · exact Or.inr h
    · rw [if_neg hF]
      have hF2 : F.getD i false = false := by simpa using hF
      have := ih (fn.1, setInsert (i : Int) fn.2) h1 (setInsert_sorted _ _ h2)
      obtain ⟨a1, a2, a3, a4, a5⟩ := this
      refine ⟨a1, a2, ?_, ?_, ?_⟩
      · have := length_setInsert_le (i : Int) fn.2
        simp only [List.length_cons] at a3 ⊢
        omega
      · intro x
        rw [a4 x]
        simp only [List.mem_cons, exists_eq_or_imp]
        constructor
        · rintro (h | h)
          · exact Or.inl h
          · exact Or.inr (Or.inr h)
        · rintro (h | ⟨_, h⟩ | h)
          · exact Or.inl h
          · rw [hF2] at h; exact absurd h (by decide)
          · exact Or.inr h
      · intro x
        rw [a5 x, mem_setInsert]
        simp only [List.mem_cons, exists_eq_or_imp]
        tauto

theorem classify_spec (a : FSA) :
    (classify a).1.Pairwise (· < ·) ∧ (classify a).2.Pairwise (· < ·) ∧
    (classify a).1.length + (classify a).2.length ≤ a.δ.length ∧
    (∀ x, x ∈ (classify a).1 ↔ ∃ i < a.δ.length, x = (i : Int) ∧ a.F.getD i false = true) ∧
    (∀ x, x ∈ (classify a).2 ↔ ∃ i < a.δ.length, x = (i : Int) ∧ a.F.getD i false = false) := by
  have h := classify_aux a.F (List.range a.δ.length) ([], []) List.Pairwise.nil List.Pairwise.nil
  simp only [List.length_nil, List.length_range, zero_add, List.not_mem_nil, false_or,
    List.mem_range] at h
  exact h

theorem mem_initialBlocks (a : FSA) (Y : IntSet) :
    Y ∈ initialBlocks a ↔
      (Y = (classify a).1 ∧ (classify a).1 ≠ []) ∨ (Y = (classify a).2 ∧ (classify a).2 ≠ []) := by
  unfold initialBlocks
  simp only [gt_iff_lt, List.length_pos]
  by_cases h1 : (classify a).1 = [] <;> by_cases h2 : (classify a).2 = []
  · simp [h1, h2]
  · simp only [h1, h2, ne_eq, not_true_eq_false, if_false, not_false_eq_true, if_true,
      mem_famInsert, List.not_mem_nil]
    tauto
  · simp only [h1, h2, ne_eq, not_true_eq_false, if_false, not_false_eq_true, if_true,
      mem_famInsert, List.not_mem_nil]
    tauto
  · simp only [h1, h2, ne_eq, not_true_eq_false, if_false, not_false_eq_true, if_true,
      mem_famInsert, List.not_mem_nil]
    tauto

theorem initialBlocks_nodup (a : FSA) : ∀ Z ∈ initialBlocks a, Z.Nodup := by
  intro Z hZ
  obtain ⟨s1, s2, _⟩ := classify_spec a
  rcases (mem_initialBlocks a Z).1 hZ with ⟨rfl, _⟩ | ⟨rfl, _⟩
  · exact sorted_nodup s1
  · exact sorted_nodup s2

theorem initialBlocks_potential (a : FSA) : potential (initialBlocks a) ≤ a.δ.length := by
  obtain ⟨_, _, hlen, _⟩ := classify_spec a
  unfold initialBlocks
  simp only
  have e0 : potential ([] : Fam) = 0 := rfl
  have hA := potential_famInsert_le (classify a).1 []
  have hB := potential_famInsert_le (classify a).2 []
  have hC := potential_famInsert_le (classify a).2 (famInsert (classify a).1 [])
  rw [e0] at hA hB
  split_ifs <;> omega

theorem initialBlocks_length (a : FSA) : (initialBlocks a).length ≤ 2 := by
  unfold initialBlocks
  simp only
  have hA := famInsert_length_le (classify a).1 []
  have hB := famInsert_length_le (classify a).2 []
  have hC := famInsert_length_le (classify a).2 (famInsert (classify a).1 [])
  simp only [List.length_nil] at hA hB
  split_ifs
  · omega
  · omega
  · omega
  · simp

theorem finalPartition_some (a : FSA) : ∃ P, finalPartition a = some P := by
  unfold finalPartition
  have h1 := initialBlocks_potential a
  have h2 := initialBlocks_length a
  exact whileLoop_terminates a _ _ _ _ (initialBlocks_nodup a) (by omega) (by omega)

/-! ## Invariants carried through the loops -/

theorem refineLoop_inv (X : IntSet) (Inv : Fam → Fam → Prop)
    (hstep : ∀ P W Y, Inv P W → findSplit X P = some Y →
      Inv (famInsert (setDifference Y X) (famInsert (setIntersection X Y) (famErase Y P)))
        (updateQueue W Y (setIntersection X Y) (setDifference Y X))) :
    ∀ (fuel : Nat) (P W : Fam) (r : Fam × Fam), Inv P W → refineLoop X fuel P W = some r →
      Inv r.1 r.2 ∧ findSplit X r.1 = none := by
  intro fuel
  induction fuel with
  | zero => intro P W r _ h; simp [refineLoop] at h
  | succ fuel ih =>
    intro P W r hInv h
    unfold refineLoop at h
    cases hf : findSplit X P with
    | none =>
      rw [hf] at h
      simp only [Option.some.injEq] at h
      subst h
      exact ⟨hInv, hf⟩
    | some Y =>
      rw [hf] at h
      exact ih _ _ r (hstep P W Y hInv hf) h


/-! ## One split preserves the invariants -/

theorem disjoint_of_mem {P : Fam} (h : P.Pairwise List.Disjoint) {Y Z : IntSet}
    (hY : Y ∈ P) (hZ : Z ∈ P) (hne : Y ≠ Z) : List.Disjoint Y Z :=
  List.Pairwise.forall (fun _ _ hd => hd.symm) h hY hZ hne

theorem mem_split (P : Fam) (Y I D Z : IntSet) :
    Z ∈ famInsert D (famInsert I (famErase Y P)) ↔ Z = D ∨ Z = I ∨ (Z ∈ P ∧ Z ≠ Y) := by
  rw [mem_famInsert, mem_famInsert, mem_famErase]

theorem mem_updateQueue_old {W : Fam} {Y I D S : IntSet} (hS : S ∈ W) (hne : S ≠ Y) :
    S ∈ updateQueue W Y I D := by
  unfold updateQueue
  split_ifs
  · rw [mem_famInsert, mem_famInsert, mem_famErase]
    exact Or.inr (Or.inr ⟨hS, hne⟩)
  · rw [mem_famInsert]; exact Or.inr hS
  · rw [mem_famInsert]; exact Or.inr hS

theorem mem_updateQueue_both {W : Fam} {Y : IntSet} (I D : IntSet) (hY : Y ∈ W) :
    I ∈ updateQueue W Y I D ∧ D ∈ updateQueue W Y I D := by
  unfold updateQueue
  rw [if_pos hY]
  constructor
  · rw [mem_famInsert, mem_famInsert]; exact Or.inr (Or.inl rfl)
  · rw [mem_famInsert]; exact Or.inl rfl

theorem mem_updateQueue_one (W : Fam) (Y I D : IntSet) :
    I ∈ updateQueue W Y I D ∨ D ∈ updateQueue W Y I D := by
  unfold updateQueue
  split_ifs
  · left; rw [mem_famInsert, mem_famInsert]; exact Or.inr (Or.inl rfl)
  · left; rw [mem_famInsert]; exact Or.inl rfl
  · right; rw [mem_famInsert]; exact Or.inl rfl

theorem mem_updateQueue_cases {W : Fam} {Y I D S : IntSet} (h : S ∈ updateQueue W Y I D) :
    S = I ∨ S = D ∨ S ∈ W := by
  unfold updateQueue at h
  split_ifs at h
  · rw [mem_famInsert, mem_famInsert, mem_famErase] at h
    tauto
  · rw [mem_famInsert] at h; tauto
  · rw [mem_famInsert] at h; tauto

/-- Two targets that were in one block or told apart by the queue still are after a split. -/
theorem split_keeps_pending (P W : Fam) (Y I D : IntSet) (x y : Int)
    (hmem : ∀ z, z ∈ Y ↔ z ∈ I ∨ z ∈ D) (hdisj : ∀ z, z ∈ I → z ∉ D)
    (h : SameBlock P x y ∨ Separated W x y) :
    SameBlock (famInsert D (famInsert I (famErase Y P))) x y ∨
      Separated (updateQueue W Y I D) x y := by
  have hsep : ∀ u v : Int, u ∈ I → v ∈ D → Separated (updateQueue W Y I D) u v ∧
      Separated (updateQueue W Y I D) v u := by
    intro u v hu hv
    rcases mem_updateQueue_one W Y I D with hq | hq
    · exact ⟨⟨I, hq, fun e => hdisj v (e.1 hu) hv⟩, ⟨I, hq, fun e => hdisj v (e.2 hu) hv⟩⟩
    · exact ⟨⟨D, hq, fun e => hdisj u hu (e.2 hv)⟩, ⟨D, hq, fun e => hdisj u hu (e.1 hv)⟩⟩
  rcases h with ⟨B, hB, hx, hy⟩ | ⟨S, hS, hxy⟩
  · by_cases hBY : B = Y
    · subst hBY
      rcases (hmem x).1 hx with hxI | hxD <;> rcases (hmem y).1 hy with hyI | hyD
      · exact Or.inl ⟨I, (mem_split P B I D I).2 (Or.inr (Or.inl rfl)), hxI, hyI⟩
      · exact Or.inr (hsep x y hxI hyD).1
      · exact Or.inr (hsep y x hyI hxD).2
      · exact Or.inl ⟨D, (mem_split P B I D D).2 (Or.inl rfl), hxD, hyD⟩
    · exact Or.inl ⟨B, (mem_split P Y I D B).2 (Or.inr (Or.inr ⟨hB, hBY⟩)), hx, hy⟩
  · right
    by_cases hSY : S = Y
    · subst hSY
      obtain ⟨hIq, hDq⟩ := mem_updateQueue_both I D hS
      by_cases hxS : x ∈ S
      · have hyS : y ∉ S := fun e => hxy ⟨fun _ => e, fun _ => hxS⟩
        rcases (hmem x).1 hxS with hxI | hxD
        · exact ⟨I, hIq, fun e => hyS ((hmem y).2 (Or.inl (e.1 hxI)))⟩
        · exact ⟨D, hDq, fun e => hyS ((hmem y).2 (Or.inr (e.1 hxD)))⟩
      · have hyS : y ∈ S := by
          by_contra hy
          exact hxy ⟨fun e => absurd e hxS, fun e => absurd e hy⟩
        rcases (hmem y).1 hyS with hyI | hyD
        · exact ⟨I, hIq, fun e => hxS ((hmem x).2 (Or.inl (e.2 hyI)))⟩
        · exact ⟨D, hDq, fun e => hxS ((hmem x).2 (Or.inr (e.2 hyD)))⟩
    · exact ⟨S, mem_updateQueue_old hS hSY, hxy⟩

theorem partition_split (a : FSA) (P : Fam) (Y I D : IntSet) (h : IsPartition a P)
    (hY : Y ∈ P) (hI : I ≠ []) (hD : D ≠ [])
    (hmem : ∀ z, z ∈ Y ↔ z ∈ I ∨ z ∈ D) (hdisj : ∀ z, z ∈ I → z ∉ D)
    (hIn : I.Nodup) (hDn : D.Nodup) :
    IsPartition a (famInsert D (famInsert I (famErase Y P))) := by
  have hIY : ∀ z ∈ I, z ∈ Y := fun z hz => (hmem z).2 (Or.inl hz)
  have hDY : ∀ z ∈ D, z ∈ Y := fun z hz => (hmem z).2 (Or.inr hz)
  have hothers : ∀ Z ∈ famErase Y P, List.Disjoint Y Z := by
    intro Z hZ
    rw [mem_famErase] at hZ
    exact disjoint_of_mem h.disjoint hY hZ.1 (Ne.symm hZ.2)
  obtain ⟨i0, hi0⟩ := List.exists_mem_of_ne_nil I hI
  obtain ⟨d0, hd0⟩ := List.exists_mem_of_ne_nil D hD
  have hIno : I ∉ famErase Y P := fun e => hothers I e (hIY i0 hi0) hi0
  have hDno : D ∉ famInsert I (famErase Y P) := by
    intro e
    rw [mem_famInsert] at e
    rcases e with e | e
    · exact hdisj d0 (e ▸ hd0) hd0
    · exact hothers D e (hDY d0 hd0) hd0
  refine ⟨?_, ?_, ?_, ?_, ?_⟩
  · intro Z hZ
    rcases (mem_split P Y I D Z).1 hZ with rfl | rfl | hZ
    · exact hD
    · exact hI
    · exact h.nonempty Z hZ.1
  · intro Z hZ
    rcases (mem_split P Y I D Z).1 hZ with rfl | rfl | hZ
    · exact hDn
    · exact hIn
    · exact h.nodup Z hZ.1
  · intro Z hZ x hx
    rcases (mem_split P Y I D Z).1 hZ with rfl | rfl | hZ
    · exact h.states Y hY x (hDY x hx)
    · exact h.states Y hY x (hIY x hx)
    · exact h.states Z hZ.1 x hx
  · intro x hx
    obtain ⟨Z, hZ, hxZ⟩ := h.cover x hx
    by_cases hZY : Z = Y
    · subst hZY
      rcases (hmem x).1 hxZ with hxI | hxD
      · exact ⟨I, (mem_split P Z I D I).2 (Or.inr (Or.inl rfl)), hxI⟩
      · exact ⟨D, (mem_split P Z I D D).2 (Or.inl rfl), hxD⟩
    · exact ⟨Z, (mem_split P Y I D Z).2 (Or.inr (Or.inr ⟨hZ, hZY⟩)), hxZ⟩
  · have hsymm : ∀ {x y : IntSet}, List.Disjoint x y → List.Disjoint y x := fun hd => hd.symm
    have p1 : (famInsert I (famErase Y P)).Pairwise List.Disjoint := by
      rw [(famInsert_perm I _ hIno).pairwise_iff hsymm, List.pairwise_cons]
      refine ⟨?_, h.disjoint.sublist (List.filter_sublist _)⟩
      intro Z hZ z hzI hzZ
      exact hothers Z hZ (hIY z hzI) hzZ
    rw [(famInsert_perm D _ hDno).pairwise_iff hsymm, List.pairwise_cons]
    refine ⟨?_, p1⟩
    intro Z hZ z hzD hzZ
    rw [mem_famInsert] at hZ
    rcases hZ with rfl | hZ
    · exact hdisj z hzZ hzD
    · exact hothers Z hZ (hDY z hzD) hzZ

theorem refining_split (a : FSA) (pend : Int → Int → Nat → Prop) (P W : Fam) (Y I D : IntSet)
    (h : Refining a pend P W) (hY : Y ∈ P) (hI : I ≠ []) (hD : D ≠ [])
    (hmem : ∀ z, z ∈ Y ↔ z ∈ I ∨ z ∈ D) (hdisj : ∀ z, z ∈ I → z ∉ D)
    (hIn : I.Nodup) (hDn : D.Nodup) (hIs : Saturated a I) (hDs : Saturated a D) :
    Refining a pend (famInsert D (famInsert I (famErase Y P))) (updateQueue W Y I D) := by
  have hsub : ∀ Z ∈ famInsert D (famInsert I (famErase Y P)),
      ∃ Z0 ∈ P, ∀ z ∈ Z, z ∈ Z0 := by
    intro Z hZ
    rcases (mem_split P Y I D Z).1 hZ with rfl | rfl | hZ
    · exact ⟨Y, hY, fun z hz => (hmem z).2 (Or.inr hz)⟩
    · exact ⟨Y, hY, fun z hz => (hmem z).2 (Or.inl hz)⟩
    · exact ⟨Z, hZ.1, fun z hz => hz⟩
  refine ⟨partition_split a P Y I D h.part hY hI hD hmem hdisj hIn hDn, ?_, ?_, ?_, ?_⟩
  · intro Z hZ p hp q hq
    obtain ⟨Z0, hZ0, hs⟩ := hsub Z hZ
    exact h.hom Z0 hZ0 p (hs p hp) q (hs q hq)
  · intro Z hZ p hp q hq c hc
    obtain ⟨Z0, hZ0, hs⟩ := hsub Z hZ
    rcases h.pending Z0 hZ0 p (hs p hp) q (hs q hq) c hc with h1 | h1 | h1
    · rcases split_keeps_pending P W Y I D _ _ hmem hdisj (Or.inl h1) with h2 | h2
      · exact Or.inl h2
      · exact Or.inr (Or.inl h2)
    · rcases split_keeps_pending P W Y I D _ _ hmem hdisj (Or.inr h1) with h2 | h2
      · exact Or.inl h2
      · exact Or.inr (Or.inl h2)
    · exact Or.inr (Or.inr h1)
  · intro Z hZ
    rcases (mem_split P Y I D Z).1 hZ with rfl | rfl | hZ
    · exact hDs
    · exact hIs
    · exact h.satP Z hZ.1
  · intro S hS
    rcases mem_updateQueue_cases hS with rfl | rfl | hS
    · exact hIs
    · exact hDs
    · exact h.satW S hS


/-! ## States, targets and language equivalence -/

theorem isState_toNat {a : FSA} {p : Int} (h : a.IsState p) :
    p.toNat < a.δ.length ∧ ((p.toNat : Nat) : Int) = p := by
  obtain ⟨h0, h1⟩ := h
  constructor
  · omega
  · exact Int.toNat_of_nonneg h0

theorem isState_ofNat {a : FSA} {i : Nat} (h : i < a.δ.length) : a.IsState (i : Int) := by
  constructor
  · exact Int.ofNat_nonneg i
  · exact_mod_cast h

theorem entry_isState {a : FSA} (ht : a.TableOk) {i c : Nat} (hi : i < a.δ.length)
    (hc : c < a.sigma.length) : a.IsState (a.entry i c) := by
  unfold FSA.entry
  rw [List.getD_eq_getElem _ _ hi]
  have hrow : a.δ[i] ∈ a.δ := List.getElem_mem _
  have hlen := ht.rows _ hrow
  have hc2 : c < a.δ[i].length := by omega
  rw [List.getD_eq_getElem _ _ hc2]
  exact ht.targets _ hrow _ (List.getElem_mem _)

theorem tr_isState {a : FSA} (ht : a.TableOk) {p : Int} (hp : a.IsState p) {c : Nat}
    (hc : c < a.sigma.length) : a.IsState (a.tr p c) :=
  entry_isState ht (isState_toNat hp).1 hc

theorem tr_ofNat (a : FSA) (i c : Nat) : a.tr (i : Int) c = a.entry i c := by
  simp [FSA.tr]

theorem run_isState {a : FSA} (ht : a.TableOk) :
    ∀ (w : List Nat) (p : Int), a.IsState p → a.IsWord w → a.IsState (a.run p w)
  | [], p, hp, _ => hp
  | c :: w, p, hp, hw => by
    unfold FSA.run
    exact run_isState ht w _ (tr_isState ht hp (hw c (List.mem_cons_self _ _)))
      (fun d hd => hw d (List.mem_cons_of_mem _ hd))

theorem equiv_refl (a : FSA) (p : Int) : a.Equiv p p := fun _ _ => rfl

theorem equiv_symm {a : FSA} {p q : Int} (h : a.Equiv p q) : a.Equiv q p :=
  fun w hw => (h w hw).symm

theorem equiv_trans {a : FSA} {p q r : Int} (h1 : a.Equiv p q) (h2 : a.Equiv q r) :
    a.Equiv p r := fun w hw => (h1 w hw).trans (h2 w hw)

theorem equiv_acc {a : FSA} {p q : Int} (h : a.Equiv p q) : a.acc p = a.acc q :=
  h [] (fun _ hc => absurd hc (List.not_mem_nil _))

theorem equiv_tr {a : FSA} {p q : Int} (h : a.Equiv p q) {c : Nat} (hc : c < a.sigma.length) :
    a.Equiv (a.tr p c) (a.tr q c) := by
  intro w hw
  have := h (c :: w) (by
    intro d hd
    rcases List.mem_cons.1 hd with rfl | hd
    · exact hc
    · exact hw d hd)
  simpa [FSA.acceptsFrom, FSA.run] using this

/-! ## The set `X` of a letter -/

theorem mem_preimage_aux (a : FSA) (A : IntSet) (letter : Nat) (l : List Nat) (X : IntSet)
    (x : Int) :
    x ∈ l.foldl (fun X row => if a.entry row letter ∈ A then setInsert (row : Int) X else X) X ↔
      x ∈ X ∨ ∃ i ∈ l, x = (i : Int) ∧ a.entry i letter ∈ A := by
  induction l generalizing X with
  | nil => simp
  | cons r rs ih =>
    rw [List.foldl_cons, ih]
    simp only [List.mem_cons, exists_eq_or_imp]
    by_cases hr : a.entry r letter ∈ A
    · rw [if_pos hr, mem_setInsert]
      tauto
    · rw [if_neg hr]
      tauto

theorem mem_preimage (a : FSA) (A : IntSet) (letter : Nat) (x : Int) :
    x ∈ preimage a A letter ↔ ∃ i < a.δ.length, x = (i : Int) ∧ a.entry i letter ∈ A := by
  unfold preimage
  rw [mem_preimage_aux]
  simp

theorem mem_preimage_state (a : FSA) (A : IntSet) (letter : Nat) {p : Int} (hp : a.IsState p) :
    p ∈ preimage a A letter ↔ a.tr p letter ∈ A := by
  obtain ⟨h1, h2⟩ := isState_toNat hp
  rw [mem_preimage]
  constructor
  · rintro ⟨i, _, hi, hA⟩
    have : p.toNat = i := by omega
    unfold FSA.tr
    rw [this]
    exact hA
  · intro h
    exact ⟨p.toNat, h1, h2.symm, h⟩

theorem preimage_isState (a : FSA) (A : IntSet) (letter : Nat) {x : Int}
    (h : x ∈ preimage a A letter) : a.IsState x := by
  obtain ⟨i, hi, rfl, _⟩ := (mem_preimage a A letter x).1 h
  exact isState_ofNat hi

theorem saturated_preimage {a : FSA} {A : IntSet} (hA : Saturated a A)
    (ht : a.TableOk) {c : Nat} (hc : c < a.sigma.length) : Saturated a (preimage a A c) := by
  intro p q hp hq he hm
  rw [mem_preimage_state a A c hq]
  rw [mem_preimage_state a A c hp] at hm
  exact hA _ _ (tr_isState ht hp hc) (tr_isState ht hq hc) (equiv_tr he hc) hm

theorem saturated_inter {a : FSA} {X Y : IntSet} (hX : Saturated a X) (hY : Saturated a Y) :
    Saturated a (setIntersection X Y) := by
  intro p q hp hq he hm
  rw [mem_setIntersection] at hm ⊢
  exact ⟨hX p q hp hq he hm.1, hY p q hp hq he hm.2⟩

theorem saturated_diff {a : FSA} {X Y : IntSet} (hX : Saturated a X) (hY : Saturated a Y) :
    Saturated a (setDifference Y X) := by
  intro p q hp hq he hm
  rw [mem_setDifference] at hm ⊢
  exact ⟨hY p q hp hq he hm.1, fun hqX => hm.2 (hX q p hq hp (equiv_symm he) hqX)⟩

/-! ## The invariant through the three loops -/

theorem refineLoop_refining (a : FSA) (ht : a.TableOk) (pend : Int → Int → Nat → Prop)
    (A : IntSet) (hA : Saturated a A) (c : Nat) (hc : c < a.sigma.length)
    (fuel : Nat) (P W : Fam) (r : Fam × Fam) (h : Refining a pend P W)
    (hr : refineLoop (preimage a A c) fuel P W = some r) :
    Refining a pend r.1 r.2 ∧
      ∀ Y ∈ r.1, ∀ p ∈ Y, ∀ q ∈ Y, (a.tr p c ∈ A ↔ a.tr q c ∈ A) := by
  have hX := preimage_nodup a A c
  have hXs := saturated_preimage hA ht hc
  obtain ⟨h1, h2⟩ := refineLoop_inv (preimage a A c) (Refining a pend) (by
    intro P W Y hInv hf
    obtain ⟨hY, hI, hD⟩ := findSplit_some _ P Y hf
    refine refining_split a pend P W Y _ _ hInv hY hI hD ?_ ?_ (hX.filter _)
      ((hInv.part.nodup Y hY).filter _) (saturated_inter hXs (hInv.satP Y hY))
      (saturated_diff hXs (hInv.satP Y hY))
    · intro z
      rw [mem_setIntersection, mem_setDifference]
      tauto
    · intro z hz1 hz2
      rw [mem_setIntersection] at hz1
      rw [mem_setDifference] at hz2
      exact hz2.2 hz1.1) fuel P W r h hr
  refine ⟨h1, ?_⟩
  intro Y hY p hp q hq
  have hps := h1.part.states Y hY p hp
  have hqs := h1.part.states Y hY q hq
  rw [← mem_preimage_state a A c hps, ← mem_preimage_state a A c hqs]
  rcases findSplit_none _ _ h2 Y hY with he | he
  · have e1 : p ∉ preimage a A c := fun hm => by
      have : p ∈ setIntersection (preimage a A c) Y := (mem_setIntersection _ _ _).2 ⟨hm, hp⟩
      rw [he] at this
      exact List.not_mem_nil _ this
    have e2 : q ∉ preimage a A c := fun hm => by
      have : q ∈ setIntersection (preimage a A c) Y := (mem_setIntersection _ _ _).2 ⟨hm, hq⟩
      rw [he] at this
      exact List.not_mem_nil _ this
    exact ⟨fun e => absurd e e1, fun e => absurd e e2⟩
  · have e1 : p ∈ preimage a A c := by
      by_contra hm
      have : p ∈ setDifference Y (preimage a A c) := (mem_setDifference _ _ _).2 ⟨hp, hm⟩
      rw [he] at this
      exact List.not_mem_nil _ this
    have e2 : q ∈ preimage a A c := by
      by_contra hm
      have : q ∈ setDifference Y (preimage a A c) := (mem_setDifference _ _ _).2 ⟨hq, hm⟩
      rw [he] at this
      exact List.not_mem_nil _ this
    exact ⟨fun _ => e2, fun _ => e1⟩

theorem letterLoop_refining (a : FSA) (ht : a.TableOk) (A : IntSet) (hA : Saturated a A)
    (fuel : Nat) :
    ∀ (letters : List Nat) (P W : Fam) (r : Fam × Fam), (∀ c ∈ letters, c < a.sigma.length) →
      Refining a (fun x y c => c ∈ letters ∧ ¬(x ∈ A ↔ y ∈ A)) P W →
      letterLoop a A fuel letters P W = some r →
      Refining a (fun _ _ _ => False) r.1 r.2 := by
  intro letters
  induction letters with
  | nil =>
    intro P W r _ h hr
    simp only [letterLoop, Option.some.injEq] at hr
    subst hr
    refine ⟨h.part, h.hom, ?_, h.satP, h.satW⟩
    intro Y hY p hp q hq c hc
    rcases h.pending Y hY p hp q hq c hc with h1 | h1 | h1
    · exact Or.inl h1
    · exact Or.inr (Or.inl h1)
    · exact absurd h1.1 (List.not_mem_nil _)
  | cons c cs ih =>
    intro P W r hcs h hr
    unfold letterLoop at hr
    cases hf : refineLoop (preimage a A c) fuel P W with
    | none => rw [hf] at hr; simp at hr
    | some PW =>
      rw [hf] at hr
      obtain ⟨h1, h2⟩ := refineLoop_refining a ht _ A hA c
        (hcs c (List.mem_cons_self _ _)) fuel P W PW h hf
      refine ih PW.1 PW.2 r (fun d hd => hcs d (List.mem_cons_of_mem _ hd)) ?_ hr
      refine ⟨h1.part, h1.hom, ?_, h1.satP, h1.satW⟩
      intro Y hY p hp q hq d hd
      rcases h1.pending Y hY p hp q hq d hd with h3 | h3 | h3
      · exact Or.inl h3
      · exact Or.inr (Or.inl h3)
      · rcases List.mem_cons.1 h3.1 with rfl | hmem
        · exact absurd (h2 Y hY p hp q hq) h3.2
        · exact Or.inr (Or.inr ⟨hmem, h3.2⟩)

theorem whileLoop_refining (a : FSA) (ht : a.TableOk) (innerFuel : Nat) :
    ∀ (fuel : Nat) (P W R : Fam), Refining a (fun _ _ _ => False) P W →
      whileLoop a innerFuel fuel P W = some R → Refining a (fun _ _ _ => False) R [] := by
  intro fuel
  induction fuel with
  | zero =>
    intro P W R h hR
    cases W with
    | nil =>
      simp only [whileLoop, Option.some.injEq] at hR
      subst hR
      exact h
    | cons A W => simp [whileLoop] at hR
  | succ fuel ih =>
    intro P W R h hR
    cases W with
    | nil =>
      simp only [whileLoop, Option.some.injEq] at hR
      subst hR
      exact h
    | cons A W =>
      unfold whileLoop at hR
      cases hf : letterLoop a A innerFuel (List.range a.sigma.length) P W with
      | none => rw [hf] at hR; simp at hR
      | some PW =>
        rw [hf] at hR
        refine ih PW.1 PW.2 R ?_ hR
        refine letterLoop_refining a ht A (h.satW A (List.mem_cons_self _ _)) innerFuel
          (List.range a.sigma.length) P W PW (fun c hc => List.mem_range.1 hc) ?_ hf
        refine ⟨h.part, h.hom, ?_, h.satP, fun S hS => h.satW S (List.mem_cons_of_mem _ hS)⟩
        intro Y hY p hp q hq c hc
        rcases h.pending Y hY p hp q hq c hc with h1 | ⟨S, hS, hsep⟩ | h1
        · exact Or.inl h1
        · rcases List.mem_cons.1 hS with rfl | hS
          · exact Or.inr (Or.inr ⟨List.mem_range.2 hc, hsep⟩)
          · exact Or.inr (Or.inl ⟨S, hS, hsep⟩)
        · exact absurd h1 id


/-! ## The invariant holds initially, hence for the final partition -/

theorem pairwise_famInsert (S : IntSet) (P : Fam) (hP : P.Pairwise List.Disjoint)
    (hS : S ≠ []) (hd : ∀ Z ∈ P, List.Disjoint S Z) :
    (famInsert S P).Pairwise List.Disjoint := by
  obtain ⟨s0, hs0⟩ := List.exists_mem_of_ne_nil S hS
  have hno : S ∉ P := fun e => hd S e hs0 hs0
  rw [(famInsert_perm S P hno).pairwise_iff (fun hd => hd.symm), List.pairwise_cons]
  exact ⟨hd, hP⟩

theorem acc_ofNat (a : FSA) (i : Nat) : a.acc (i : Int) = a.F.getD i false := by
  simp [FSA.acc]

theorem mem_classify_fst (a : FSA) (x : Int) :
    x ∈ (classify a).1 ↔ a.IsState x ∧ a.acc x = true := by
  rw [(classify_spec a).2.2.2.1 x]
  constructor
  · rintro ⟨i, hi, rfl, hF⟩
    exact ⟨isState_ofNat hi, by rw [acc_ofNat]; exact hF⟩
  · rintro ⟨hx, hacc⟩
    obtain ⟨h1, h2⟩ := isState_toNat hx
    exact ⟨x.toNat, h1, h2.symm, hacc⟩

theorem mem_classify_snd (a : FSA) (x : Int) :
    x ∈ (classify a).2 ↔ a.IsState x ∧ a.acc x = false := by
  rw [(classify_spec a).2.2.2.2 x]
  constructor
  · rintro ⟨i, hi, rfl, hF⟩
    exact ⟨isState_ofNat hi, by rw [acc_ofNat]; exact hF⟩
  · rintro ⟨hx, hacc⟩
    obtain ⟨h1, h2⟩ := isState_toNat hx
    exact ⟨x.toNat, h1, h2.symm, hacc⟩

theorem initialBlocks_partition (a : FSA) : IsPartition a (initialBlocks a) := by
  refine ⟨?_, initialBlocks_nodup a, ?_, ?_, ?_⟩
  · intro Y hY
    rcases (mem_initialBlocks a Y).1 hY with ⟨rfl, h⟩ | ⟨rfl, h⟩ <;> exact h
  · intro Y hY x hx
    rcases (mem_initialBlocks a Y).1 hY with ⟨rfl, _⟩ | ⟨rfl, _⟩
    · exact ((mem_classify_fst a x).1 hx).1
    · exact ((mem_classify_snd a x).1 hx).1
  · intro x hx
    cases hacc : a.acc x with
    | true =>
      have hm : x ∈ (classify a).1 := (mem_classify_fst a x).2 ⟨hx, hacc⟩
      exact ⟨_, (mem_initialBlocks a _).2 (Or.inl ⟨rfl, List.ne_nil_of_mem hm⟩), hm⟩
    | false =>
      have hm : x ∈ (classify a).2 := (mem_classify_snd a x).2 ⟨hx, hacc⟩
      exact ⟨_, (mem_initialBlocks a _).2 (Or.inr ⟨rfl, List.ne_nil_of_mem hm⟩), hm⟩
  · have hd : List.Disjoint (classify a).2 (classify a).1 := by
      intro z h2 h1
      have e1 := ((mem_classify_fst a z).1 h1).2
      have e2 := ((mem_classify_snd a z).1 h2).2
      rw [e1] at e2
      exact absurd e2 (by decide)
    unfold initialBlocks
    simp only [gt_iff_lt, List.length_pos]
    by_cases h1 : (classify a).1 = [] <;> by_cases h2 : (classify a).2 = []
    · simp [h1, h2]
    · simp only [h1, h2, ne_eq, not_true_eq_false, if_false, not_false_eq_true, if_true]
      exact pairwise_famInsert _ _ List.Pairwise.nil h2 (by simp)
    · simp only [h1, h2, ne_eq, not_true_eq_false, if_false, not_false_eq_true, if_true]
      exact pairwise_famInsert _ _ List.Pairwise.nil h1 (by simp)
    · simp only [h1, h2, ne_eq, not_true_eq_false, if_false, not_false_eq_true, if_true]
      refine pairwise_famInsert _ _ (pairwise_famInsert _ _ List.Pairwise.nil h1 (by simp)) h2 ?_
      intro Z hZ
      rw [mem_famInsert] at hZ
      rcases hZ with rfl | hZ
      · exact hd
      · exact absurd hZ (List.not_mem_nil _)

theorem saturated_classify (a : FSA) :
    Saturated a (classify a).1 ∧ Saturated a (classify a).2 := by
  constructor
  · intro p q _ hq he hm
    rw [mem_classify_fst] at hm ⊢
    exact ⟨hq, by rw [← equiv_acc he]; exact hm.2⟩
  · intro p q _ hq he hm
    rw [mem_classify_snd] at hm ⊢
    exact ⟨hq, by rw [← equiv_acc he]; exact hm.2⟩

theorem initial_refining (a : FSA) (ht : a.TableOk) :
    Refining a (fun _ _ _ => False) (initialBlocks a) (initialBlocks a) := by
  have hpart := initialBlocks_partition a
  have hsat : ∀ Y ∈ initialBlocks a, Saturated a Y := by
    intro Y hY
    rcases (mem_initialBlocks a Y).1 hY with ⟨rfl, _⟩ | ⟨rfl, _⟩
    · exact (saturated_classify a).1
    · exact (saturated_classify a).2
  refine ⟨hpart, ?_, ?_, hsat, hsat⟩
  · intro Y hY p hp q hq
    rcases (mem_initialBlocks a Y).1 hY with ⟨rfl, _⟩ | ⟨rfl, _⟩
    · rw [((mem_classify_fst a p).1 hp).2, ((mem_classify_fst a q).1 hq).2]
    · rw [((mem_classify_snd a p).1 hp).2, ((mem_classify_snd a q).1 hq).2]
  · intro Y hY p hp q hq c hc
    have hps := tr_isState ht (hpart.states Y hY p hp) hc
    obtain ⟨B, hB, hxB⟩ := hpart.cover _ hps
    by_cases hyB : a.tr q c ∈ B
    · exact Or.inl ⟨B, hB, hxB, hyB⟩
    · exact Or.inr (Or.inl ⟨B, hB, fun e => hyB (e.1 hxB)⟩)

theorem finalPartition_refining (a : FSA) (ht : a.TableOk) (P : Fam)
    (h : finalPartition a = some P) : Refining a (fun _ _ _ => False) P [] :=
  whileLoop_refining a ht _ _ _ _ P (initial_refining a ht) h

/-- The final partition is a congruence: targets of states of one block share a block. -/
theorem final_congruence (a : FSA) (P : Fam) (h : Refining a (fun _ _ _ => False) P [])
    {p q : Int} (hpq : SameBlock P p q) {c : Nat} (hc : c < a.sigma.length) :
    SameBlock P (a.tr p c) (a.tr q c) := by
  obtain ⟨Y, hY, hp, hq⟩ := hpq
  rcases h.pending Y hY p hp q hq c hc with h1 | ⟨S, hS, _⟩ | h1
  · exact h1
  · exact absurd hS (List.not_mem_nil _)
  · exact absurd h1 id

theorem sameBlock_acceptsFrom (a : FSA) (P : Fam) (h : Refining a (fun _ _ _ => False) P []) :
    ∀ (w : List Nat) (p q : Int), SameBlock P p q → a.IsWord w →
      a.acceptsFrom p w = a.acceptsFrom q w
  | [], p, q, hpq, _ => by
    obtain ⟨Y, hY, hp, hq⟩ := hpq
    exact h.hom Y hY p hp q hq
  | c :: w, p, q, hpq, hw => by
    have hc := hw c (List.mem_cons_self _ _)
    have := sameBlock_acceptsFrom a P h w _ _ (final_congruence a P h hpq hc)
      (fun d hd => hw d (List.mem_cons_of_mem _ hd))
    simpa [FSA.acceptsFrom, FSA.run] using this

/-- The blocks of the final partition are the classes of language equivalence. -/
theorem sameBlock_iff_equiv (a : FSA) (P : Fam) (h : Refining a (fun _ _ _ => False) P [])
    {p q : Int} (hp : a.IsState p) (hq : a.IsState q) : SameBlock P p q ↔ a.Equiv p q := by
  constructor
  · intro hpq w hw
    exact sameBlock_acceptsFrom a P h w p q hpq hw
  · intro he
    obtain ⟨Y, hY, hpY⟩ := h.part.cover p hp
    exact ⟨Y, hY, hpY, h.satP Y hY p q hp hq he hpY⟩


/-! ## The map from states to block numbers -/

theorem foldl_update (p : IntSet) (id : Int) (sm : Int → Int) (x : Int) :
    (p.foldl (fun m e => Function.update m e id) sm) x = if x ∈ p then id else sm x := by
  induction p generalizing sm with
  | nil => simp
  | cons e es ih =>
    rw [List.foldl_cons, ih]
    by_cases h1 : x ∈ es
    · simp [h1]
    · by_cases h2 : x = e
      · subst h2
        simp [h1]
      · simp [h1, h2, Function.update_noteq h2]

theorem assignIds_not_mem (ps : Fam) (id : Int) (sm : Int → Int) (x : Int)
    (h : ∀ p ∈ ps, x ∉ p) : assignIds ps id sm x = sm x := by
  induction ps generalizing id sm with
  | nil => rfl
  | cons p ps ih =>
    unfold assignIds
    rw [ih _ _ (fun q hq => h q (List.mem_cons_of_mem _ hq)), foldl_update,
      if_neg (h p (List.mem_cons_self _ _))]

theorem assignIds_index (ps : Fam) (hne : ∀ p ∈ ps, p ≠ []) (hd : ps.Pairwise List.Disjoint) :
    ∀ (id : Int) (sm : Int → Int) (j : Nat) (p : IntSet) (x : Int), ps[j]? = some p → x ∈ p →
      assignIds ps id sm x = id + j := by
  induction ps with
  | nil => intro id sm j p x h; simp at h
  | cons q qs ih =>
    intro id sm j p x hj hx
    rw [List.pairwise_cons] at hd
    have hq : q ≠ [] := hne q (List.mem_cons_self _ _)
    have hlen : q.length ≠ 0 := fun e => hq (List.length_eq_zero.1 e)
    unfold assignIds
    rw [if_pos hlen]
    cases j with
    | zero =>
      simp only [List.getElem?_cons_zero, Option.some.injEq] at hj
      subst hj
      rw [assignIds_not_mem _ _ _ _ (fun r hr hxr => hd.1 r hr hx hxr), foldl_update, if_pos hx]
      simp
    | succ j =>
      simp only [List.getElem?_cons_succ] at hj
      rw [ih (fun r hr => hne r (List.mem_cons_of_mem _ hr)) hd.2 _ _ j p x hj hx]
      push_cast
      ring

theorem stateMap_index {a : FSA} {P : Fam} (hP : IsPartition a P) {j : Nat} {p : IntSet}
    {x : Int} (hj : P[j]? = some p) (hx : x ∈ p) : stateMap P x = j := by
  unfold stateMap
  rw [assignIds_index P hP.nonempty hP.disjoint 0 _ j p x hj hx]
  simp

theorem stateMap_of_state {a : FSA} {P : Fam} (hP : IsPartition a P) {x : Int}
    (hx : a.IsState x) :
    ∃ (j : Nat) (p : IntSet), P[j]? = some p ∧ x ∈ p ∧ stateMap P x = j := by
  obtain ⟨Y, hY, hxY⟩ := hP.cover x hx
  obtain ⟨j, hj⟩ := List.getElem?_of_mem hY
  exact ⟨j, Y, hj, hxY, stateMap_index hP hj hxY⟩

theorem getElem?_eq_of_common {a : FSA} {P : Fam} (hP : IsPartition a P) {i j : Nat}
    {p q : IntSet} (hi : P[i]? = some p) (hj : P[j]? = some q) {x : Int} (hp : x ∈ p)
    (hq : x ∈ q) : i = j := by
  have h1 := stateMap_index hP hi hp
  have h2 := stateMap_index hP hj hq
  rw [h1] at h2
  exact_mod_cast h2

theorem stateMap_eq_iff {a : FSA} {P : Fam} (hP : IsPartition a P) {x y : Int}
    (hx : a.IsState x) (hy : a.IsState y) : stateMap P x = stateMap P y ↔ SameBlock P x y := by
  obtain ⟨i, p, hi, hxp, ex⟩ := stateMap_of_state hP hx
  obtain ⟨j, q, hj, hyq, ey⟩ := stateMap_of_state hP hy
  constructor
  · intro h
    rw [ex, ey] at h
    have hij : i = j := by exact_mod_cast h
    subst hij
    rw [hi] at hj
    have hpq : p = q := by simpa using hj
    subst hpq
    exact ⟨p, List.getElem?_mem hi, hxp, hyq⟩
  · rintro ⟨Y, hY, hxY, hyY⟩
    obtain ⟨k, hk⟩ := List.getElem?_of_mem hY
    rw [stateMap_index hP hk hxY, stateMap_index hP hk hyY]

/-! ## The output construction -/

theorem fillRow_aux (g : Nat → Int) (row : List Int) :
    ∀ j, j ≤ row.length →
      (List.range j).foldl (fun r letter => r.set letter (g letter)) row =
        (List.range j).map g ++ row.drop j := by
  intro j
  induction j with
  | zero => intro _; simp
  | succ j ih =>
    intro hj
    rw [List.range_succ, List.foldl_append, ih (by omega)]
    simp only [List.foldl_cons, List.foldl_nil, List.map_append, List.map_cons, List.map_nil]
    rw [List.set_append_right _ _ (by simp)]
    simp only [List.length_map, List.length_range, Nat.sub_self]
    rw [List.drop_eq_getElem_cons (by omega : j < row.length), List.set_cons_zero,
      List.append_assoc, List.singleton_append]

theorem fillRow_eq (a : FSA) (sm : Int → Int) (rep : Int) (row : List Int)
    (h : row.length = a.sigma.length) :
    fillRow a sm rep row = (List.range a.sigma.length).map (fun c => sm (a.tr rep c)) := by
  unfold fillRow
  rw [fillRow_aux (fun c => sm (a.tr rep c)) row a.sigma.length (by omega)]
  rw [← h, List.drop_length, List.append_nil]

theorem emitBlock_δ (a : FSA) (sm : Int → Int) (out : Draft) (p : IntSet) :
    (emitBlock a sm out p).δ = out.δ.set (sm (p.headD 0)).toNat
      (fillRow a sm (p.headD 0) (out.δ.getD (sm (p.headD 0)).toNat [])) := rfl

theorem emitBlock_F (a : FSA) (sm : Int → Int) (out : Draft) (p : IntSet) :
    (emitBlock a sm out p).F = out.F.set (sm (p.headD 0)).toNat (a.acc (p.headD 0)) := rfl

theorem emit_fold (a : FSA) (sm : Int → Int) :
    ∀ (pre suf : Fam) (Q0 : StrMap),
      (∀ (i : Nat) (p : IntSet), (pre ++ suf)[i]? = some p → sm (p.headD 0) = (i : Int)) →
      (pre.foldl (emitBlock a sm)
        { δ := List.replicate (pre ++ suf).length (List.replicate a.sigma.length (-1))
          F := List.replicate (pre ++ suf).length false
          Q := Q0 }).δ =
        pre.map (fun p => (List.range a.sigma.length).map (fun c => sm (a.tr (p.headD 0) c))) ++
          List.replicate suf.length (List.replicate a.sigma.length (-1)) ∧
      (pre.foldl (emitBlock a sm)
        { δ := List.replicate (pre ++ suf).length (List.replicate a.sigma.length (-1))
          F := List.replicate (pre ++ suf).length false
          Q := Q0 }).F =
        pre.map (fun p => a.acc (p.headD 0)) ++ List.replicate suf.length false := by
  intro pre
  induction pre using List.reverseRecOn with
  | nil => intro suf Q0 _; simp
  | append_singleton pre p ih =>
    intro suf Q0 hidx
    have hassoc : pre ++ [p] ++ suf = pre ++ (p :: suf) := by simp
    rw [hassoc] at hidx ⊢
    obtain ⟨ih1, ih2⟩ := ih (p :: suf) Q0 hidx
    have hp : sm (p.headD 0) = (pre.length : Int) := hidx pre.length p (by
      rw [List.getElem?_append_right (le_refl _)]; simp)
    rw [List.foldl_append, List.foldl_cons, List.foldl_nil]
    constructor
    · rw [emitBlock_δ, ih1, hp, Int.toNat_ofNat]
      rw [List.getD_append_right _ _ _ _ (by simp)]
      rw [List.set_append_right _ _ (by simp)]
      simp only [List.length_map, Nat.sub_self, List.length_cons, List.replicate_succ,
        List.getD_cons_zero, List.set_cons_zero, List.map_append, List.map_cons, List.map_nil,
        List.append_assoc, List.singleton_append]
      rw [fillRow_eq _ _ _ _ (by simp)]
    · rw [emitBlock_F, ih2, hp, Int.toNat_ofNat]
      rw [List.set_append_right _ _ (by simp)]
      simp [List.replicate_succ]


/-! ## The automaton returned by `minimize` -/

theorem head_mem_block {p : IntSet} (h : p ≠ []) : p.headD 0 ∈ p := by
  cases p with
  | nil => exact absurd rfl h
  | cons x xs => simp

theorem output_isQuotient (a : FSA) (P : Fam) (hP : IsPartition a P) (hs : a.IsState a.s) :
    ∃ m, output a P = .ok m ∧ IsQuotient a P m := by
  have hidx : ∀ (i : Nat) (p : IntSet), (P ++ [])[i]? = some p →
      stateMap P (p.headD 0) = (i : Int) := by
    intro i p hi
    rw [List.append_nil] at hi
    exact stateMap_index hP hi (head_mem_block (hP.nonempty p (List.getElem?_mem hi)))
  obtain ⟨e1, e2⟩ := emit_fold a (stateMap P) P [] [] hidx
  simp only [List.append_nil, List.length_nil, List.replicate_zero] at e1 e2
  obtain ⟨j, p, _, _, hj⟩ := stateMap_of_state hP hs
  have hne : stateMap P a.s ≠ -1 := by
    rw [hj]
    have := Int.ofNat_nonneg j
    omega
  unfold output
  simp only
  rw [if_pos hne]
  exact ⟨_, rfl, ⟨rfl, e1, e2, rfl⟩⟩

theorem minimize_isQuotient (a : FSA) (hw : a.WellFormed) :
    ∃ P m, finalPartition a = some P ∧ minimize a = .ok m ∧
      Refining a (fun _ _ _ => False) P [] ∧ IsQuotient a P m := by
  obtain ⟨P, hP⟩ := finalPartition_some a
  have hR := finalPartition_refining a hw.table P hP
  obtain ⟨m, hm, hq⟩ := output_isQuotient a P hR.part hw.start
  refine ⟨P, m, hP, ?_, hR, hq⟩
  unfold minimize
  rw [hP]
  exact hm

theorem quot_length {a : FSA} {P : Fam} {m : FSA} (hq : IsQuotient a P m) :
    m.δ.length = P.length := by
  rw [hq.δ, List.length_map]

theorem quot_entry {a : FSA} {P : Fam} {m : FSA} (hq : IsQuotient a P m) {j : Nat}
    {p : IntSet} (hj : P[j]? = some p) {c : Nat} (hc : c < a.sigma.length) :
    m.entry j c = stateMap P (a.tr (p.headD 0) c) := by
  unfold FSA.entry
  rw [hq.δ]
  have hjl : j < P.length := by
    by_contra h
    rw [List.getElem?_eq_none (by omega)] at hj
    simp at hj
  have hpj : P[j] = p := by
    rw [List.getElem?_eq_getElem hjl] at hj
    simpa using hj
  have h1 : ∀ f : IntSet → List Int, (P.map f).getD j [] = f p := by
    intro f
    rw [List.getD_eq_getElem _ _ (by simpa using hjl), List.getElem_map, hpj]
  rw [h1, List.getD_eq_getElem _ _ (by simpa using hc)]
  simp

theorem quot_flag {a : FSA} {P : Fam} {m : FSA} (hq : IsQuotient a P m) {j : Nat}
    {p : IntSet} (hj : P[j]? = some p) : m.acc (j : Int) = a.acc (p.headD 0) := by
  rw [acc_ofNat, hq.F]
  have hjl : j < P.length := by
    by_contra h
    rw [List.getElem?_eq_none (by omega)] at hj
    simp at hj
  have hpj : P[j] = p := by
    rw [List.getElem?_eq_getElem hjl] at hj
    simpa using hj
  rw [List.getD_eq_getElem _ _ (by simpa using hjl), List.getElem_map, hpj]

theorem stateMap_isState {a : FSA} {P : Fam} {m : FSA} (hP : IsPartition a P)
    (hq : IsQuotient a P m) {x : Int} (hx : a.IsState x) : m.IsState (stateMap P x) := by
  obtain ⟨j, p, hj, _, e⟩ := stateMap_of_state hP hx
  rw [e]
  apply isState_ofNat
  rw [quot_length hq]
  by_contra h
  rw [List.getElem?_eq_none (by omega)] at hj
  simp at hj

/-- The map from states to block numbers commutes with one transition. -/
theorem quot_tr {a : FSA} {P : Fam} {m : FSA} (hR : Refining a (fun _ _ _ => False) P [])
    (hq : IsQuotient a P m) {x : Int} (hx : a.IsState x) {c : Nat}
    (hc : c < a.sigma.length) (ht : a.TableOk) :
    m.tr (stateMap P x) c = stateMap P (a.tr x c) := by
  obtain ⟨j, p, hj, hxp, e⟩ := stateMap_of_state hR.part hx
  have hpP : p ∈ P := List.getElem?_mem hj
  have hrep : p.headD 0 ∈ p := head_mem_block (hR.part.nonempty p hpP)
  rw [e, tr_ofNat, quot_entry hq hj hc]
  have hsb : SameBlock P (a.tr (p.headD 0) c) (a.tr x c) :=
    final_congruence a P hR ⟨p, hpP, hrep, hxp⟩ hc
  exact (stateMap_eq_iff hR.part (tr_isState ht (hR.part.states p hpP _ hrep) hc)
    (tr_isState ht hx hc)).2 hsb

theorem quot_acc {a : FSA} {P : Fam} {m : FSA} (hR : Refining a (fun _ _ _ => False) P [])
    (hq : IsQuotient a P m) {x : Int} (hx : a.IsState x) :
    m.acc (stateMap P x) = a.acc x := by
  obtain ⟨j, p, hj, hxp, e⟩ := stateMap_of_state hR.part hx
  have hpP : p ∈ P := List.getElem?_mem hj
  have hrep : p.headD 0 ∈ p := head_mem_block (hR.part.nonempty p hpP)
  rw [e, quot_flag hq hj]
  exact hR.hom p hpP _ hrep _ hxp

theorem quot_run {a : FSA} {P : Fam} {m : FSA} (hR : Refining a (fun _ _ _ => False) P [])
    (hq : IsQuotient a P m) (ht : a.TableOk) :
    ∀ (w : List Nat) (x : Int), a.IsState x → a.IsWord w →
      m.run (stateMap P x) w = stateMap P (a.run x w)
  | [], _, _, _ => rfl
  | c :: w, x, hx, hw => by
    have hc := hw c (List.mem_cons_self _ _)
    unfold FSA.run
    rw [quot_tr hR hq hx hc ht]
    exact quot_run hR hq ht w _ (tr_isState ht hx hc)
      (fun d hd => hw d (List.mem_cons_of_mem _ hd))

theorem quot_acceptsFrom {a : FSA} {P : Fam} {m : FSA}
    (hR : Refining a (fun _ _ _ => False) P []) (hq : IsQuotient a P m) (ht : a.TableOk)
    {x : Int} (hx : a.IsState x) {w : List Nat} (hw : a.IsWord w) :
    m.acceptsFrom (stateMap P x) w = a.acceptsFrom x w := by
  unfold FSA.acceptsFrom
  rw [quot_run hR hq ht w x hx hw]
  exact quot_acc hR hq (run_isState ht w x hx hw)

theorem quot_isWord {a : FSA} {P : Fam} {m : FSA} (hq : IsQuotient a P m) (w : List Nat) :
    m.IsWord w ↔ a.IsWord w := by
  unfold FSA.IsWord
  rw [hq.sigma]

/-- Every state of the quotient is the number of the block of some state of `a`. -/
theorem quot_surj {a : FSA} {P : Fam} {m : FSA} (hP : IsPartition a P)
    (hq : IsQuotient a P m) {i : Int} (hi : m.IsState i) :
    ∃ x, a.IsState x ∧ stateMap P x = i := by
  obtain ⟨h1, h2⟩ := isState_toNat hi
  rw [quot_length hq] at h1
  have hj : P[i.toNat]? = some P[i.toNat] := List.getElem?_eq_getElem h1
  have hpP : P[i.toNat] ∈ P := List.getElem_mem _
  have hrep := head_mem_block (hP.nonempty _ hpP)
  exact ⟨_, hP.states _ hpP _ hrep, by rw [stateMap_index hP hj hrep, h2]⟩

theorem quot_distinct {a : FSA} {P : Fam} {m : FSA}
    (hR : Refining a (fun _ _ _ => False) P []) (hq : IsQuotient a P m) (ht : a.TableOk)
    {i j : Int} (hi : m.IsState i) (hj : m.IsState j) (he : m.Equiv i j) : i = j := by
  obtain ⟨x, hx, rfl⟩ := quot_surj hR.part hq hi
  obtain ⟨y, hy, rfl⟩ := quot_surj hR.part hq hj
  have hxy : a.Equiv x y := by
    intro w hw
    rw [← quot_acceptsFrom hR hq ht hx hw, ← quot_acceptsFrom hR hq ht hy hw]
    exact he w ((quot_isWord hq w).2 hw)
  exact (stateMap_eq_iff hR.part hx hy).2 ((sameBlock_iff_equiv a P hR hx hy).2 hxy)

theorem quot_wellFormed {a : FSA} {P : Fam} {m : FSA}
    (hR : Refining a (fun _ _ _ => False) P []) (hq : IsQuotient a P m) (hw : a.WellFormed) :
    m.WellFormed := by
  have hlen := quot_length hq
  obtain ⟨Y, hY, _⟩ := hR.part.cover a.s hw.start
  have hpos : 0 < P.length := List.length_pos.2 (List.ne_nil_of_mem hY)
  refine ⟨⟨by omega, ?_, ?_, ?_⟩, ?_⟩
  · rw [hq.F, hq.δ, List.length_map, List.length_map]
  · intro r hr
    rw [hq.δ, List.mem_map] at hr
    obtain ⟨p, _, rfl⟩ := hr
    rw [hq.sigma]
    simp
  · intro r hr e he
    rw [hq.δ, List.mem_map] at hr
    obtain ⟨p, hp, rfl⟩ := hr
    rw [List.mem_map] at he
    obtain ⟨c, hc, rfl⟩ := he
    have hrep := head_mem_block (hR.part.nonempty p hp)
    exact stateMap_isState hR.part hq
      (tr_isState hw.table (hR.part.states p hp _ hrep) (List.mem_range.1 hc))
  · rw [hq.s]
    exact stateMap_isState hR.part hq hw.start


/-! ## Counting blocks -/

theorem partition_card {a : FSA} {P : Fam} (hP : IsPartition a P) :
    (P.map List.length).sum = a.δ.length := by
  have h1 : P.flatten.Nodup := List.nodup_flatten.2 ⟨hP.nodup, hP.disjoint⟩
  have h2 : ((List.range a.δ.length).map (fun i : Nat => (i : Int))).Nodup :=
    (List.nodup_range _).map (fun i j h => by exact_mod_cast h)
  have h3 : P.flatten.Perm ((List.range a.δ.length).map (fun i : Nat => (i : Int))) := by
    rw [List.perm_ext_iff_of_nodup h1 h2]
    intro x
    rw [List.mem_flatten, List.mem_map]
    constructor
    · rintro ⟨Y, hY, hx⟩
      obtain ⟨e1, e2⟩ := isState_toNat (hP.states Y hY x hx)
      exact ⟨x.toNat, List.mem_range.2 e1, e2⟩
    · rintro ⟨i, hi, rfl⟩
      obtain ⟨Y, hY, hx⟩ := hP.cover _ (isState_ofNat (List.mem_range.1 hi))
      exact ⟨Y, hY, hx⟩
  have h4 := h3.length_eq
  rw [List.length_flatten, List.length_map, List.length_range] at h4
  exact h4

theorem sum_length_singletons (P : Fam) (h : ∀ Y ∈ P, Y.length = 1) :
    (P.map List.length).sum = P.length := by
  induction P with
  | nil => rfl
  | cons Y Ys ih =>
    rw [List.map_cons, List.sum_cons, h Y (List.mem_cons_self _ _),
      ih (fun Z hZ => h Z (List.mem_cons_of_mem _ hZ)), List.length_cons]
    omega

theorem length_one_of_all_eq {Y : IntSet} (hne : Y ≠ []) (hnd : Y.Nodup)
    (h : ∀ p ∈ Y, ∀ q ∈ Y, p = q) : Y.length = 1 := by
  cases Y with
  | nil => exact absurd rfl hne
  | cons y ys =>
    cases ys with
    | nil => rfl
    | cons z zs =>
      have hyz : y = z := h y (by simp) z (by simp)
      rw [List.nodup_cons] at hnd
      exact absurd (by simp [hyz]) hnd.1

/-- When no two distinct states are equivalent, every block is a single state. -/
theorem final_length_of_distinct {a : FSA} {P : Fam}
    (hR : Refining a (fun _ _ _ => False) P [])
    (hd : ∀ p q, a.IsState p → a.IsState q → a.Equiv p q → p = q) :
    P.length = a.δ.length := by
  rw [← partition_card hR.part, sum_length_singletons]
  intro Y hY
  apply length_one_of_all_eq (hR.part.nonempty Y hY) (hR.part.nodup Y hY)
  intro p hp q hq
  have hps := hR.part.states Y hY p hp
  have hqs := hR.part.states Y hY q hq
  exact hd p q hps hqs ((sameBlock_iff_equiv a P hR hps hqs).1 ⟨Y, hY, hp, hq⟩)

/-- When all states are equivalent, there is exactly one block. -/
theorem final_length_of_all_equiv {a : FSA} {P : Fam}
    (hR : Refining a (fun _ _ _ => False) P []) (hn : 0 < a.δ.length)
    (he : ∀ p q, a.IsState p → a.IsState q → a.Equiv p q) : P.length = 1 := by
  obtain ⟨Y0, hY0, _⟩ := hR.part.cover 0 (by
    constructor
    · exact le_refl _
    · exact_mod_cast hn)
  cases P with
  | nil => exact absurd hY0 (List.not_mem_nil _)
  | cons Y rest =>
    cases rest with
    | nil => rfl
    | cons Z rest =>
      exfalso
      have hdis := hR.part.disjoint
      rw [List.pairwise_cons] at hdis
      have hYm : Y ∈ Y :: Z :: rest := by simp
      have hZm : Z ∈ Y :: Z :: rest := by simp
      obtain ⟨y, hy⟩ := List.exists_mem_of_ne_nil Y (hR.part.nonempty Y hYm)
      obtain ⟨z, hz⟩ := List.exists_mem_of_ne_nil Z (hR.part.nonempty Z hZm)
      have hys := hR.part.states Y hYm y hy
      have hzs := hR.part.states Z hZm z hz
      have hyZ : y ∈ Z := hR.satP Z hZm z y hzs hys (he z y hzs hys) hz
      exact hdis.1 Z (by simp) hy hyZ

theorem acc_of_flags {a : FSA} (ht : a.TableOk) (b : Bool) (h : ∀ f ∈ a.F, f = b) {p : Int}
    (hp : a.IsState p) : a.acc p = b := by
  obtain ⟨h1, _⟩ := isState_toNat hp
  unfold FSA.acc
  rw [List.getD_eq_getElem _ _ (by rw [ht.flags]; exact h1)]
  exact h _ (List.getElem_mem _)

theorem equiv_of_flags {a : FSA} (ht : a.TableOk) (b : Bool) (h : ∀ f ∈ a.F, f = b)
    {p q : Int} (hp : a.IsState p) (hq : a.IsState q) : a.Equiv p q := by
  intro w hw
  unfold FSA.acceptsFrom
  rw [acc_of_flags ht b h (run_isState ht w p hp hw),
    acc_of_flags ht b h (run_isState ht w q hq hw)]

/-! ## The assertions of `extra-task-7.cpp` -/

theorem minimize7_of_both {a : FSA} {p q : Int} (hp : a.IsState p) (hpa : a.acc p = true)
    (hq : a.IsState q) (hqa : a.acc q = false) : minimize7 a = minimize a := by
  have h1 : p ∈ (classify a).1 := (mem_classify_fst a p).2 ⟨hp, hpa⟩
  have h2 : q ∈ (classify a).2 := (mem_classify_snd a q).2 ⟨hq, hqa⟩
  unfold minimize7
  simp only
  rw [if_pos (List.length_pos.2 (List.ne_nil_of_mem h1)),
    if_pos (List.length_pos.2 (List.ne_nil_of_mem h2))]

theorem minimize7_of_missing {a : FSA}
    (h : (∀ p, a.IsState p → a.acc p = false) ∨ (∀ q, a.IsState q → a.acc q = true)) :
    minimize7 a = .assertFailed := by
  unfold minimize7
  simp only
  rcases h with h | h
  · have e : (classify a).1 = [] := by
      apply List.eq_nil_iff_forall_not_mem.2
      intro x hx
      obtain ⟨hs, ha⟩ := (mem_classify_fst a x).1 hx
      rw [h x hs] at ha
      exact absurd ha (by decide)
    rw [e]
    simp
  · have e : (classify a).2 = [] := by
      apply List.eq_nil_iff_forall_not_mem.2
      intro x hx
      obtain ⟨hs, ha⟩ := (mem_classify_snd a x).1 hx
      rw [h x hs] at ha
      exact absurd ha (by decide)
    rw [e]
    split_ifs <;> simp_all


/-! ## Sample automata are well formed -/

theorem sample4_wellFormed : sample4.WellFormed :=
  ⟨⟨by decide, by decide, by decide, by decide⟩, by unfold FSA.IsState; decide⟩

theorem sample3_wellFormed : sample3.WellFormed :=
  ⟨⟨by decide, by decide, by decide, by decide⟩, by unfold FSA.IsState; decide⟩

theorem sample3swapped_wellFormed : sample3swapped.WellFormed :=
  ⟨⟨by decide, by decide, by decide, by decide⟩, by unfold FSA.IsState; decide⟩

theorem sampleOne_wellFormed : sampleOne.WellFormed :=
  ⟨⟨by decide, by decide, by decide, by decide⟩, by unfold FSA.IsState; decide⟩

/-! ## Claims about `minimize` -/

/-- C1: for a well-formed completed automaton `a`, `minimize` returns an automaton `m` that
accepts a word over the symbol indices exactly when `a` does; the copy of `extra-task-7.cpp`
returns the same automaton when `a` has an accepting and a non-accepting state. -/
theorem minimize_preserves_language (a : FSA) (hw : a.WellFormed) :
    ∃ m, minimize a = .ok m ∧
      (∀ w, a.IsWord w → (m.accepts w = true ↔ a.accepts w = true)) ∧
      ((∃ p, a.IsState p ∧ a.acc p = true) → (∃ q, a.IsState q ∧ a.acc q = false) →
        minimize7 a = .ok m) := by
  obtain ⟨P, m, _, hm, hR, hq⟩ := minimize_isQuotient a hw
  refine ⟨m, hm, ?_, ?_⟩
  · intro w hww
    unfold FSA.accepts
    rw [hq.s, quot_acceptsFrom hR hq hw.table hw.start hww]
  · rintro ⟨p, hp, hpa⟩ ⟨q, hq', hqa⟩
    rw [minimize7_of_both hp hpa hq' hqa, hm]

theorem minimize_preserves_language_witness :
    sample4.WellFormed ∧ ∃ m, minimize sample4 = .ok m ∧
      (∀ w, sample4.IsWord w → (m.accepts w = true ↔ sample4.accepts w = true)) ∧
      ((∃ p, sample4.IsState p ∧ sample4.acc p = true) →
        (∃ q, sample4.IsState q ∧ sample4.acc q = false) → minimize7 sample4 = .ok m) :=
  ⟨sample4_wellFormed, minimize_preserves_language sample4 sample4_wellFormed⟩

/-- C4: two states of a well-formed completed automaton get the same number in `state_map`
exactly when no word tells them apart, and any two distinct states of the automaton returned
by `minimize` are told apart by some word. -/
theorem minimize_classes (a : FSA) (hw : a.WellFormed) :
    ∃ P m, finalPartition a = some P ∧ minimize a = .ok m ∧
      (∀ p q, a.IsState p → a.IsState q →
        m.IsState (stateMap P p) ∧ (stateMap P p = stateMap P q ↔ a.Equiv p q)) ∧
      (∀ i j, m.IsState i → m.IsState j → i ≠ j →
        ∃ w, m.IsWord w ∧ m.acceptsFrom i w ≠ m.acceptsFrom j w) := by
  obtain ⟨P, m, hP, hm, hR, hq⟩ := minimize_isQuotient a hw
  refine ⟨P, m, hP, hm, ?_, ?_⟩
  · intro p q hp hq'
    refine ⟨stateMap_isState hR.part hq hp, ?_⟩
    rw [stateMap_eq_iff hR.part hp hq', sameBlock_iff_equiv a P hR hp hq']
  · intro i j hi hj hij
    by_contra hno
    apply hij
    apply quot_distinct hR hq hw.table hi hj
    intro w hww
    by_contra hne
    exact hno ⟨w, hww, hne⟩

theorem minimize_classes_witness :
    sample4.WellFormed ∧ ∃ P m, finalPartition sample4 = some P ∧ minimize sample4 = .ok m ∧
      (∀ p q, sample4.IsState p → sample4.IsState q →
        m.IsState (stateMap P p) ∧ (stateMap P p = stateMap P q ↔ sample4.Equiv p q)) ∧
      (∀ i j, m.IsState i → m.IsState j → i ≠ j →
        ∃ w, m.IsWord w ∧ m.acceptsFrom i w ≠ m.acceptsFrom j w) :=
  ⟨sample4_wellFormed, minimize_classes sample4 sample4_wellFormed⟩

/-- C8: on a well-formed completed automaton, minimising the result of `minimize` again
returns an automaton with the same number of rows and of accepting flags. -/
theorem minimize_idempotent_count (a : FSA) (hw : a.WellFormed) :
    ∃ m m2, minimize a = .ok m ∧ minimize m = .ok m2 ∧
      m2.δ.length = m.δ.length ∧ m2.F.length = m.F.length := by
  obtain ⟨P, m, _, hm, hR, hq⟩ := minimize_isQuotient a hw
  have hmw : m.WellFormed := quot_wellFormed hR hq hw
  obtain ⟨P2, m2, _, hm2, hR2, hq2⟩ := minimize_isQuotient m hmw
  have hlen : P2.length = m.δ.length :=
    final_length_of_distinct hR2 (fun p q hp hq' he => quot_distinct hR hq hw.table hp hq' he)
  have hm2w : m2.WellFormed := quot_wellFormed hR2 hq2 hmw
  refine ⟨m, m2, hm, hm2, ?_, ?_⟩
  · rw [quot_length hq2, hlen]
  · rw [hm2w.table.flags, hmw.table.flags, quot_length hq2, hlen]

theorem minimize_idempotent_count_witness :
    sample4.WellFormed ∧ ∃ m m2, minimize sample4 = .ok m ∧ minimize m = .ok m2 ∧
      m2.δ.length = m.δ.length ∧ m2.F.length = m.F.length :=
  ⟨sample4_wellFormed, minimize_idempotent_count sample4 sample4_wellFormed⟩

/-- C9: when every accepting flag of a well-formed completed automaton is set, or none is,
`minimize` of `extra-task-20.cpp` returns an automaton with exactly one row and one flag. -/
theorem minimize_uniform_flags (a : FSA) (hw : a.WellFormed)
    (h : (∀ f ∈ a.F, f = true) ∨ (∀ f ∈ a.F, f = false)) :
    ∃ m, minimize a = .ok m ∧ m.δ.length = 1 ∧ m.F.length = 1 := by
  obtain ⟨P, m, _, hm, hR, hq⟩ := minimize_isQuotient a hw
  have hmw : m.WellFormed := quot_wellFormed hR hq hw
  have hall : ∀ p q, a.IsState p → a.IsState q → a.Equiv p q := by
    intro p q hp hq'
    rcases h with h | h
    · exact equiv_of_flags hw.table true h hp hq'
    · exact equiv_of_flags hw.table false h hp hq'
  have hlen : P.length = 1 := final_length_of_all_equiv hR hw.table.states hall
  refine ⟨m, hm, ?_, ?_⟩
  · rw [quot_length hq, hlen]
  · rw [hmw.table.flags, quot_length hq, hlen]

theorem minimize_uniform_flags_witness :
    sampleOne.WellFormed ∧ ((∀ f ∈ sampleOne.F, f = true) ∨ (∀ f ∈ sampleOne.F, f = false)) ∧
      ∃ m, minimize sampleOne = .ok m ∧ m.δ.length = 1 ∧ m.F.length = 1 :=
  ⟨sampleOne_wellFormed, Or.inl (by decide),
    minimize_uniform_flags sampleOne sampleOne_wellFormed (Or.inl (by decide))⟩

/-- C10 fails on degenerate inputs: the one-state automaton whose state is accepting is well
formed, and the entry assertion of `minimize` of `extra-task-7.cpp` fails on it. -/
theorem minimize7_degenerate_fails :
    sampleOne.WellFormed ∧ minimize7 sampleOne = .assertFailed :=
  ⟨sampleOne_wellFormed, by decide⟩

/-- C10 (amended): on a well-formed completed automaton, `minimize` of `extra-task-7.cpp`
returns an automaton when there is an accepting and a non-accepting state, and fails its
entry assertion when all states are accepting or all are non-accepting. -/
theorem minimize7_completes (a : FSA) (hw : a.WellFormed) :
    ((∃ p, a.IsState p ∧ a.acc p = true) → (∃ q, a.IsState q ∧ a.acc q = false) →
        ∃ m, minimize7 a = .ok m ∧ m.WellFormed) ∧
      ((∀ p, a.IsState p → a.acc p = false) ∨ (∀ q, a.IsState q → a.acc q = true) →
        minimize7 a = .assertFailed) := by
  constructor
  · rintro ⟨p, hp, hpa⟩ ⟨q, hq', hqa⟩
    obtain ⟨P, m, _, hm, hR, hq⟩ := minimize_isQuotient a hw
    exact ⟨m, by rw [minimize7_of_both hp hpa hq' hqa, hm], quot_wellFormed hR hq hw⟩
  · exact minimize7_of_missing

theorem minimize7_completes_witness :
    sample4.WellFormed ∧
      (((∃ p, sample4.IsState p ∧ sample4.acc p = true) →
          (∃ q, sample4.IsState q ∧ sample4.acc q = false) →
          ∃ m, minimize7 sample4 = .ok m ∧ m.WellFormed) ∧
        ((∀ p, sample4.IsState p → sample4.acc p = false) ∨
            (∀ q, sample4.IsState q → sample4.acc q = true) →
          minimize7 sample4 = .assertFailed)) :=
  ⟨sample4_wellFormed, minimize7_completes sample4 sample4_wellFormed⟩


/-! ## Claims about `fsa_equal` -/

theorem fsa_equal_congr (a1 a2 b1 b2 : FSA) (h1 : b1.δ = a1.δ)
    (h2 : b1.sigma.length = a1.sigma.length) (h3 : b2.δ = a2.δ)
    (h4 : b2.sigma.length = a2.sigma.length) : fsa_equal b1 b2 = fsa_equal a1 a2 := by
  rw [Bool.eq_iff_iff, fsa_equal_spec, fsa_equal_spec]
  unfold FSA.entry
  rw [h1, h2, h3, h4]

/-- C5: for two automata with the same symbol count whose rows have `|Σ|` entries,
`fsa_equal` returns true exactly when the row counts agree and every column of the first
table equals some column of the second; the result is the same for any two automata with
these tables and symbol counts, whatever their flags, start states and labels. -/
theorem fsa_equal_columns (a1 a2 : FSA) (_hsig : a1.sigma.length = a2.sigma.length)
    (_h1 : ∀ r ∈ a1.δ, r.length = a1.sigma.length)
    (_h2 : ∀ r ∈ a2.δ, r.length = a2.sigma.length) :
    (fsa_equal a1 a2 = true ↔
      a1.δ.length = a2.δ.length ∧
      ∀ i < a1.sigma.length, ∃ j < a2.sigma.length,
        ∀ k < a1.δ.length, a1.entry k i = a2.entry k j) ∧
    (∀ b1 b2 : FSA, b1.δ = a1.δ → b1.sigma.length = a1.sigma.length → b2.δ = a2.δ →
      b2.sigma.length = a2.sigma.length → fsa_equal b1 b2 = fsa_equal a1 a2) :=
  ⟨fsa_equal_spec a1 a2, fun b1 b2 h1 h2 h3 h4 => fsa_equal_congr a1 a2 b1 b2 h1 h2 h3 h4⟩

theorem fsa_equal_columns_witness :
    sample4.sigma.length = sample3.sigma.length ∧
    (∀ r ∈ sample4.δ, r.length = sample4.sigma.length) ∧
    (∀ r ∈ sample3.δ, r.length = sample3.sigma.length) ∧
    (fsa_equal sample4 sample3 = true ↔
      sample4.δ.length = sample3.δ.length ∧
      ∀ i < sample4.sigma.length, ∃ j < sample3.sigma.length,
        ∀ k < sample4.δ.length, sample4.entry k i = sample3.entry k j) ∧
    (∀ b1 b2 : FSA, b1.δ = sample4.δ → b1.sigma.length = sample4.sigma.length →
      b2.δ = sample3.δ → b2.sigma.length = sample3.sigma.length →
      fsa_equal b1 b2 = fsa_equal sample4 sample3) :=
  ⟨by decide, by decide, by decide,
    fsa_equal_columns sample4 sample3 (by decide) (by decide) (by decide)⟩

/-- C7 at the failing input: the two automata have one row each and different symbol
counts, every read of `fsa_equal` is inside its row, and the result is `true`. -/
theorem fsa_equal_ignores_symbol_count :
    sampleOne.sigma.length ≠ sampleWide.sigma.length ∧
    (∀ r ∈ sampleOne.δ, r.length = sampleOne.sigma.length) ∧
    (∀ r ∈ sampleWide.δ, r.length = sampleWide.sigma.length) ∧
    fsa_equal sampleOne sampleWide = true := by decide

theorem minimize_sigma {a m : FSA} (h : minimize a = .ok m) : m.sigma = a.sigma := by
  unfold minimize at h
  cases hP : finalPartition a with
  | none => rw [hP] at h; simp at h
  | some P =>
    rw [hP] at h
    unfold output at h
    simp only at h
    split_ifs at h
    simp only [Outcome.ok.injEq] at h
    rw [← h]

theorem minimize7_sigma {a m : FSA} (h : minimize7 a = .ok m) : m.sigma = a.sigma := by
  unfold minimize7 at h
  simp only at h
  split_ifs at h
  exact minimize_sigma h

theorem sample3_swapped_tr (q : Int) (h0 : 0 ≤ q) (h3 : q < 3) (c : Nat) (hc : c < 2) :
    sample3swapped.tr (if q = 1 then 2 else if q = 2 then 1 else q) c =
      (if sample3.tr q c = 1 then 2 else if sample3.tr q c = 2 then 1 else sample3.tr q c) ∧
    0 ≤ sample3.tr q c ∧ sample3.tr q c < 3 := by
  interval_cases q <;> interval_cases c <;> decide

theorem sample3_swapped_run :
    ∀ (w : List Nat) (q : Int), 0 ≤ q → q < 3 → sample3.IsWord w →
      sample3swapped.acceptsFrom (if q = 1 then 2 else if q = 2 then 1 else q) w =
        sample3.acceptsFrom q w
  | [], q, h0, h3, _ => by
    interval_cases q <;> decide
  | c :: w, q, h0, h3, hw => by
    have hc : c < 2 := hw c (List.mem_cons_self _ _)
    obtain ⟨e1, e2, e3⟩ := sample3_swapped_tr q h0 h3 c hc
    have := sample3_swapped_run w (sample3.tr q c) e2 e3
      (fun d hd => hw d (List.mem_cons_of_mem _ hd))
    unfold FSA.acceptsFrom at this ⊢
    unfold FSA.run
    rw [e1]
    exact this

/-- C6 fails: `sample3` and `sample3swapped` are well formed, have the same alphabet and
accept the same words, yet `fsa_equal` of their minimised automata is `false`. -/
theorem column_matching_not_necessary :
    sample3.WellFormed ∧ sample3swapped.WellFormed ∧ sample3.sigma = sample3swapped.sigma ∧
    (∀ w, sample3.IsWord w → sample3.accepts w = sample3swapped.accepts w) ∧
    ∃ m1 m2, minimize7 sample3 = .ok m1 ∧ minimize7 sample3swapped = .ok m2 ∧
      fsa_equal m1 m2 = false := by
  refine ⟨sample3_wellFormed, sample3swapped_wellFormed, by decide, ?_, ?_⟩
  · intro w hw
    have := sample3_swapped_run w 0 (by decide) (by decide) hw
    exact this.symm
  · refine ⟨{ sigma := [("a", 0), ("b", 1)], Q := [("0", 0), ("1", 1), ("2", 2)],
              δ := [[1, 2], [2, 2], [2, 2]], F := [false, true, false], s := 0 },
            { sigma := [("a", 0), ("b", 1)], Q := [("0", 0), ("1", 1), ("2", 2)],
              δ := [[2, 1], [1, 1], [1, 1]], F := [false, false, true], s := 0 },
            by decide, by decide, by decide⟩

/-- Two automata with the same symbol count and the same transition table are matched by
`fsa_equal`, column by column. -/
theorem fsa_equal_of_table (m1 m2 : FSA) (hsig : m1.sigma.length = m2.sigma.length)
    (hδ : m1.δ = m2.δ) : fsa_equal m1 m2 = true := by
  rw [fsa_equal_spec]
  refine ⟨by rw [hδ], ?_⟩
  intro i hi
  refine ⟨i, by rw [← hsig]; exact hi, ?_⟩
  intro k _
  unfold FSA.entry
  rw [hδ]


/-! ## Maps and tables -/

theorem lookup_cons (k1 k0 : String) (v0 : Int) (rest : StrMap) :
    List.lookup k1 ((k0, v0) :: rest) = if k1 = k0 then some v0 else List.lookup k1 rest := by
  by_cases h : k1 = k0
  · subst h
    simp [List.lookup]
  · have hb : (k1 == k0) = false := by simpa using h
    simp [List.lookup, hb, h]

theorem mapFind_mapSet (m : StrMap) (k : String) (v : Int) (k1 : String) :
    mapFind (mapSet m k v) k1 = if k1 = k then some v else mapFind m k1 := by
  unfold mapFind
  induction m with
  | nil =>
    unfold mapSet
    rw [lookup_cons]
  | cons e rest ih =>
    obtain ⟨k0, v0⟩ := e
    unfold mapSet
    by_cases h0 : k0 = k
    · subst h0
      rw [if_pos rfl, lookup_cons, lookup_cons]
      by_cases h : k1 = k0
      · rw [if_pos h, if_pos h]
      · rw [if_neg h, if_neg h, if_neg h]
    · rw [if_neg h0, lookup_cons, lookup_cons, ih]
      by_cases h : k1 = k0
      · rw [if_pos h, if_pos h, if_neg (by rw [h]; exact h0)]
      · rw [if_neg h, if_neg h]

theorem length_mapSet_of_none (m : StrMap) (k : String) (v : Int) (h : mapFind m k = none) :
    (mapSet m k v).length = m.length + 1 := by
  unfold mapFind at h
  induction m with
  | nil => simp [mapSet]
  | cons e rest ih =>
    obtain ⟨k0, v0⟩ := e
    unfold mapSet
    rw [lookup_cons] at h
    by_cases h0 : k = k0
    · rw [if_pos h0] at h
      simp at h
    · rw [if_neg h0] at h
      rw [if_neg (Ne.symm h0), List.length_cons, ih h, List.length_cons]

theorem mapGet_of_find {m : StrMap} {k : String} {v : Int} (h : mapFind m k = some v) :
    mapGet m k = v := by
  unfold mapGet
  unfold mapFind at h
  rw [h]
  rfl

theorem getD_set_gen {α : Type} (l : List α) (i j : Nat) (x d : α) :
    (l.set i x).getD j d = if i = j ∧ i < l.length then x else l.getD j d := by
  by_cases hij : i = j
  · subst hij
    by_cases hi : i < l.length
    · rw [if_pos ⟨rfl, hi⟩, List.getD_eq_getElem _ _ (by simpa using hi), List.getElem_set_self]
    · rw [if_neg (fun h => hi h.2), List.getD_eq_default _ _ (by simpa using hi),
        List.getD_eq_default _ _ (by omega)]
  · rw [if_neg (fun h => hij h.1)]
    by_cases hj : j < l.length
    · rw [List.getD_eq_getElem _ _ (by simpa using hj), List.getD_eq_getElem _ _ hj,
        List.getElem_set_ne hij]
    · rw [List.getD_eq_default _ _ (by simpa using hj), List.getD_eq_default _ _ (by omega)]

theorem getD_set (l : List Int) (i j : Nat) (x d : Int) :
    (l.set i x).getD j d = if i = j ∧ i < l.length then x else l.getD j d :=
  getD_set_gen l i j x d

theorem getD_set_row (δ : List (List Int)) (i j : Nat) (x : List Int) :
    (δ.set i x).getD j [] = if i = j ∧ i < δ.length then x else δ.getD j [] :=
  getD_set_gen δ i j x []

/-- Reading a table after the write `δ[q][letter] = v`. -/
theorem entry_tableSet (δ : List (List Int)) (q : Int) (letter : Nat) (v : Int) (r c : Nat) :
    ((tableSet δ q letter v).getD r []).getD c 0 =
      if r = q.toNat ∧ c = letter ∧ q.toNat < δ.length ∧ letter < (δ.getD q.toNat []).length
      then v else (δ.getD r []).getD c 0 := by
  unfold tableSet
  rw [getD_set_row]
  by_cases h1 : q.toNat = r ∧ q.toNat < δ.length
  · rw [if_pos h1, getD_set]
    obtain ⟨h1a, h1b⟩ := h1
    subst h1a
    by_cases h2 : letter = c ∧ letter < (δ.getD q.toNat []).length
    · rw [if_pos h2, if_pos ⟨rfl, h2.1.symm, h1b, h2.2⟩]
    · rw [if_neg h2, if_neg]
      intro h3
      exact h2 ⟨h3.2.1.symm, h3.2.2.2⟩
  · rw [if_neg h1, if_neg]
    intro h3
    exact h1 ⟨h3.1.symm, h3.2.2.1⟩

/-- A new row of zeros reads like the rows beyond the table. -/
theorem entry_push_row (δ : List (List Int)) (m r c : Nat) :
    ((δ ++ [List.replicate m 0]).getD r []).getD c 0 = (δ.getD r []).getD c 0 := by
  by_cases h1 : r < δ.length
  · rw [List.getD_append _ _ _ _ h1]
  · rw [List.getD_append_right _ _ _ _ (by omega)]
    rw [List.getD_eq_default δ _ (by omega)]
    by_cases h2 : r - δ.length = 0
    · rw [h2]
      simp only [List.getD_cons_zero, List.getD_nil]
      by_cases h3 : c < m
      · rw [List.getD_eq_getElem _ _ (by simpa using h3)]
        simp
      · rw [List.getD_eq_default _ _ (by simpa using h3)]
    · obtain ⟨k, hk⟩ := Nat.exists_eq_succ_of_ne_zero h2
      rw [hk]
      simp

/-- A new entry `0` at the end of every row reads like the columns beyond the rows. -/
theorem entry_push_col (δ : List (List Int)) (r c : Nat) :
    ((δ.map (fun row => row ++ [0])).getD r []).getD c 0 = (δ.getD r []).getD c 0 := by
  by_cases h1 : r < δ.length
  · have hrow : (δ.map (fun row => row ++ [(0 : Int)])).getD r [] = δ[r] ++ [0] := by
      rw [List.getD_eq_getElem _ _ (by simpa using h1), List.getElem_map]
    rw [hrow, List.getD_eq_getElem δ _ h1]
    by_cases h2 : c < δ[r].length
    · rw [List.getD_append _ _ _ _ h2]
    · have e1 : δ[r].getD c 0 = 0 := List.getD_eq_default _ _ (by omega)
      have e2 : (δ[r] ++ [(0 : Int)]).getD c 0 = 0 := by
        rw [List.getD_append_right _ _ _ _ (by omega)]
        cases (c - δ[r].length) with
        | zero => rfl
        | succ k => simp
      rw [e1, e2]
  · have hrow : (δ.map (fun row => row ++ [(0 : Int)])).getD r [] = [] :=
      List.getD_eq_default _ _ (by simpa using h1)
    rw [hrow, List.getD_eq_default δ _ (by omega)]

theorem getD_push (l : List Bool) (i : Nat) (x : Bool) (h : i < l.length) :
    (l ++ [x]).getD i false = l.getD i false :=
  List.getD_append _ _ _ _ h

theorem getD_push_false (l : List Bool) (i : Nat) :
    (l ++ [false]).getD i false = l.getD i false := by
  by_cases h : i < l.length
  · exact List.getD_append _ _ _ _ h
  · rw [List.getD_append_right _ _ _ _ (by omega), List.getD_eq_default l _ (by omega)]
    by_cases h3 : i - l.length = 0
    · rw [h3]; rfl
    · obtain ⟨k, hk⟩ := Nat.exists_eq_succ_of_ne_zero h3
      rw [hk]
      simp

theorem getD_set_bool (l : List Bool) (i j : Nat) (x : Bool) :
    (l.set i x).getD j false = if i = j ∧ i < l.length then x else l.getD j false :=
  getD_set_gen l i j x false


/-! ## Growth of the builder -/

theorem grows_refl (b : Builder) : Grows b b :=
  ⟨fun _ _ h => h, fun _ _ _ => rfl, le_refl _, fun _ _ => rfl, fun _ => rfl⟩

theorem grows_trans {b b1 b2 : Builder} (h1 : Grows b b1) (h2 : Grows b1 b2) : Grows b b2 := by
  refine ⟨fun t v h => h2.symbols t v (h1.symbols t v h), ?_, le_trans h1.size h2.size, ?_, ?_⟩
  · intro r c h
    have e1 := h1.entries r c h
    rw [h2.entries r c (by rw [e1]; exact h), e1]
  · intro i hi
    rw [h2.flags i (lt_of_lt_of_le hi h1.size), h1.flags i hi]
  · intro i
    rw [h2.marks i, h1.marks i]

theorem follow_mono {b b1 : Builder} (h : Grows b b1) :
    ∀ (w : List String) (q r : Int), follow b.a q w = some r → follow b1.a q w = some r
  | [], q, r, hf => by simpa [follow] using hf
  | t :: w, q, r, hf => by
    unfold follow at hf ⊢
    cases hm : mapFind b.a.sigma t with
    | none => rw [hm] at hf; simp at hf
    | some v =>
      rw [hm] at hf
      rw [h.symbols t v hm]
      simp only at hf ⊢
      by_cases h0 : b.a.tr q v.toNat = 0
      · rw [if_pos h0] at hf; simp at hf
      · rw [if_neg h0] at hf
        have e : b1.a.tr q v.toNat = b.a.tr q v.toNat := h.entries _ _ h0
        rw [e, if_neg h0]
        exact follow_mono h w _ r hf

/-! ## The tokenising loop -/

theorem registerToken_spec (b : Builder) (hI : b.Inv) (t : String) :
    ∃ a1, registerToken b.a t = some a1 ∧
      Builder.Inv { a := a1, important_states := b.important_states } ∧
      Grows b { a := a1, important_states := b.important_states } ∧
      ∃ v, mapFind a1.sigma t = some v := by
  by_cases hf : mapFind b.a.sigma t = none
  · have hlen := length_mapSet_of_none b.a.sigma t (b.a.sigma.length : Int) hf
    have hres : registerToken b.a t = some
        { b.a with sigma := mapSet b.a.sigma t (b.a.sigma.length : Int),
                   δ := b.a.δ.map (fun row => row ++ [0]) } := by
      unfold registerToken
      rw [if_pos hf]
      simp only
      by_cases hn : b.a.δ.length > 0
      · rw [if_pos hn, if_pos]
        rw [hlen, List.getD_eq_getElem _ _ (by simpa using hn), List.getElem_map,
          List.length_append, hI.rows _ (List.getElem_mem _)]
        rfl
      · rw [if_neg hn]
        have : b.a.δ = [] := List.length_eq_zero.1 (by omega)
        rw [this]
        rfl
    refine ⟨_, hres, ?_, ?_, ?_⟩
    · refine ⟨?_, ?_, ?_, ?_, ?_, ?_, ?_, ?_, hI.start⟩
      · simp only [List.length_map]; exact hI.flags
      · simp only [List.length_map]; exact hI.marks
      · simp only [List.length_map]; exact hI.unmarked
      · intro r hr
        simp only [List.mem_map] at hr
        obtain ⟨row, hrow, rfl⟩ := hr
        simp only [List.length_append, List.length_cons, List.length_nil]
        rw [hI.rows row hrow, hlen]
      · intro t1 v hv
        simp only at hv
        rw [mapFind_mapSet] at hv
        simp only
        rw [hlen]
        by_cases h1 : t1 = t
        · rw [if_pos h1] at hv
          simp only [Option.some.injEq] at hv
          subst hv
          constructor <;> push_cast <;> omega
        · rw [if_neg h1] at hv
          have := hI.symbols t1 v hv
          constructor
          · exact this.1
          · push_cast; omega
      · intro t1 t2 v h1 h2
        simp only at h1 h2
        rw [mapFind_mapSet] at h1 h2
        by_cases e1 : t1 = t <;> by_cases e2 : t2 = t
        · rw [e1, e2]
        · rw [if_pos e1] at h1
          rw [if_neg e2] at h2
          simp only [Option.some.injEq] at h1
          subst h1
          have := (hI.symbols t2 _ h2).2
          omega
        · rw [if_neg e1] at h1
          rw [if_pos e2] at h2
          simp only [Option.some.injEq] at h2
          subst h2
          have := (hI.symbols t1 _ h1).2
          omega
        · rw [if_neg e1] at h1
          rw [if_neg e2] at h2
          exact hI.symbolsInj t1 t2 v h1 h2
      · intro r c
        simp only [FSA.entry, List.length_map]
        rw [entry_push_col]
        exact hI.targets r c
      · intro r1 c1 r2 c2
        simp only [FSA.entry]
        rw [entry_push_col, entry_push_col]
        exact hI.inj r1 c1 r2 c2
    · refine ⟨?_, ?_, ?_, fun _ _ => rfl, fun _ => rfl⟩
      · intro t1 v hv
        simp only
        rw [mapFind_mapSet, if_neg]
        · exact hv
        · intro e
          rw [e, hf] at hv
          simp at hv
      · intro r c _
        simp only [FSA.entry]
        rw [entry_push_col]
      · simp
    · exact ⟨_, by simp only; rw [mapFind_mapSet, if_pos rfl]⟩
  · have hres : registerToken b.a t = some b.a := by
      unfold registerToken
      rw [if_neg hf]
    obtain ⟨v, hv⟩ := Option.ne_none_iff_exists'.1 hf
    exact ⟨b.a, hres, hI, grows_refl b, v, hv⟩

theorem registerTokens_spec :
    ∀ (word : List String) (b : Builder), b.Inv →
      ∃ a1, registerTokens b.a word = some a1 ∧
        Builder.Inv { a := a1, important_states := b.important_states } ∧
        Grows b { a := a1, important_states := b.important_states } ∧
        ∀ t ∈ word, ∃ v, mapFind a1.sigma t = some v
  | [], b, hI => ⟨b.a, rfl, hI, grows_refl b, fun _ h => absurd h (List.not_mem_nil _)⟩
  | t :: rest, b, hI => by
    obtain ⟨a1, h1, hI1, hG1, v, hv⟩ := registerToken_spec b hI t
    obtain ⟨a2, h2, hI2, hG2, hall⟩ :=
      registerTokens_spec rest { a := a1, important_states := b.important_states } hI1
    refine ⟨a2, ?_, hI2, grows_trans hG1 hG2, ?_⟩
    · unfold registerTokens
      rw [h1]
      exact h2
    · intro t1 ht1
      rcases List.mem_cons.1 ht1 with rfl | hm
      · exact ⟨v, hG2.symbols _ v hv⟩
      · exact hall t1 hm

/-! ## The first row -/

theorem ensureRoot_spec (pol : Bool) (b : Builder) (hI : b.Inv) :
    Builder.Inv { a := ensureRoot pol b.a, important_states := b.important_states } ∧
      Grows b { a := ensureRoot pol b.a, important_states := b.important_states } ∧
      (ensureRoot pol b.a).sigma = b.a.sigma ∧ 0 < (ensureRoot pol b.a).δ.length := by
  by_cases hn : b.a.δ.length = 0
  · have hres : ensureRoot pol b.a =
        { b.a with δ := b.a.δ ++ [List.replicate b.a.sigma.length 0], F := b.a.F ++ [pol] } := by
      unfold ensureRoot
      rw [if_pos hn]
    rw [hres]
    have hnone : ∀ r c, b.a.entry r c = 0 := by
      intro r c
      by_contra h
      have := hI.targets r c h
      omega
    refine ⟨⟨?_, ?_, ?_, ?_, hI.symbols, hI.symbolsInj, ?_, ?_, hI.start⟩,
      ⟨fun _ _ h => h, ?_, ?_, ?_, fun _ => rfl⟩, rfl, ?_⟩
    · simp only [List.length_append, List.length_cons, List.length_nil]
      rw [hI.flags]
    · simp only [List.length_append, List.length_cons, List.length_nil]
      rw [hI.marks, hn]
      rfl
    · intro i hi
      simp only [List.length_append, List.length_cons, List.length_nil] at hi
      apply List.getD_eq_default
      rw [hI.marks, hn]
      simp only [zero_le, max_eq_right]
      omega
    · intro r hr
      simp only [List.mem_append, List.mem_singleton] at hr
      rcases hr with hr | rfl
      · exact hI.rows r hr
      · simp
    · intro r c h
      simp only [FSA.entry] at h
      rw [entry_push_row] at h
      exact absurd (hnone r c) h
    · intro r1 c1 r2 c2 h
      simp only [FSA.entry] at h
      rw [entry_push_row] at h
      exact absurd (hnone r1 c1) h
    · intro r c h
      exact absurd (hnone r c) h
    · simp
    · intro i hi
      omega
    · simp
  · have hres : ensureRoot pol b.a = b.a := by
      unfold ensureRoot
      rw [if_neg hn]
    rw [hres]
    exact ⟨hI, grows_refl b, rfl, by omega⟩


/-! ## One step of the walk -/

theorem walkLetter_spec (pol : Bool) (b : Builder) (hI : b.Inv) (q : Int)
    (hq0 : 0 ≤ q) (hqn : q < b.a.δ.length) (t : String) (v : Int)
    (hv : mapFind b.a.sigma t = some v) :
    (walkLetter pol (b, q) t).1.Inv ∧ Grows b (walkLetter pol (b, q) t).1 ∧
      (walkLetter pol (b, q) t).1.a.sigma = b.a.sigma ∧
      (walkLetter pol (b, q) t).1.a.tr q v.toNat = (walkLetter pol (b, q) t).2 ∧
      0 < (walkLetter pol (b, q) t).2 ∧
      (walkLetter pol (b, q) t).2 < (walkLetter pol (b, q) t).1.a.δ.length := by
  have hget : (mapGet b.a.sigma t).toNat = v.toNat := by rw [mapGet_of_find hv]
  have hqlt : q.toNat < b.a.δ.length := by omega
  by_cases h0 : b.a.tr q v.toNat = 0
  · -- a new state is allocated
    have hres : walkLetter pol (b, q) t =
        ({ a := { b.a with
                  δ := tableSet (b.a.δ ++ [List.replicate b.a.sigma.length 0]) q v.toNat
                    (b.a.δ.length : Int)
                  F := b.a.F ++ [pol]
                  Q := mapSet b.a.Q (toString (b.a.δ.length : Int)) (b.a.δ.length : Int) },
           important_states := b.important_states ++ [false] },
         ((tableSet (b.a.δ ++ [List.replicate b.a.sigma.length 0]) q v.toNat
            (b.a.δ.length : Int)).getD q.toNat []).getD v.toNat 0) := by
      unfold walkLetter
      simp only
      rw [hget, if_pos h0]
      rfl
    rw [hres]
    simp only
    have hvm := hI.symbols t v hv
    have hrowq : ((b.a.δ ++ [List.replicate b.a.sigma.length 0]).getD q.toNat []).length =
        b.a.sigma.length := by
      rw [List.getD_append _ _ _ _ hqlt, List.getD_eq_getElem _ _ hqlt]
      exact hI.rows _ (List.getElem_mem _)
    have hE : ∀ r c, ((tableSet (b.a.δ ++ [List.replicate b.a.sigma.length 0]) q v.toNat
          (b.a.δ.length : Int)).getD r []).getD c 0 =
        if r = q.toNat ∧ c = v.toNat then (b.a.δ.length : Int) else b.a.entry r c := by
      intro r c
      rw [entry_tableSet, entry_push_row]
      by_cases hrc : r = q.toNat ∧ c = v.toNat
      · rw [if_pos hrc, if_pos]
        refine ⟨hrc.1, hrc.2, ?_, ?_⟩
        · simp only [List.length_append, List.length_cons, List.length_nil]; omega
        · rw [hrowq]; omega
      · rw [if_neg hrc, if_neg]
        · rfl
        · intro h; exact hrc ⟨h.1, h.2.1⟩
    have hlen : (tableSet (b.a.δ ++ [List.replicate b.a.sigma.length 0]) q v.toNat
        (b.a.δ.length : Int)).length = b.a.δ.length + 1 := by
      unfold tableSet
      simp
    have hmarks : b.important_states.length = b.a.δ.length := by
      rw [hI.marks]; omega
    have hold : b.a.entry q.toNat v.toNat = 0 := h0
    refine ⟨⟨?_, ?_, ?_, ?_, hI.symbols, hI.symbolsInj, ?_, ?_, hI.start⟩,
      ⟨fun _ _ h => h, ?_, ?_, ?_, ?_⟩, trivial, ?_, ?_, ?_⟩
    · simp only [List.length_append, List.length_cons, List.length_nil]
      rw [hlen, hI.flags]
    · simp only [List.length_append, List.length_cons, List.length_nil]
      rw [hlen, hmarks]; omega
    · intro i hi
      rw [hlen] at hi
      apply List.getD_eq_default
      simp only [List.length_append, List.length_cons, List.length_nil]
      omega
    · intro r hr
      unfold tableSet at hr
      rcases List.mem_or_eq_of_mem_set hr with hr | rfl
      · simp only [List.mem_append, List.mem_singleton] at hr
        rcases hr with hr | rfl
        · exact hI.rows r hr
        · simp
      · rw [List.length_set, hrowq]
    · intro r c h
      simp only [FSA.entry] at h ⊢
      rw [hE] at h ⊢
      rw [hlen]
      by_cases hrc : r = q.toNat ∧ c = v.toNat
      · rw [if_pos hrc]
        constructor <;> push_cast <;> omega
      · rw [if_neg hrc] at h ⊢
        have := hI.targets r c h
        constructor
        · exact this.1
        · push_cast; omega
    · intro r1 c1 r2 c2 h1 h2
      simp only [FSA.entry] at h1 h2
      rw [hE] at h1 h2
      rw [hE] at h2
      by_cases e1 : r1 = q.toNat ∧ c1 = v.toNat <;> by_cases e2 : r2 = q.toNat ∧ c2 = v.toNat
      · exact ⟨e1.1.trans e2.1.symm, e1.2.trans e2.2.symm⟩
      · rw [if_pos e1, if_neg e2] at h2
        have h3 : b.a.entry r2 c2 ≠ 0 := by rw [← h2]; exact_mod_cast (by omega : b.a.δ.length ≠ 0)
        have := (hI.targets r2 c2 h3).2
        omega
      · rw [if_neg e1] at h1
        rw [if_neg e1, if_pos e2] at h2
        have := (hI.targets r1 c1 h1).2
        omega
      · rw [if_neg e1] at h1
        rw [if_neg e1, if_neg e2] at h2
        exact hI.inj r1 c1 r2 c2 h1 h2
    · intro r c h
      simp only [FSA.entry]
      rw [hE, if_neg]
      · rfl
      · rintro ⟨rfl, rfl⟩
        exact h hold
    · rw [hlen]; omega
    · intro i hi
      exact getD_push _ _ _ (by rw [hI.flags]; exact hi)
    · intro i
      exact getD_push_false _ _
    · simp only [FSA.tr, FSA.entry]
    · rw [hE, if_pos ⟨rfl, rfl⟩]
      exact_mod_cast (by omega : 0 < b.a.δ.length)
    · rw [hE, if_pos ⟨rfl, rfl⟩, hlen]
      push_cast; omega
  · have hres : walkLetter pol (b, q) t = (b, b.a.tr q v.toNat) := by
      unfold walkLetter
      simp only
      rw [hget, if_neg h0]
    rw [hres]
    have := hI.targets q.toNat v.toNat h0
    exact ⟨hI, grows_refl b, rfl, rfl, this.1, this.2⟩

/-! ## The walk over a word -/

theorem walk_fold_spec (pol : Bool) :
    ∀ (word : List String) (b : Builder) (q : Int), b.Inv → 0 ≤ q → q < b.a.δ.length →
      (∀ t ∈ word, ∃ v, mapFind b.a.sigma t = some v) →
      (word.foldl (walkLetter pol) (b, q)).1.Inv ∧
      Grows b (word.foldl (walkLetter pol) (b, q)).1 ∧
      (word.foldl (walkLetter pol) (b, q)).1.a.sigma = b.a.sigma ∧
      follow (word.foldl (walkLetter pol) (b, q)).1.a q word =
        some (word.foldl (walkLetter pol) (b, q)).2 ∧
      0 ≤ (word.foldl (walkLetter pol) (b, q)).2 ∧
      (word.foldl (walkLetter pol) (b, q)).2 < (word.foldl (walkLetter pol) (b, q)).1.a.δ.length
  | [], b, q, hI, h0, hn, _ => ⟨hI, grows_refl b, rfl, rfl, h0, hn⟩
  | t :: rest, b, q, hI, h0, hn, hall => by
    obtain ⟨v, hv⟩ := hall t (List.mem_cons_self _ _)
    obtain ⟨s1, s2, s3, s4, s5, s6⟩ := walkLetter_spec pol b hI q h0 hn t v hv
    have hall1 : ∀ t1 ∈ rest, ∃ v1, mapFind (walkLetter pol (b, q) t).1.a.sigma t1 = some v1 := by
      intro t1 ht1
      rw [s3]
      exact hall t1 (List.mem_cons_of_mem _ ht1)
    obtain ⟨r1, r2, r3, r4, r5, r6⟩ := walk_fold_spec pol rest (walkLetter pol (b, q) t).1
      (walkLetter pol (b, q) t).2 s1 (le_of_lt s5) s6 hall1
    rw [List.foldl_cons]
    refine ⟨r1, grows_trans s2 r2, r3.trans s3, ?_, r5, r6⟩
    unfold follow
    rw [r3, s3, hv]
    simp only
    have e : (List.foldl (walkLetter pol) (walkLetter pol (b, q) t) rest).1.a.tr q v.toNat =
        (walkLetter pol (b, q) t).2 := by
      rw [← s4]
      exact r2.entries _ _ (by
        show (walkLetter pol (b, q) t).1.a.tr q v.toNat ≠ 0
        rw [s4]; omega)
    rw [e, if_neg (by omega)]
    exact r4

/-! ## Words and states correspond one to one -/

theorem follow_append (a : FSA) :
    ∀ (w : List String) (t : String) (q : Int),
      follow a q (w ++ [t]) = (follow a q w).bind (fun r => follow a r [t])
  | [], t, q => rfl
  | t0 :: w, t, q => by
    simp only [List.cons_append]
    unfold follow
    cases mapFind a.sigma t0 with
    | none => rfl
    | some v =>
      simp only
      split_ifs
      · rfl
      · exact follow_append a w t _

theorem follow_nonneg {b : Builder} (hI : b.Inv) :
    ∀ (w : List String) (q r : Int), 0 ≤ q → follow b.a q w = some r → 0 ≤ r
  | [], q, r, h0, hf => by
    simp only [follow, Option.some.injEq] at hf
    omega
  | t :: w, q, r, _, hf => by
    unfold follow at hf
    cases hm : mapFind b.a.sigma t with
    | none => rw [hm] at hf; simp at hf
    | some v =>
      rw [hm] at hf
      simp only at hf
      by_cases h : b.a.tr q v.toNat = 0
      · rw [if_pos h] at hf; simp at hf
      · rw [if_neg h] at hf
        exact follow_nonneg hI w _ r (le_of_lt (hI.targets _ _ h).1) hf

theorem follow_single {b : Builder} {q r : Int} {t : String} (h : follow b.a q [t] = some r) :
    ∃ v, mapFind b.a.sigma t = some v ∧ b.a.entry q.toNat v.toNat = r ∧ r ≠ 0 := by
  unfold follow at h
  cases hm : mapFind b.a.sigma t with
  | none => rw [hm] at h; simp at h
  | some v =>
    rw [hm] at h
    simp only at h
    by_cases h0 : b.a.tr q v.toNat = 0
    · rw [if_pos h0] at h; simp at h
    · rw [if_neg h0] at h
      simp only [follow, Option.some.injEq] at h
      exact ⟨v, rfl, h, by rw [← h]; exact h0⟩

theorem follow_injective {b : Builder} (hI : b.Inv) :
    ∀ (w1 w2 : List String) (q : Int), follow b.a 0 w1 = some q → follow b.a 0 w2 = some q →
      w1 = w2 := by
  intro w1
  induction w1 using List.reverseRecOn with
  | nil =>
    intro w2 q h1 h2
    simp only [follow, Option.some.injEq] at h1
    subst h1
    rcases List.eq_nil_or_concat w2 with rfl | ⟨u2, t2, rfl⟩
    · rfl
    · rw [List.concat_eq_append] at h2 ⊢
      rw [follow_append] at h2
      cases hu : follow b.a 0 u2 with
      | none => rw [hu] at h2; simp at h2
      | some r2 =>
        rw [hu] at h2
        obtain ⟨_, _, _, hne⟩ := follow_single h2
        exact absurd rfl hne
  | append_singleton u1 t1 ih =>
    intro w2 q h1 h2
    rw [follow_append] at h1
    cases hu1 : follow b.a 0 u1 with
    | none => rw [hu1] at h1; simp at h1
    | some r1 =>
      rw [hu1] at h1
      obtain ⟨v1, hv1, he1, hne⟩ := follow_single h1
      rcases List.eq_nil_or_concat w2 with rfl | ⟨u2, t2, rfl⟩
      · simp only [follow, Option.some.injEq] at h2
        exact absurd h2.symm hne
      · rw [List.concat_eq_append] at h2 ⊢
        rw [follow_append] at h2
        cases hu2 : follow b.a 0 u2 with
        | none => rw [hu2] at h2; simp at h2
        | some r2 =>
          rw [hu2] at h2
          obtain ⟨v2, hv2, he2, _⟩ := follow_single h2
          have hinj := hI.inj r1.toNat v1.toNat r2.toNat v2.toNat (by rw [he1]; exact hne)
            (by rw [he1, he2])
          have hr1 := follow_nonneg hI u1 0 r1 (le_refl _) hu1
          have hr2 := follow_nonneg hI u2 0 r2 (le_refl _) hu2
          have hv1' := (hI.symbols t1 v1 hv1).1
          have hv2' := (hI.symbols t2 v2 hv2).1
          have er : r1 = r2 := by omega
          have ev : v1 = v2 := by omega
          subst er ev
          have et : t1 = t2 := hI.symbolsInj t1 t2 v1 hv1 hv2
          rw [ih u2 r1 hu1 hu2, et]


/-! ## The recorded lines -/

theorem decided_lt {b : Builder} (hI : b.Inv) {q : Int} (h : b.decided q = true) :
    q.toNat < b.a.δ.length := by
  by_contra hn
  have := hI.unmarked q.toNat (by omega)
  unfold Builder.decided at h
  rw [this] at h
  exact absurd h (by decide)

theorem records_grows {b b1 : Builder} {L : List Line} (hI : b.Inv) (hR : Records b L)
    (hG : Grows b b1) : Records b1 L := by
  constructor
  · intro l hl
    obtain ⟨q, h1, h2, h3⟩ := hR.recorded l hl
    refine ⟨q, follow_mono hG _ _ _ h1, ?_, ?_⟩
    · rw [← h2]
      exact hG.flags _ (decided_lt hI h3)
    · rw [← h3]
      exact hG.marks _
  · intro i hi
    rw [hG.marks] at hi
    obtain ⟨l, hl, hf⟩ := hR.decidedBy i hi
    exact ⟨l, hl, follow_mono hG _ _ _ hf⟩

theorem follow_congr {a a1 : FSA} (h1 : a1.sigma = a.sigma) (h2 : a1.δ = a.δ) :
    ∀ (w : List String) (q : Int), follow a1 q w = follow a q w
  | [], _ => rfl
  | t :: w, q => by
    unfold follow
    rw [h1]
    cases mapFind a.sigma t with
    | none => rfl
    | some v =>
      simp only
      have e : a1.tr q v.toNat = a.tr q v.toNat := by
        simp only [FSA.tr, FSA.entry]
        rw [h2]
      rw [e, follow_congr h1 h2 w]

theorem conflictTest_iff (pol : Bool) (b : Builder) (q : Int) :
    conflictTest pol b q = true ↔ b.decided q = true ∧ b.a.acc q ≠ pol := by
  unfold conflictTest
  cases pol <;> cases b.a.acc q <;> cases b.decided q <;> simp

/-- The state of the builder after the tokens of a line are registered and its word walked. -/
theorem walked_spec (b : Builder) (hI : b.Inv) (line : Line) :
    ∃ a1, registerTokens b.a line.word = some a1 ∧
      (walk line.positive
        { a := ensureRoot line.positive a1, important_states := b.important_states }
        line.word).1.Inv ∧
      Grows b (walk line.positive
        { a := ensureRoot line.positive a1, important_states := b.important_states }
        line.word).1 ∧
      follow (walk line.positive
        { a := ensureRoot line.positive a1, important_states := b.important_states }
        line.word).1.a 0 line.word =
        some (walk line.positive
          { a := ensureRoot line.positive a1, important_states := b.important_states }
          line.word).2 ∧
      0 ≤ (walk line.positive
        { a := ensureRoot line.positive a1, important_states := b.important_states }
        line.word).2 ∧
      (walk line.positive
        { a := ensureRoot line.positive a1, important_states := b.important_states }
        line.word).2 <
        (walk line.positive
          { a := ensureRoot line.positive a1, important_states := b.important_states }
          line.word).1.a.δ.length := by
  obtain ⟨a1, h1, hI1, hG1, hall⟩ := registerTokens_spec line.word b hI
  obtain ⟨hI2, hG2, hs2, hn2⟩ :=
    ensureRoot_spec line.positive { a := a1, important_states := b.important_states } hI1
  simp only at hI2 hG2 hs2 hn2
  have hstart := hI2.start
  simp only at hstart
  have hw := walk_fold_spec line.positive line.word
    { a := ensureRoot line.positive a1, important_states := b.important_states } 0 hI2
    (le_refl _) (by simp only; exact_mod_cast hn2)
    (by
      intro t ht
      simp only
      rw [hs2]
      exact hall t ht)
  refine ⟨a1, h1, ?_⟩
  unfold walk
  simp only
  rw [hstart]
  obtain ⟨w1, w2, _, w4, w5, w6⟩ := hw
  exact ⟨w1, grows_trans hG1 (grows_trans hG2 w2), w4, w5, w6⟩

theorem int_toNat_inj {p q : Int} (hp : 0 ≤ p) (hq : 0 ≤ q) (h : p.toNat = q.toNat) : p = q := by
  omega

/-- After the walk, the conflict test holds exactly when the word was recorded with the
opposite polarity. -/
theorem conflict_iff_recorded {b3 : Builder} {L : List Line} (hI3 : b3.Inv)
    (hR3 : Records b3 L) {word : List String} {q : Int} (hf : follow b3.a 0 word = some q)
    (hq0 : 0 ≤ q) (pol : Bool) :
    conflictTest pol b3 q = true ↔ ∃ l ∈ L, l.word = word ∧ l.positive ≠ pol := by
  rw [conflictTest_iff]
  constructor
  · rintro ⟨hd, hacc⟩
    have hi : b3.important_states.getD q.toNat false = true := hd
    obtain ⟨l, hl, hfl⟩ := hR3.decidedBy q.toNat hi
    rw [Int.toNat_of_nonneg hq0] at hfl
    have hword : l.word = word := follow_injective hI3 _ _ q hfl hf
    obtain ⟨q1, f1, a1, _⟩ := hR3.recorded l hl
    rw [hfl] at f1
    simp only [Option.some.injEq] at f1
    subst f1
    exact ⟨l, hl, hword, by rw [← a1]; exact hacc⟩
  · rintro ⟨l, hl, hword, hpol⟩
    obtain ⟨q1, f1, a1, d1⟩ := hR3.recorded l hl
    rw [hword, hf] at f1
    simp only [Option.some.injEq] at f1
    subst f1
    exact ⟨d1, by rw [a1]; exact hpol⟩

/-- Setting the flag and the decided mark of the end state records the line. -/
theorem finish_spec {b3 : Builder} {L : List Line} (hI3 : b3.Inv) (hR3 : Records b3 L)
    (line : Line) {q : Int} (hf : follow b3.a 0 line.word = some q) (hq0 : 0 ≤ q)
    (hqn : q < b3.a.δ.length) (hno : conflictTest line.positive b3 q = false) :
    Builder.Inv
      { a := { b3.a with F := b3.a.F.set q.toNat line.positive }
        important_states := b3.important_states.set q.toNat true } ∧
    Records
      { a := { b3.a with F := b3.a.F.set q.toNat line.positive }
        important_states := b3.important_states.set q.toNat true } (L ++ [line]) := by
  have hqlt : q.toNat < b3.a.δ.length := by omega
  have hmarks : b3.important_states.length = b3.a.δ.length := by
    rw [hI3.marks]; omega
  have hfol : ∀ (w : List String) (p : Int),
      follow ({ b3.a with F := b3.a.F.set q.toNat line.positive } : FSA) p w =
        follow b3.a p w := follow_congr rfl rfl
  have hacc : ∀ p : Int, ({ b3.a with F := b3.a.F.set q.toNat line.positive } : FSA).acc p =
      if q.toNat = p.toNat then line.positive else b3.a.acc p := by
    intro p
    simp only [FSA.acc]
    rw [getD_set_bool]
    by_cases e : q.toNat = p.toNat
    · rw [if_pos ⟨e, by rw [hI3.flags]; exact hqlt⟩, if_pos e]
    · rw [if_neg (fun h => e h.1), if_neg e]
  have hdec : ∀ i : Nat, (b3.important_states.set q.toNat true).getD i false =
      if q.toNat = i then true else b3.important_states.getD i false := by
    intro i
    rw [getD_set_bool]
    by_cases e : q.toNat = i
    · rw [if_pos ⟨e, by rw [hmarks]; exact hqlt⟩, if_pos e]
    · rw [if_neg (fun h => e h.1), if_neg e]
  constructor
  · refine ⟨?_, ?_, ?_, hI3.rows, hI3.symbols, hI3.symbolsInj, hI3.targets, hI3.inj, hI3.start⟩
    · simp only [List.length_set]; exact hI3.flags
    · simp only [List.length_set]; exact hI3.marks
    · intro i hi
      simp only at hi
      rw [hdec, if_neg (by omega)]
      exact hI3.unmarked i hi
  · constructor
    · intro l hl
      rcases List.mem_append.1 hl with hl | hl
      · obtain ⟨q1, f1, a1, d1⟩ := hR3.recorded l hl
        refine ⟨q1, by rw [hfol]; exact f1, ?_, ?_⟩
        · rw [hacc]
          by_cases e : q.toNat = q1.toNat
          · rw [if_pos e]
            have hq1 := follow_nonneg hI3 _ 0 q1 (le_refl _) f1
            have eq : q = q1 := int_toNat_inj hq0 hq1 e
            subst eq
            by_contra hne
            have : conflictTest line.positive b3 q = true :=
              (conflictTest_iff _ _ _).2 ⟨d1, by rw [a1]; exact fun h => hne h.symm⟩
            rw [hno] at this
            exact absurd this (by decide)
          · rw [if_neg e]
            exact a1
        · show (b3.important_states.set q.toNat true).getD q1.toNat false = true
          rw [hdec]
          by_cases e : q.toNat = q1.toNat
          · rw [if_pos e]
          · rw [if_neg e]
            exact d1
      · simp only [List.mem_singleton] at hl
        subst hl
        refine ⟨q, by rw [hfol]; exact hf, ?_, ?_⟩
        · rw [hacc, if_pos rfl]
        · show (b3.important_states.set q.toNat true).getD q.toNat false = true
          rw [hdec, if_pos rfl]
    · intro i hi
      simp only at hi
      rw [hdec] at hi
      by_cases e : q.toNat = i
      · refine ⟨line, by simp, ?_⟩
        rw [hfol, hf, ← e, Int.toNat_of_nonneg hq0]
      · rw [if_neg e] at hi
        obtain ⟨l, hl, hfl⟩ := hR3.decidedBy i hi
        exact ⟨l, List.mem_append_left _ hl, by rw [hfol]; exact hfl⟩


/-! ## One line, then all lines -/

theorem processLine_spec (b : Builder) (L : List Line) (hI : b.Inv) (hR : Records b L)
    (line : Line) :
    (∃ b1, processLine b line = .ok b1 ∧ b1.Inv ∧ Records b1 (L ++ [line]) ∧
        ¬∃ l ∈ L, l.word = line.word ∧ l.positive ≠ line.positive) ∨
      (∃ b1, processLine b line = .conflict b1 ∧
        ∃ l ∈ L, l.word = line.word ∧ l.positive ≠ line.positive) := by
  obtain ⟨a1, h1, w1, w2, w4, w5, w6⟩ := walked_spec b hI line
  have hR3 := records_grows hI hR w2
  have hiff := conflict_iff_recorded w1 hR3 w4 w5 line.positive
  unfold processLine
  rw [h1]
  simp only
  by_cases hc : conflictTest line.positive
      (walk line.positive
        { a := ensureRoot line.positive a1, important_states := b.important_states }
        line.word).1
      (walk line.positive
        { a := ensureRoot line.positive a1, important_states := b.important_states }
        line.word).2 = true
  · rw [if_pos hc]
    exact Or.inr ⟨_, rfl, hiff.1 hc⟩
  · rw [if_neg hc]
    obtain ⟨f1, f2⟩ := finish_spec w1 hR3 line w4 w5 w6 (by simpa using hc)
    exact Or.inl ⟨_, rfl, f1, f2, fun h => hc (hiff.2 h)⟩

theorem processLines_spec :
    ∀ (lines : List Line) (b : Builder) (L : List Line), b.Inv → Records b L →
      ∀ b1, processLines b lines = .ok b1 → b1.Inv ∧ Records b1 (L ++ lines)
  | [], b, L, hI, hR, b1, h => by
    simp only [processLines, StepResult.ok.injEq] at h
    subst h
    rw [List.append_nil]
    exact ⟨hI, hR⟩
  | line :: rest, b, L, hI, hR, b1, h => by
    unfold processLines at h
    rcases processLine_spec b L hI hR line with ⟨b2, e, hI2, hR2, _⟩ | ⟨b2, e, _⟩
    · rw [e] at h
      simp only at h
      have := processLines_spec rest b2 (L ++ [line]) hI2 hR2 b1 h
      rw [List.append_assoc, List.singleton_append] at this
      exact this
    · rw [e] at h
      simp at h

theorem init_inv : Builder.init.Inv := by
  refine ⟨rfl, rfl, ?_, ?_, ?_, ?_, ?_, ?_, rfl⟩
  · intro i _
    cases i <;> rfl
  · intro r hr
    exact absurd hr (List.not_mem_nil _)
  · intro t v h
    simp [Builder.init, mapFind] at h
  · intro t1 t2 v h
    simp [Builder.init, mapFind] at h
  · intro r c h
    exact absurd (by simp [Builder.init, FSA.entry]) h
  · intro r1 c1 r2 c2 h
    exact absurd (by simp [Builder.init, FSA.entry]) h

theorem init_records : Records Builder.init [] := by
  constructor
  · intro l hl
    exact absurd hl (List.not_mem_nil _)
  · intro i hi
    have : Builder.init.important_states.getD i false = false := by
      cases i <;> rfl
    rw [this] at hi
    exact absurd hi (by decide)

theorem reached_spec {lines : List Line} {b : Builder}
    (h : processLines Builder.init lines = .ok b) : b.Inv ∧ Records b lines := by
  have := processLines_spec lines Builder.init [] init_inv init_records b h
  rw [List.nil_append] at this
  exact this

/-! ## Claims about the builder -/

/-- C2: after the builder has processed a sequence of lines without conflict, following the
word of each line from state 0 passes only through set entries and ends at a state whose
accepting flag is the polarity of the line. -/
theorem builder_reproduces_polarity (lines : List Line) (b : Builder)
    (h : processLines Builder.init lines = .ok b) :
    ∀ l ∈ lines, ∃ q, follow b.a 0 l.word = some q ∧ 0 ≤ q ∧
      b.a.F[q.toNat]? = some l.positive := by
  obtain ⟨hI, hR⟩ := reached_spec h
  intro l hl
  obtain ⟨q, f1, a1, d1⟩ := hR.recorded l hl
  refine ⟨q, f1, follow_nonneg hI _ 0 q (le_refl _) f1, ?_⟩
  have hlt : q.toNat < b.a.F.length := by
    rw [hI.flags]
    exact decided_lt hI d1
  rw [List.getElem?_eq_getElem hlt, ← a1]
  simp only [FSA.acc]
  rw [List.getD_eq_getElem _ _ hlt]

/-- C3: in a builder state reached without conflict, the next line reports a conflict
exactly when its word was already ingested with the opposite polarity, which is exactly
when the word already ends at a decided state whose flag differs from the polarity; a word
ingested before with the same polarity is accepted again. -/
theorem builder_conflict_iff (lines : List Line) (b : Builder)
    (h : processLines Builder.init lines = .ok b) (line : Line) :
    ((∃ b1, processLine b line = .conflict b1) ↔
        ∃ l ∈ lines, l.word = line.word ∧ l.positive ≠ line.positive) ∧
      ((∃ b1, processLine b line = .conflict b1) ↔
        ∃ q, follow b.a 0 line.word = some q ∧ b.decided q = true ∧
          b.a.acc q ≠ line.positive) ∧
      ((∃ l ∈ lines, l.word = line.word ∧ l.positive = line.positive) →
        ∃ b1, processLine b line = .ok b1) := by
  obtain ⟨hI, hR⟩ := reached_spec h
  have hfirst : (∃ b1, processLine b line = .conflict b1) ↔
      ∃ l ∈ lines, l.word = line.word ∧ l.positive ≠ line.positive := by
    rcases processLine_spec b lines hI hR line with ⟨b2, e, _, _, hno⟩ | ⟨b2, e, hyes⟩
    · constructor
      · rintro ⟨b1, e1⟩
        rw [e] at e1
        simp at e1
      · intro hl
        exact absurd hl hno
    · exact ⟨fun _ => hyes, fun _ => ⟨b2, e⟩⟩
  refine ⟨hfirst, ?_, ?_⟩
  · rw [hfirst]
    constructor
    · rintro ⟨l, hl, hword, hpol⟩
      obtain ⟨q, f1, a1, d1⟩ := hR.recorded l hl
      exact ⟨q, by rw [← hword]; exact f1, d1, by rw [a1]; exact hpol⟩
    · rintro ⟨q, f1, d1, a1⟩
      exact (conflict_iff_recorded hI hR f1 (follow_nonneg hI _ 0 q (le_refl _) f1)
        line.positive).1 ((conflictTest_iff _ _ _).2 ⟨d1, a1⟩)
  · rintro ⟨l, hl, hword, hpol⟩
    rcases processLine_spec b lines hI hR line with ⟨b2, e, _⟩ | ⟨b2, _, l2, hl2, hword2, hpol2⟩
    · exact ⟨b2, e⟩
    · exfalso
      obtain ⟨q, f1, a1, _⟩ := hR.recorded l hl
      obtain ⟨q2, f2, a2, _⟩ := hR.recorded l2 hl2
      rw [hword] at f1
      rw [hword2, f1] at f2
      simp only [Option.some.injEq] at f2
      subst f2
      rw [a1, hpol] at a2
      exact hpol2 a2.symm

theorem builder_reproduces_polarity_witness :
    processLines Builder.init [linePlusAB, lineMinusA] = .ok builtTwo ∧
    ∀ l ∈ [linePlusAB, lineMinusA], ∃ q, follow builtTwo.a 0 l.word = some q ∧ 0 ≤ q ∧
      builtTwo.a.F[q.toNat]? = some l.positive :=
  ⟨by decide, builder_reproduces_polarity [linePlusAB, lineMinusA] builtTwo (by decide)⟩

theorem builder_conflict_iff_witness :
    processLines Builder.init [linePlusAB] = .ok builtOne ∧
    (((∃ b1, processLine builtOne lineMinusAB = .conflict b1) ↔
        ∃ l ∈ [linePlusAB], l.word = lineMinusAB.word ∧ l.positive ≠ lineMinusAB.positive) ∧
      ((∃ b1, processLine builtOne lineMinusAB = .conflict b1) ↔
        ∃ q, follow builtOne.a 0 lineMinusAB.word = some q ∧ builtOne.decided q = true ∧
          builtOne.a.acc q ≠ lineMinusAB.positive) ∧
      ((∃ l ∈ [linePlusAB], l.word = lineMinusAB.word ∧ l.positive = lineMinusAB.positive) →
        ∃ b1, processLine builtOne lineMinusAB = .ok b1)) ∧
    processLine builtOne lineMinusAB = .conflict builtOne ∧
    processLine builtOne linePlusAB = .ok builtOne :=
  ⟨by decide, builder_conflict_iff [linePlusAB] builtOne (by decide) lineMinusAB,
    by decide, by decide⟩


/-! ## The final assertion of `minimize` -/

theorem stateMap_not_mem (P : Fam) (x : Int) (h : ∀ p ∈ P, x ∉ p) : stateMap P x = 0 :=
  assignIds_not_mem P 0 _ x h

theorem output_of_start {a : FSA} {P : Fam} (h : stateMap P a.s ≠ -1) :
    ∃ m, output a P = .ok m ∧ m.s = stateMap P a.s := by
  unfold output
  simp only
  rw [if_pos h]
  exact ⟨_, rfl, rfl⟩

/-- C11 at its failing inputs: when the start index of a completed table is not a state
index, `minimize` does not fail its final assertion; it returns an automaton whose start
state is `0`, and so does the copy of `extra-task-7.cpp` when its entry assertions pass. -/
theorem minimize_start_unregistered (a : FSA) (ht : a.TableOk) (hs : ¬a.IsState a.s) :
    ∃ m, minimize a = .ok m ∧ m.s = 0 ∧
      ((∃ p, a.IsState p ∧ a.acc p = true) → (∃ q, a.IsState q ∧ a.acc q = false) →
        minimize7 a = .ok m) := by
  obtain ⟨P, hP⟩ := finalPartition_some a
  have hR := finalPartition_refining a ht P hP
  have h0 : stateMap P a.s = 0 :=
    stateMap_not_mem P a.s (fun p hp hx => hs (hR.part.states p hp _ hx))
  obtain ⟨m, hm, hms⟩ := output_of_start (a := a) (P := P) (by rw [h0]; decide)
  have hmin : minimize a = .ok m := by
    unfold minimize
    rw [hP]
    exact hm
  refine ⟨m, hmin, by rw [hms, h0], ?_⟩
  rintro ⟨p, hp, hpa⟩ ⟨q, hq, hqa⟩
  rw [minimize7_of_both hp hpa hq hqa, hmin]

theorem sampleBadStart_table : sampleBadStart.TableOk :=
  ⟨by decide, by decide, by decide, by decide⟩

theorem minimize_start_unregistered_witness :
    sampleBadStart.TableOk ∧ ¬sampleBadStart.IsState sampleBadStart.s ∧
    ∃ m, minimize sampleBadStart = .ok m ∧ m.s = 0 ∧
      ((∃ p, sampleBadStart.IsState p ∧ sampleBadStart.acc p = true) →
        (∃ q, sampleBadStart.IsState q ∧ sampleBadStart.acc q = false) →
        minimize7 sampleBadStart = .ok m) :=
  ⟨sampleBadStart_table, by unfold FSA.IsState; decide,
    minimize_start_unregistered sampleBadStart sampleBadStart_table
      (by unfold FSA.IsState; decide)⟩

/-! ## `patch_up_fsa` -/

theorem complete_entry (a : FSA) (i j : Nat) :
    (complete a).entry i j = if a.entry i j = -1 then 0 else a.entry i j := by
  unfold complete FSA.entry
  simp only
  by_cases hi : i < a.δ.length
  · have hrow : (a.δ.map (fun row => row.map (fun e => if e = -1 then (0 : Int) else e))).getD i []
        = (a.δ.getD i []).map (fun e => if e = -1 then (0 : Int) else e) := by
      rw [List.getD_eq_getElem _ _ (by simpa using hi), List.getElem_map,
        List.getD_eq_getElem _ _ hi]
    rw [hrow]
    by_cases hj : j < (a.δ.getD i []).length
    · rw [List.getD_eq_getElem _ _ (by simpa using hj), List.getElem_map,
        List.getD_eq_getElem _ _ hj]
    · rw [List.getD_eq_default _ _ (by simpa using hj), List.getD_eq_default _ _ (by omega)]
      rfl
  · have hrow : (a.δ.map (fun row => row.map (fun e => if e = -1 then (0 : Int) else e))).getD i []
        = [] := List.getD_eq_default _ _ (by simpa using hi)
    rw [hrow, List.getD_eq_default a.δ _ (by omega)]
    rfl

/-- C13 fails for a start state other than `0`: the automaton `samplePartial` meets the
hypotheses, its entry in row 0 is unset, and the completed entry is not the start state. -/
theorem completion_ignores_start :
    0 < samplePartial.δ.length ∧ samplePartial.F.length = samplePartial.δ.length ∧
    (∀ r ∈ samplePartial.δ, r.length = samplePartial.sigma.length) ∧
    (∀ r ∈ samplePartial.δ, ∀ e ∈ r, e = -1 ∨ (0 ≤ e ∧ e < samplePartial.δ.length)) ∧
    samplePartial.IsState samplePartial.s ∧
    samplePartial.entry 0 0 = -1 ∧
    (complete samplePartial).entry 0 0 ≠ samplePartial.s := by
  refine ⟨by decide, by decide, by decide, by decide, ?_, by decide, by decide⟩
  unfold FSA.IsState
  decide

/-- C13 (amended): for an automaton with at least one state whose entries are `-1` or state
indices, the completion step leaves no entry `-1`, keeps every other entry, sends every
entry `-1` to state `0` (the start state when `a.s = 0`), and the call of `minimize` that
follows returns an automaton. -/
theorem patch_up_completes (a : FSA) (hn : 0 < a.δ.length) (hF : a.F.length = a.δ.length)
    (hrows : ∀ r ∈ a.δ, r.length = a.sigma.length)
    (hent : ∀ r ∈ a.δ, ∀ e ∈ r, e = -1 ∨ (0 ≤ e ∧ e < a.δ.length))
    (hs : a.IsState a.s) :
    (∀ r ∈ (complete a).δ, ∀ e ∈ r, e ≠ -1) ∧
    (∀ i j, a.entry i j ≠ -1 → (complete a).entry i j = a.entry i j) ∧
    (∀ i j, a.entry i j = -1 → (complete a).entry i j = 0) ∧
    (a.s = 0 → ∀ i j, a.entry i j = -1 → (complete a).entry i j = a.s) ∧
    (complete a).WellFormed ∧
    ∃ m, patch_up_fsa a = .ok m ∧ m.WellFormed := by
  have hmem : ∀ r ∈ (complete a).δ, ∀ e ∈ r, e ≠ -1 ∧ 0 ≤ e ∧ e < a.δ.length := by
    intro r hr e he
    simp only [complete, List.mem_map] at hr
    obtain ⟨row, hrow, rfl⟩ := hr
    simp only [List.mem_map] at he
    obtain ⟨e0, he0, rfl⟩ := he
    by_cases h : e0 = -1
    · rw [if_pos h]
      exact ⟨by decide, le_refl _, by exact_mod_cast hn⟩
    · rw [if_neg h]
      rcases hent row hrow e0 he0 with h1 | h1
      · exact absurd h1 h
      · exact ⟨h, h1.1, h1.2⟩
  have hlen : (complete a).δ.length = a.δ.length := by simp [complete]
  have hwf : (complete a).WellFormed := by
    refine ⟨⟨by rw [hlen]; exact hn, by rw [hlen]; exact hF, ?_, ?_⟩, ?_⟩
    · intro r hr
      simp only [complete, List.mem_map] at hr
      obtain ⟨row, hrow, rfl⟩ := hr
      simp only [List.length_map]
      exact hrows row hrow
    · intro r hr e he
      rw [hlen]
      exact (hmem r hr e he).2
    · unfold FSA.IsState
      rw [hlen]
      exact hs
  refine ⟨fun r hr e he => (hmem r hr e he).1, ?_, ?_, ?_, hwf, ?_⟩
  · intro i j h
    rw [complete_entry, if_neg h]
  · intro i j h
    rw [complete_entry, if_pos h]
  · intro h0 i j h
    rw [complete_entry, if_pos h, h0]
  · obtain ⟨P, m, _, hm, hR, hq⟩ := minimize_isQuotient (complete a) hwf
    exact ⟨m, hm, quot_wellFormed hR hq hwf⟩

theorem patch_up_completes_witness :
    0 < samplePartial.δ.length ∧ samplePartial.F.length = samplePartial.δ.length ∧
    (∀ r ∈ samplePartial.δ, r.length = samplePartial.sigma.length) ∧
    (∀ r ∈ samplePartial.δ, ∀ e ∈ r, e = -1 ∨ (0 ≤ e ∧ e < samplePartial.δ.length)) ∧
    samplePartial.IsState samplePartial.s ∧
    ((∀ r ∈ (complete samplePartial).δ, ∀ e ∈ r, e ≠ -1) ∧
      (∀ i j, samplePartial.entry i j ≠ -1 →
        (complete samplePartial).entry i j = samplePartial.entry i j) ∧
      (∀ i j, samplePartial.entry i j = -1 → (complete samplePartial).entry i j = 0) ∧
      (samplePartial.s = 0 → ∀ i j, samplePartial.entry i j = -1 →
        (complete samplePartial).entry i j = samplePartial.s) ∧
      (complete samplePartial).WellFormed ∧
      ∃ m, patch_up_fsa samplePartial = .ok m ∧ m.WellFormed) :=
  ⟨by decide, by decide, by decide, by decide, by unfold FSA.IsState; decide,
    patch_up_completes samplePartial (by decide) (by decide) (by decide) (by decide)
      (by unfold FSA.IsState; decide)⟩


/-! ## A line whose word is already in the trie -/

theorem follow_tokens_found (a : FSA) :
    ∀ (w : List String) (q r : Int), follow a q w = some r →
      ∀ t ∈ w, ∃ v, mapFind a.sigma t = some v
  | [], _, _, _ => fun _ ht => absurd ht (List.not_mem_nil _)
  | t0 :: w, q, r, hf => by
    unfold follow at hf
    cases hm : mapFind a.sigma t0 with
    | none => rw [hm] at hf; simp at hf
    | some v =>
      rw [hm] at hf
      simp only at hf
      by_cases h0 : a.tr q v.toNat = 0
      · rw [if_pos h0] at hf; simp at hf
      · rw [if_neg h0] at hf
        intro t ht
        rcases List.mem_cons.1 ht with rfl | ht
        · exact ⟨v, hm⟩
        · exact follow_tokens_found a w _ r hf t ht

theorem registerTokens_of_found :
    ∀ (w : List String) (a : FSA), (∀ t ∈ w, ∃ v, mapFind a.sigma t = some v) →
      registerTokens a w = some a
  | [], _, _ => rfl
  | t :: w, a, h => by
    obtain ⟨v, hv⟩ := h t (List.mem_cons_self _ _)
    have h1 : registerToken a t = some a := by
      unfold registerToken
      rw [if_neg (by rw [hv]; simp)]
    unfold registerTokens
    rw [h1]
    exact registerTokens_of_found w a (fun t1 ht1 => h t1 (List.mem_cons_of_mem _ ht1))

theorem walk_of_follow (pol : Bool) (b : Builder) :
    ∀ (w : List String) (q r : Int), follow b.a q w = some r →
      w.foldl (walkLetter pol) (b, q) = (b, r)
  | [], q, r, hf => by
    simp only [follow, Option.some.injEq] at hf
    rw [List.foldl_nil, hf]
  | t :: w, q, r, hf => by
    unfold follow at hf
    cases hm : mapFind b.a.sigma t with
    | none => rw [hm] at hf; simp at hf
    | some v =>
      rw [hm] at hf
      simp only at hf
      by_cases h0 : b.a.tr q v.toNat = 0
      · rw [if_pos h0] at hf; simp at hf
      · rw [if_neg h0] at hf
        have hstep : walkLetter pol (b, q) t = (b, b.a.tr q v.toNat) := by
          unfold walkLetter
          simp only
          rw [mapGet_of_find hm, if_neg h0]
        rw [List.foldl_cons, hstep]
        exact walk_of_follow pol b w _ r hf

/-- When the word of a line already leads from state 0 to a state `q` of a non-empty table,
the line changes nothing before the conflict test at `q`. -/
theorem processLine_of_follow (b : Builder) (hs : b.a.s = 0) (hn : b.a.δ.length ≠ 0)
    (line : Line) (q : Int) (hf : follow b.a 0 line.word = some q) :
    processLine b line =
      if conflictTest line.positive b q then .conflict b
      else .ok
        { a := { b.a with F := b.a.F.set q.toNat line.positive }
          important_states := b.important_states.set q.toNat true } := by
  have h1 := registerTokens_of_found line.word b.a (follow_tokens_found b.a _ _ _ hf)
  have h2 : ensureRoot line.positive b.a = b.a := by
    unfold ensureRoot
    rw [if_neg hn]
  have h3 : walk line.positive b line.word = (b, q) := by
    unfold walk
    rw [hs]
    exact walk_of_follow line.positive b line.word 0 q hf
  unfold processLine
  rw [h1]
  simp only
  rw [h2, h3]

/-- C14: when the builder, in a state reached without conflict, reports a conflict for a
line, the automaton and the decided marks are exactly as they were before the line. -/
theorem conflict_is_atomic (lines : List Line) (b : Builder)
    (h : processLines Builder.init lines = .ok b) (line : Line) (b1 : Builder)
    (hc : processLine b line = .conflict b1) : b1 = b := by
  obtain ⟨hI, hR⟩ := reached_spec h
  rcases processLine_spec b lines hI hR line with ⟨b2, e, _⟩ | ⟨b2, _, l, hl, hword, _⟩
  · rw [e] at hc
    simp at hc
  · obtain ⟨q, f1, _, d1⟩ := hR.recorded l hl
    rw [hword] at f1
    have hn : b.a.δ.length ≠ 0 := by
      have := decided_lt hI d1
      omega
    rw [processLine_of_follow b hI.start hn line q f1] at hc
    by_cases ht : conflictTest line.positive b q = true
    · rw [if_pos ht] at hc
      simp only [StepResult.conflict.injEq] at hc
      exact hc.symm
    · rw [if_neg ht] at hc
      simp at hc

theorem conflict_is_atomic_witness :
    processLines Builder.init [linePlusAB] = .ok builtOne ∧
    processLine builtOne lineMinusAB = .conflict builtOne ∧ builtOne = builtOne :=
  ⟨by decide, by decide,
    conflict_is_atomic [linePlusAB] builtOne (by decide) lineMinusAB builtOne (by decide)⟩


/-! ## Decimal labels are distinct -/

theorem toDigitsCore_append (b : Nat) :
    ∀ (fuel n : Nat) (ds : List Char),
      Nat.toDigitsCore b fuel n ds = Nat.toDigitsCore b fuel n [] ++ ds := by
  intro fuel
  induction fuel with
  | zero => intro n ds; rfl
  | succ fuel ih =>
    intro n ds
    unfold Nat.toDigitsCore
    simp only
    by_cases h : n / b = 0
    · rw [if_pos h, if_pos h]
      rfl
    · rw [if_neg h, if_neg h, ih (n / b) (Nat.digitChar (n % b) :: ds),
        ih (n / b) [Nat.digitChar (n % b)], List.append_assoc]
      rfl

theorem digitChar_value (d : Nat) (h : d < 10) : (Nat.digitChar d).toNat - 48 = d := by
  interval_cases d <;> rfl

theorem decimalValue_append (cs : List Char) (c : Char) :
    decimalValue (cs ++ [c]) = decimalValue cs * 10 + (c.toNat - 48) := by
  unfold decimalValue
  rw [List.foldl_append]
  rfl

theorem decimalValue_toDigitsCore :
    ∀ (fuel n : Nat), n < fuel → decimalValue (Nat.toDigitsCore 10 fuel n []) = n := by
  intro fuel
  induction fuel with
  | zero => intro n h; omega
  | succ fuel ih =>
    intro n h
    unfold Nat.toDigitsCore
    simp only
    by_cases h0 : n / 10 = 0
    · rw [if_pos h0]
      have hlt : n < 10 := by omega
      have e : decimalValue [Nat.digitChar (n % 10)] = (Nat.digitChar (n % 10)).toNat - 48 := by
        simp [decimalValue]
      rw [e, digitChar_value _ (Nat.mod_lt _ (by decide))]
      omega
    · rw [if_neg h0, toDigitsCore_append, decimalValue_append, ih (n / 10) (by omega),
        digitChar_value _ (Nat.mod_lt _ (by decide))]
      omega

theorem toString_nat_injective (i j : Nat) (h : toString i = toString j) : i = j := by
  have h1 : Nat.toDigits 10 i = Nat.toDigits 10 j := by
    have h2 : (Nat.toDigits 10 i).asString = (Nat.toDigits 10 j).asString := h
    exact congrArg String.data h2
  have e1 := decimalValue_toDigitsCore (i + 1) i (by omega)
  have e2 := decimalValue_toDigitsCore (j + 1) j (by omega)
  unfold Nat.toDigits at h1
  rw [h1] at e1
  omega

theorem toString_int_injective (i j : Nat) (h : toString (i : Int) = toString (j : Int)) :
    i = j :=
  toString_nat_injective i j h

/-! ## Maps that only grow -/

theorem mapFind_eq_none_iff (m : StrMap) (k : String) :
    mapFind m k = none ↔ ∀ e ∈ m, e.1 ≠ k := by
  unfold mapFind
  induction m with
  | nil => simp
  | cons e rest ih =>
    obtain ⟨k0, v0⟩ := e
    rw [lookup_cons]
    by_cases h : k = k0
    · rw [if_pos h]
      simp [h]
    · rw [if_neg h, ih]
      simp only [List.mem_cons, forall_eq_or_imp]
      constructor
      · intro hall
        exact ⟨fun e => h e.symm, hall⟩
      · intro hall
        exact hall.2

theorem mapSet_of_none (m : StrMap) (k : String) (v : Int) (h : mapFind m k = none) :
    mapSet m k v = m ++ [(k, v)] := by
  rw [mapFind_eq_none_iff] at h
  induction m with
  | nil => rfl
  | cons e rest ih =>
    obtain ⟨k0, v0⟩ := e
    unfold mapSet
    have h0 : k0 ≠ k := h (k0, v0) (List.mem_cons_self _ _)
    rw [if_neg h0, ih (fun e he => h e (List.mem_cons_of_mem _ he))]
    rfl

theorem mapFind_append_of_some (m m1 : StrMap) (k : String) (v : Int)
    (h : mapFind m k = some v) : mapFind (m ++ m1) k = some v := by
  unfold mapFind at h ⊢
  induction m with
  | nil => simp at h
  | cons e rest ih =>
    obtain ⟨k0, v0⟩ := e
    rw [List.cons_append, lookup_cons]
    rw [lookup_cons] at h
    by_cases hk : k = k0
    · rw [if_pos hk] at h ⊢
      exact h
    · rw [if_neg hk] at h ⊢
      exact ih h

theorem stateLabels_succ (k : Nat) :
    stateLabels (k + 1) = stateLabels k ++ [(toString (k : Int), (k : Int))] := by
  unfold stateLabels
  rw [List.range_succ, List.map_append]
  rfl

theorem length_stateLabels (k : Nat) : (stateLabels k).length = k := by
  simp [stateLabels]

theorem mapFind_stateLabels_fresh (k n : Nat) (h : k ≤ n) :
    mapFind (stateLabels k) (toString (n : Int)) = none := by
  rw [mapFind_eq_none_iff]
  intro e he
  simp only [stateLabels, List.mem_map, List.mem_range] at he
  obtain ⟨i, hi, rfl⟩ := he
  intro heq
  have := toString_int_injective i n heq
  omega

theorem mapSet_stateLabels (k : Nat) :
    mapSet (stateLabels k) (toString (k : Int)) (k : Int) = stateLabels (k + 1) := by
  rw [mapSet_of_none _ _ _ (mapFind_stateLabels_fresh k k (le_refl _)), stateLabels_succ]

theorem stateLabels_prefix (k n : Nat) (h : k ≤ n) :
    ∃ rest, stateLabels n = stateLabels k ++ rest := by
  induction n with
  | zero =>
    have : k = 0 := by omega
    subst this
    exact ⟨[], by simp⟩
  | succ n ih =>
    by_cases hk : k = n + 1
    · subst hk
      exact ⟨[], by simp⟩
    · obtain ⟨rest, hrest⟩ := ih (by omega)
      exact ⟨rest ++ [(toString (n : Int), (n : Int))], by
        rw [stateLabels_succ, hrest, List.append_assoc]⟩

theorem mapFind_stateLabels_mono {k n : Nat} (h : k ≤ n) {key : String} {v : Int}
    (hf : mapFind (stateLabels k) key = some v) : mapFind (stateLabels n) key = some v := by
  obtain ⟨rest, hrest⟩ := stateLabels_prefix k n h
  rw [hrest]
  exact mapFind_append_of_some _ _ _ _ hf


/-! ## Symbols in order of first occurrence -/

theorem enumerateFrom_append (l : List String) (t : String) :
    ∀ s : Nat, enumerateFrom s (l ++ [t]) =
      enumerateFrom s l ++ [(t, ((s + l.length : Nat) : Int))] := by
  induction l with
  | nil => intro s; rfl
  | cons x xs ih =>
    intro s
    have e1 : enumerateFrom s ((x :: xs) ++ [t]) =
        (x, (s : Int)) :: enumerateFrom (s + 1) (xs ++ [t]) := rfl
    have e2 : enumerateFrom s (x :: xs) = (x, (s : Int)) :: enumerateFrom (s + 1) xs := rfl
    have e3 : s + 1 + xs.length = s + (xs.length + 1) := by omega
    rw [e1, e2, ih (s + 1), List.cons_append, List.length_cons, e3]

theorem length_enumerateFrom (l : List String) : ∀ s : Nat, (enumerateFrom s l).length = l.length := by
  induction l with
  | nil => intro s; rfl
  | cons x xs ih =>
    intro s
    simp only [enumerateFrom, List.length_cons]
    rw [ih (s + 1)]

theorem length_enumerate (l : List String) : (enumerate l).length = l.length :=
  length_enumerateFrom l 0

theorem keys_enumerateFrom (l : List String) :
    ∀ s : Nat, (enumerateFrom s l).map Prod.fst = l := by
  induction l with
  | nil => intro s; rfl
  | cons x xs ih =>
    intro s
    simp only [enumerateFrom, List.map_cons]
    rw [ih (s + 1)]

theorem mapFind_enumerate_none (l : List String) (t : String) :
    mapFind (enumerate l) t = none ↔ t ∉ l := by
  rw [mapFind_eq_none_iff]
  have hk := keys_enumerateFrom l 0
  constructor
  · intro h ht
    rw [← hk] at ht
    obtain ⟨e, he, rfl⟩ := List.mem_map.1 ht
    exact h e he rfl
  · intro h e he heq
    apply h
    rw [← hk, ← heq]
    exact List.mem_map_of_mem _ he

theorem enumerate_append (l : List String) (t : String) :
    enumerate (l ++ [t]) = enumerate l ++ [(t, (l.length : Int))] := by
  unfold enumerate
  rw [enumerateFrom_append, Nat.zero_add]

theorem firstOccurrencesFrom_cons (seen : List String) (t : String) (w : List String) :
    firstOccurrencesFrom seen (t :: w) =
      firstOccurrencesFrom (if t ∈ seen then seen else seen ++ [t]) w := rfl

theorem firstOccurrences_append (T w : List String) :
    firstOccurrences (T ++ w) = firstOccurrencesFrom (firstOccurrences T) w := by
  unfold firstOccurrences firstOccurrencesFrom
  rw [List.foldl_append]

theorem firstOccurrencesFrom_nodup :
    ∀ (w seen : List String), seen.Nodup → (firstOccurrencesFrom seen w).Nodup
  | [], _, h => h
  | t :: w, seen, h => by
    rw [firstOccurrencesFrom_cons]
    apply firstOccurrencesFrom_nodup w
    by_cases ht : t ∈ seen
    · rw [if_pos ht]; exact h
    · rw [if_neg ht]
      exact List.Nodup.append h (List.nodup_singleton t) (by
        intro x hx hx1
        rw [List.mem_singleton] at hx1
        exact ht (hx1 ▸ hx))

theorem length_firstOccurrencesFrom_ge :
    ∀ (w seen : List String), seen.length ≤ (firstOccurrencesFrom seen w).length
  | [], _ => le_refl _
  | t :: w, seen => by
    rw [firstOccurrencesFrom_cons]
    refine le_trans ?_ (length_firstOccurrencesFrom_ge w _)
    split_ifs
    · exact le_refl _
    · simp

theorem allTokens_append (L : List Line) (l : Line) :
    allTokens (L ++ [l]) = allTokens L ++ l.word := by
  induction L with
  | nil => simp [allTokens]
  | cons x xs ih => simp [allTokens, ih]

/-! ## Labels through one line -/

theorem registerToken_shape {a a1 : FSA} {seen : List String} {t : String}
    (hs : a.sigma = enumerate seen) (h : registerToken a t = some a1) :
    a1.sigma = enumerate (if t ∈ seen then seen else seen ++ [t]) ∧ a1.Q = a.Q ∧
      a1.δ.length = a.δ.length := by
  unfold registerToken at h
  by_cases hf : mapFind a.sigma t = none
  · have hno : t ∉ seen := by
      rw [hs] at hf
      exact (mapFind_enumerate_none seen t).1 hf
    have hsig : mapSet a.sigma t (a.sigma.length : Int) = enumerate (seen ++ [t]) := by
      rw [mapSet_of_none _ _ _ hf, enumerate_append, hs, length_enumerate]
    rw [if_pos hf] at h
    simp only at h
    rw [if_neg hno]
    split_ifs at h
    · simp only [Option.some.injEq] at h
      subst h
      exact ⟨hsig, rfl, by simp⟩
    · simp only [Option.some.injEq] at h
      subst h
      exact ⟨hsig, rfl, rfl⟩
  · rw [if_neg hf] at h
    simp only [Option.some.injEq] at h
    subst h
    have hyes : t ∈ seen := by
      by_contra hno
      exact hf (by rw [hs]; exact (mapFind_enumerate_none seen t).2 hno)
    rw [if_pos hyes]
    exact ⟨hs, rfl, rfl⟩

theorem registerTokens_shape :
    ∀ (w : List String) (a a1 : FSA) (seen : List String), a.sigma = enumerate seen →
      registerTokens a w = some a1 →
      a1.sigma = enumerate (firstOccurrencesFrom seen w) ∧ a1.Q = a.Q ∧
        a1.δ.length = a.δ.length
  | [], a, a1, seen, hs, h => by
    simp only [registerTokens, Option.some.injEq] at h
    subst h
    exact ⟨hs, rfl, rfl⟩
  | t :: w, a, a1, seen, hs, h => by
    unfold registerTokens at h
    cases h1 : registerToken a t with
    | none => rw [h1] at h; simp at h
    | some a2 =>
      rw [h1] at h
      simp only at h
      obtain ⟨s1, s2, s3⟩ := registerToken_shape hs h1
      obtain ⟨r1, r2, r3⟩ := registerTokens_shape w a2 a1 _ s1 h
      rw [firstOccurrencesFrom_cons]
      exact ⟨r1, r2.trans s2, r3.trans s3⟩

theorem ensureRoot_labels (pol : Bool) (a : FSA) :
    (ensureRoot pol a).sigma = a.sigma ∧ (ensureRoot pol a).Q = a.Q ∧
      (ensureRoot pol a).δ.length = max a.δ.length 1 := by
  unfold ensureRoot
  by_cases hn : a.δ.length = 0
  · rw [if_pos hn]
    simp [hn]
  · rw [if_neg hn]
    refine ⟨rfl, rfl, ?_⟩
    omega

theorem walkLetter_labels (pol : Bool) (b : Builder) (q : Int) (t : String)
    (hn : 0 < b.a.δ.length) (hQ : b.a.Q = stateLabels b.a.δ.length) :
    (walkLetter pol (b, q) t).1.a.Q = stateLabels (walkLetter pol (b, q) t).1.a.δ.length ∧
      0 < (walkLetter pol (b, q) t).1.a.δ.length ∧
      (walkLetter pol (b, q) t).1.a.sigma = b.a.sigma := by
  unfold walkLetter
  simp only
  by_cases h0 : b.a.tr q (mapGet b.a.sigma t).toNat = 0
  · rw [if_pos h0]
    simp only
    have hlen : (tableSet (b.a.δ ++ [List.replicate b.a.sigma.length 0]) q
        (mapGet b.a.sigma t).toNat (b.a.δ.length : Int)).length = b.a.δ.length + 1 := by
      unfold tableSet
      simp
    rw [hlen, hQ, mapSet_stateLabels]
    refine ⟨?_, ?_, ?_⟩
    · trivial
    · omega
    · trivial
  · rw [if_neg h0]
    exact ⟨hQ, hn, rfl⟩

theorem walk_fold_labels (pol : Bool) :
    ∀ (w : List String) (b : Builder) (q : Int), 0 < b.a.δ.length →
      b.a.Q = stateLabels b.a.δ.length →
      (w.foldl (walkLetter pol) (b, q)).1.a.Q =
          stateLabels (w.foldl (walkLetter pol) (b, q)).1.a.δ.length ∧
        0 < (w.foldl (walkLetter pol) (b, q)).1.a.δ.length ∧
        (w.foldl (walkLetter pol) (b, q)).1.a.sigma = b.a.sigma
  | [], _, _, hn, hQ => ⟨hQ, hn, rfl⟩
  | t :: w, b, q, hn, hQ => by
    obtain ⟨s1, s2, s3⟩ := walkLetter_labels pol b q t hn hQ
    obtain ⟨r1, r2, r3⟩ := walk_fold_labels pol w (walkLetter pol (b, q) t).1
      (walkLetter pol (b, q) t).2 s2 s1
    rw [List.foldl_cons]
    exact ⟨r1, r2, r3.trans s3⟩

/-- The builder that a line leaves behind is the builder after the walk, with or without the
final writes of the flag and the decided mark. -/
theorem processLine_cases (b : Builder) (line : Line) (b1 : Builder)
    (h : processLine b line = .ok b1 ∨ processLine b line = .conflict b1) :
    ∃ a1, registerTokens b.a line.word = some a1 ∧
      (b1 = (walk line.positive
          { a := ensureRoot line.positive a1, important_states := b.important_states }
          line.word).1 ∨
        b1 =
          { a := { (walk line.positive
                { a := ensureRoot line.positive a1, important_states := b.important_states }
                line.word).1.a with
              F := (walk line.positive
                { a := ensureRoot line.positive a1, important_states := b.important_states }
                line.word).1.a.F.set
                  (walk line.positive
                    { a := ensureRoot line.positive a1
                      important_states := b.important_states }
                    line.word).2.toNat line.positive }
            important_states := (walk line.positive
                { a := ensureRoot line.positive a1, important_states := b.important_states }
                line.word).1.important_states.set
                  (walk line.positive
                    { a := ensureRoot line.positive a1
                      important_states := b.important_states }
                    line.word).2.toNat true }) := by
  unfold processLine at h
  cases h1 : registerTokens b.a line.word with
  | none =>
    rw [h1] at h
    simp at h
  | some a1 =>
    rw [h1] at h
    simp only at h
    refine ⟨a1, rfl, ?_⟩
    split_ifs at h
    · rcases h with h | h
      · simp at h
      · simp only [StepResult.conflict.injEq] at h
        exact Or.inl h.symm
    · rcases h with h | h
      · simp only [StepResult.ok.injEq] at h
        exact Or.inr h.symm
      · simp at h

theorem processLine_shape (b : Builder) (T : List String) (hS : Shape b T) (line : Line)
    (b1 : Builder) (h : processLine b line = .ok b1 ∨ processLine b line = .conflict b1) :
    Shape b1 (T ++ line.word) ∧ 0 < b1.a.δ.length := by
  obtain ⟨a1, h1, hb1⟩ := processLine_cases b line b1 h
  obtain ⟨s1, s2, s3⟩ := registerTokens_shape line.word b.a a1 _ hS.symbols h1
  obtain ⟨e1, e2, e3⟩ := ensureRoot_labels line.positive a1
  have hroot : 0 < (ensureRoot line.positive a1).δ.length := by rw [e3]; omega
  have hQroot : (ensureRoot line.positive a1).Q =
      stateLabels (ensureRoot line.positive a1).δ.length := by
    rw [e2, s2, hS.labels, e3, s3]
  obtain ⟨w1, w2, w3⟩ :
      (walk line.positive
          { a := ensureRoot line.positive a1, important_states := b.important_states }
          line.word).1.a.Q =
        stateLabels (walk line.positive
          { a := ensureRoot line.positive a1, important_states := b.important_states }
          line.word).1.a.δ.length ∧
      0 < (walk line.positive
          { a := ensureRoot line.positive a1, important_states := b.important_states }
          line.word).1.a.δ.length ∧
      (walk line.positive
          { a := ensureRoot line.positive a1, important_states := b.important_states }
          line.word).1.a.sigma = (ensureRoot line.positive a1).sigma :=
    walk_fold_labels line.positive line.word
      { a := ensureRoot line.positive a1, important_states := b.important_states }
      (ensureRoot line.positive a1).s hroot hQroot
  have hsig : (walk line.positive
      { a := ensureRoot line.positive a1, important_states := b.important_states }
      line.word).1.a.sigma = enumerate (firstOccurrences (T ++ line.word)) := by
    rw [w3, e1, s1, firstOccurrences_append]
  have hmax : ∀ n : Nat, 0 < n → max n 1 = n := fun n hn => by omega
  rcases hb1 with rfl | rfl
  · refine ⟨⟨hsig, ?_⟩, w2⟩
    rw [hmax _ w2]
    exact w1
  · refine ⟨⟨hsig, ?_⟩, w2⟩
    simp only
    rw [hmax _ w2]
    exact w1

theorem init_shape : Shape Builder.init [] := ⟨rfl, rfl⟩

theorem processLines_shape :
    ∀ (lines : List Line) (b : Builder) (L : List Line), b.Inv → Records b L →
      Shape b (allTokens L) → ∀ b1, processLines b lines = .ok b1 →
      Shape b1 (allTokens (L ++ lines)) ∧ (lines ≠ [] → 0 < b1.a.δ.length)
  | [], b, L, _, _, hS, b1, h => by
    simp only [processLines, StepResult.ok.injEq] at h
    subst h
    rw [List.append_nil]
    exact ⟨hS, fun h => absurd rfl h⟩
  | line :: rest, b, L, hI, hR, hS, b1, h => by
    unfold processLines at h
    rcases processLine_spec b L hI hR line with ⟨b2, e, hI2, hR2, _⟩ | ⟨b2, e, _⟩
    · rw [e] at h
      simp only at h
      obtain ⟨hS2, hn2⟩ := processLine_shape b _ hS line b2 (Or.inl e)
      rw [← allTokens_append] at hS2
      obtain ⟨r1, r2⟩ := processLines_shape rest b2 (L ++ [line]) hI2 hR2 hS2 b1 h
      rw [List.append_assoc, List.singleton_append] at r1
      refine ⟨r1, fun _ => ?_⟩
      by_cases hrest : rest = []
      · subst hrest
        simp only [processLines, StepResult.ok.injEq] at h
        subst h
        exact hn2
      · exact r2 hrest
    · rw [e] at h
      simp at h

theorem reached_shape {lines : List Line} {b : Builder}
    (h : processLines Builder.init lines = .ok b) :
    Shape b (allTokens lines) ∧ (lines ≠ [] → 0 < b.a.δ.length) := by
  have := processLines_shape lines Builder.init [] init_inv init_records init_shape b h
  rw [List.nil_append] at this
  exact this


/-! ## Frame of one line and the invariant of the builder -/

theorem registerTokens_unique {a a1 a2 : FSA} {w : List String}
    (h1 : registerTokens a w = some a1) (h2 : registerTokens a w = some a2) : a1 = a2 := by
  rw [h1] at h2
  exact Option.some.inj h2

theorem entry_mem_bounds {b : Builder} (hI : b.Inv) (hn : 0 < b.a.δ.length) :
    ∀ r ∈ b.a.δ, ∀ e ∈ r, 0 ≤ e ∧ e < b.a.δ.length := by
  intro r hr e he
  obtain ⟨i, hi, rfl⟩ := List.getElem_of_mem hr
  obtain ⟨j, hj, rfl⟩ := List.getElem_of_mem he
  have hentry : b.a.entry i j = (b.a.δ[i])[j] := by
    unfold FSA.entry
    rw [List.getD_eq_getElem _ _ hi, List.getD_eq_getElem _ _ hj]
  rw [← hentry]
  by_cases h0 : b.a.entry i j = 0
  · rw [h0]
    exact ⟨le_refl _, by exact_mod_cast hn⟩
  · have := hI.targets i j h0
    exact ⟨le_of_lt this.1, this.2⟩

theorem builder_wellFormed {b : Builder} (hI : b.Inv) (hn : 0 < b.a.δ.length) :
    b.a.WellFormed := by
  refine ⟨⟨hn, hI.flags, hI.rows, entry_mem_bounds hI hn⟩, ?_⟩
  unfold FSA.IsState
  rw [hI.start]
  exact ⟨le_refl _, by exact_mod_cast hn⟩

theorem complete_of_set (a : FSA) (h : ∀ r ∈ a.δ, ∀ e ∈ r, e ≠ -1) : complete a = a := by
  unfold complete
  have hδ : a.δ.map (fun row => row.map (fun e => if e = -1 then (0 : Int) else e)) = a.δ := by
    conv_rhs => rw [← List.map_id a.δ]
    apply List.map_congr_left
    intro r hr
    conv_rhs => rw [id, ← List.map_id r]
    apply List.map_congr_left
    intro e he
    rw [if_neg (h r hr e he)]
    rfl
  rw [hδ]

/-- A conflict leaves the builder as it was, for any builder that satisfies the invariant
and records its lines. -/
theorem conflict_unchanged {b : Builder} {L : List Line} (hI : b.Inv) (hR : Records b L)
    {line : Line} {b1 : Builder} (hc : processLine b line = .conflict b1) : b1 = b := by
  rcases processLine_spec b L hI hR line with ⟨b2, e, _⟩ | ⟨b2, _, l, hl, hword, _⟩
  · rw [e] at hc
    simp at hc
  · obtain ⟨q, f1, _, d1⟩ := hR.recorded l hl
    rw [hword] at f1
    have hn : b.a.δ.length ≠ 0 := by
      have := decided_lt hI d1
      omega
    rw [processLine_of_follow b hI.start hn line q f1] at hc
    by_cases ht : conflictTest line.positive b q = true
    · rw [if_pos ht] at hc
      simp only [StepResult.conflict.injEq] at hc
      exact hc.symm
    · rw [if_neg ht] at hc
      simp at hc

/-- C16: one line only grows the automaton of a builder reached without conflict. Symbols
and state labels keep their index, set entries keep their value, the rows that existed have
`|Σ|` entries before and after (one more per new symbol), and outside the state where the
word ends no accepting flag of an existing state and no decided mark changes. -/
theorem line_only_grows (lines : List Line) (b : Builder)
    (h : processLines Builder.init lines = .ok b) (line : Line) (b1 : Builder)
    (h1 : processLine b line = .ok b1 ∨ processLine b line = .conflict b1) :
    (∀ t v, mapFind b.a.sigma t = some v → mapFind b1.a.sigma t = some v) ∧
    (∀ k v, mapFind b.a.Q k = some v → mapFind b1.a.Q k = some v) ∧
    (∀ r c, b.a.entry r c ≠ 0 → b1.a.entry r c = b.a.entry r c) ∧
    (b.a.δ.length ≤ b1.a.δ.length ∧ b.a.sigma.length ≤ b1.a.sigma.length ∧
      ∀ i, i < b.a.δ.length → (b.a.δ.getD i []).length = b.a.sigma.length ∧
        (b1.a.δ.getD i []).length = b1.a.sigma.length) ∧
    ∃ q, follow b1.a 0 line.word = some q ∧
      ∀ i, i ≠ q.toNat →
        (i < b.a.δ.length → b1.a.F.getD i false = b.a.F.getD i false) ∧
        b1.important_states.getD i false = b.important_states.getD i false := by
  obtain ⟨hI, hR⟩ := reached_spec h
  obtain ⟨hS, _⟩ := reached_shape h
  obtain ⟨hS1, _⟩ := processLine_shape b _ hS line b1 h1
  obtain ⟨a1, hreg, w1, w2, w4, w5, w6⟩ := walked_spec b hI line
  obtain ⟨a2, hreg2, hb1⟩ := processLine_cases b line b1 h1
  have ha : a2 = a1 := registerTokens_unique hreg2 hreg
  subst ha
  have hQ : ∀ k v, mapFind b.a.Q k = some v → mapFind b1.a.Q k = some v := by
    intro k v hk
    rw [hS.labels] at hk
    rw [hS1.labels]
    have hle : b.a.δ.length ≤ b1.a.δ.length := by
      rcases hb1 with rfl | rfl
      · exact w2.size
      · exact w2.size
    exact mapFind_stateLabels_mono (by omega) hk
  have hsig : b.a.sigma.length ≤ b1.a.sigma.length := by
    rw [hS.symbols, hS1.symbols, length_enumerate, length_enumerate, firstOccurrences_append]
    exact length_firstOccurrencesFrom_ge _ _
  have hrowb : ∀ i, i < b.a.δ.length → (b.a.δ.getD i []).length = b.a.sigma.length := by
    intro i hi
    rw [List.getD_eq_getElem _ _ hi]
    exact hI.rows _ (List.getElem_mem _)
  have hrow1 : ∀ i, i < b.a.δ.length →
      ((walk line.positive
        { a := ensureRoot line.positive a2, important_states := b.important_states }
        line.word).1.a.δ.getD i []).length =
      (walk line.positive
        { a := ensureRoot line.positive a2, important_states := b.important_states }
        line.word).1.a.sigma.length := by
    intro i hi
    have hi1 := lt_of_lt_of_le hi w2.size
    rw [List.getD_eq_getElem _ _ hi1]
    exact w1.rows _ (List.getElem_mem _)
  rcases hb1 with rfl | rfl
  · refine ⟨w2.symbols, hQ, w2.entries, ⟨w2.size, hsig, fun i hi => ⟨hrowb i hi, hrow1 i hi⟩⟩,
      _, w4, ?_⟩
    intro i _
    exact ⟨w2.flags i, w2.marks i⟩
  · refine ⟨w2.symbols, hQ, w2.entries, ⟨w2.size, hsig, fun i hi => ⟨hrowb i hi, hrow1 i hi⟩⟩,
      (walk line.positive
        { a := ensureRoot line.positive a2, important_states := b.important_states }
        line.word).2, ?_, ?_⟩
    · refine Eq.trans (follow_congr ?_ ?_ _ _) w4 <;> rfl
    · intro i hi
      simp only
      rw [getD_set_bool, getD_set_bool, if_neg (fun e => hi e.1.symm),
        if_neg (fun e => hi e.1.symm)]
      exact ⟨w2.flags i, w2.marks i⟩

theorem line_only_grows_witness :
    processLines Builder.init [linePlusAB] = .ok builtOne ∧
    (processLine builtOne lineMinusA = .ok builtTwo ∨
      processLine builtOne lineMinusA = .conflict builtTwo) ∧
    ((∀ t v, mapFind builtOne.a.sigma t = some v → mapFind builtTwo.a.sigma t = some v) ∧
    (∀ k v, mapFind builtOne.a.Q k = some v → mapFind builtTwo.a.Q k = some v) ∧
    (∀ r c, builtOne.a.entry r c ≠ 0 → builtTwo.a.entry r c = builtOne.a.entry r c) ∧
    (builtOne.a.δ.length ≤ builtTwo.a.δ.length ∧
      builtOne.a.sigma.length ≤ builtTwo.a.sigma.length ∧
      ∀ i, i < builtOne.a.δ.length →
        (builtOne.a.δ.getD i []).length = builtOne.a.sigma.length ∧
        (builtTwo.a.δ.getD i []).length = builtTwo.a.sigma.length) ∧
    ∃ q, follow builtTwo.a 0 lineMinusA.word = some q ∧
      ∀ i, i ≠ q.toNat →
        (i < builtOne.a.δ.length →
          builtTwo.a.F.getD i false = builtOne.a.F.getD i false) ∧
        builtTwo.important_states.getD i false =
          builtOne.important_states.getD i false) :=
  ⟨by decide, Or.inl (by decide),
    line_only_grows [linePlusAB] builtOne (by decide) lineMinusA builtTwo
      (Or.inl (by decide))⟩

/-- C15: after at least one line, processed without conflict, the builder has as many state
labels, rows, accepting flags and decided marks, at least one; the state labels are the
decimal numbers of the states; the symbols are those of the lines in order of first
occurrence, numbered from 0; every row has `|Σ|` entries, each a state index; the start
state is 0; so the automaton is well formed, `patch_up_fsa` changes no entry of it and
returns an automaton; and a line reported as a conflict leaves all of this as it is. -/
theorem builder_invariant (lines : List Line) (b : Builder)
    (h : processLines Builder.init lines = .ok b) (hne : lines ≠ []) :
    b.a.Q.length = b.a.δ.length ∧ b.a.F.length = b.a.δ.length ∧
    b.important_states.length = b.a.δ.length ∧ 1 ≤ b.a.δ.length ∧
    b.a.Q = stateLabels b.a.δ.length ∧
    b.a.sigma = enumerate (firstOccurrences (allTokens lines)) ∧
    (firstOccurrences (allTokens lines)).Nodup ∧
    (∀ r ∈ b.a.δ, r.length = b.a.sigma.length) ∧
    (∀ r ∈ b.a.δ, ∀ e ∈ r, 0 ≤ e ∧ e < b.a.δ.length) ∧
    b.a.s = 0 ∧ b.a.WellFormed ∧ complete b.a = b.a ∧ (∃ m, patch_up_fsa b.a = .ok m) ∧
    ∀ line b1, processLine b line = .conflict b1 → b1 = b := by
  obtain ⟨hI, hR⟩ := reached_spec h
  obtain ⟨hS, hn⟩ := reached_shape h
  have hpos := hn hne
  have hmax : max b.a.δ.length 1 = b.a.δ.length := by omega
  have hQ : b.a.Q = stateLabels b.a.δ.length := by rw [hS.labels, hmax]
  have hwf := builder_wellFormed hI hpos
  have hcomp : complete b.a = b.a := complete_of_set b.a (fun r hr e he => by
    have := (entry_mem_bounds hI hpos r hr e he).1
    omega)
  refine ⟨by rw [hQ, length_stateLabels], hI.flags, by rw [hI.marks, hmax], hpos, hQ,
    hS.symbols, firstOccurrencesFrom_nodup _ [] List.nodup_nil, hI.rows,
    entry_mem_bounds hI hpos, hI.start, hwf, hcomp, ?_, ?_⟩
  · obtain ⟨P, m, _, hm, _, _⟩ := minimize_isQuotient b.a hwf
    exact ⟨m, by unfold patch_up_fsa; rw [hcomp]; exact hm⟩
  · intro line b1 hc
    exact conflict_unchanged hI hR hc

theorem builder_invariant_witness :
    processLines Builder.init [linePlusAB, lineMinusA] = .ok builtTwo ∧
    [linePlusAB, lineMinusA] ≠ [] ∧
    (builtTwo.a.Q.length = builtTwo.a.δ.length ∧ builtTwo.a.F.length = builtTwo.a.δ.length ∧
    builtTwo.important_states.length = builtTwo.a.δ.length ∧ 1 ≤ builtTwo.a.δ.length ∧
    builtTwo.a.Q = stateLabels builtTwo.a.δ.length ∧
    builtTwo.a.sigma = enumerate (firstOccurrences (allTokens [linePlusAB, lineMinusA])) ∧
    (firstOccurrences (allTokens [linePlusAB, lineMinusA])).Nodup ∧
    (∀ r ∈ builtTwo.a.δ, r.length = builtTwo.a.sigma.length) ∧
    (∀ r ∈ builtTwo.a.δ, ∀ e ∈ r, 0 ≤ e ∧ e < builtTwo.a.δ.length) ∧
    builtTwo.a.s = 0 ∧ builtTwo.a.WellFormed ∧ complete builtTwo.a = builtTwo.a ∧
    (∃ m, patch_up_fsa builtTwo.a = .ok m) ∧
    ∀ line b1, processLine builtTwo line = .conflict b1 → b1 = builtTwo) :=
  ⟨by decide, by decide,
    builder_invariant [linePlusAB, lineMinusA] builtTwo (by decide) (by decide)⟩


/-! ## The loops only go through reachable pairs -/

theorem refineLoop_reaches (a : FSA) (A : IntSet) (c : Nat) (fuel : Nat) (P W : Fam)
    (r : Fam × Fam) (h : Reaches a P W) (hr : refineLoop (preimage a A c) fuel P W = some r) :
    Reaches a r.1 r.2 :=
  (refineLoop_inv (preimage a A c) (Reaches a)
    (fun P W Y hInv hf => Reaches.split P W A c Y hInv hf) fuel P W r h hr).1

theorem letterLoop_reaches (a : FSA) (A : IntSet) (fuel : Nat) :
    ∀ (letters : List Nat) (P W : Fam) (r : Fam × Fam), Reaches a P W →
      letterLoop a A fuel letters P W = some r → Reaches a r.1 r.2
  | [], P, W, r, h, hr => by
    simp only [letterLoop, Option.some.injEq] at hr
    subst hr
    exact h
  | c :: cs, P, W, r, h, hr => by
    unfold letterLoop at hr
    cases hf : refineLoop (preimage a A c) fuel P W with
    | none => rw [hf] at hr; simp at hr
    | some PW =>
      rw [hf] at hr
      exact letterLoop_reaches a A fuel cs PW.1 PW.2 r (refineLoop_reaches a A c fuel P W PW h hf) hr

theorem whileLoop_reaches (a : FSA) (innerFuel : Nat) :
    ∀ (fuel : Nat) (P W R : Fam), Reaches a P W →
      whileLoop a innerFuel fuel P W = some R → Reaches a R [] := by
  intro fuel
  induction fuel with
  | zero =>
    intro P W R h hR
    cases W with
    | nil =>
      simp only [whileLoop, Option.some.injEq] at hR
      subst hR
      exact h
    | cons A W => simp [whileLoop] at hR
  | succ fuel ih =>
    intro P W R h hR
    cases W with
    | nil =>
      simp only [whileLoop, Option.some.injEq] at hR
      subst hR
      exact h
    | cons A W =>
      unfold whileLoop at hR
      cases hf : letterLoop a A innerFuel (List.range a.sigma.length) P W with
      | none => rw [hf] at hR; simp at hR
      | some PW =>
        rw [hf] at hR
        exact ih PW.1 PW.2 R
          (letterLoop_reaches a A innerFuel _ P W PW (Reaches.pop P A W h) hf) hR

theorem finalPartition_reaches (a : FSA) (P : Fam) (h : finalPartition a = some P) :
    Reaches a P [] :=
  whileLoop_reaches a _ _ _ _ P Reaches.start h

/-! ## What holds of every reachable pair -/

theorem mem_updateQueue_strict {W : Fam} {Y I D S : IntSet} (h : S ∈ updateQueue W Y I D) :
    S = I ∨ S = D ∨ (S ∈ W ∧ S ≠ Y) := by
  unfold updateQueue at h
  split_ifs at h with hY
  · rw [mem_famInsert, mem_famInsert, mem_famErase] at h
    tauto
  · rw [mem_famInsert] at h
    rcases h with h | h
    · exact Or.inl h
    · exact Or.inr (Or.inr ⟨h, fun e => hY (e ▸ h)⟩)
  · rw [mem_famInsert] at h
    rcases h with h | h
    · exact Or.inr (Or.inl h)
    · exact Or.inr (Or.inr ⟨h, fun e => hY (e ▸ h)⟩)

theorem reaches_invariant (a : FSA) (P W : Fam) (h : Reaches a P W) :
    IsPartition a P ∧ (∀ Y ∈ P, ∀ p ∈ Y, ∀ q ∈ Y, a.acc p = a.acc q) ∧ ∀ S ∈ W, S ∈ P := by
  induction h with
  | start =>
    refine ⟨initialBlocks_partition a, ?_, fun S hS => hS⟩
    intro Y hY p hp q hq
    rcases (mem_initialBlocks a Y).1 hY with ⟨rfl, _⟩ | ⟨rfl, _⟩
    · rw [((mem_classify_fst a p).1 hp).2, ((mem_classify_fst a q).1 hq).2]
    · rw [((mem_classify_snd a p).1 hp).2, ((mem_classify_snd a q).1 hq).2]
  | pop P A W _ ih =>
    exact ⟨ih.1, ih.2.1, fun S hS => ih.2.2 S (List.mem_cons_of_mem _ hS)⟩
  | split P W A letter Y _ hf ih =>
    obtain ⟨hP, hhom, hW⟩ := ih
    obtain ⟨hY, hI, hD⟩ := findSplit_some _ P Y hf
    have hmem : ∀ z, z ∈ Y ↔ z ∈ setIntersection (preimage a A letter) Y ∨
        z ∈ setDifference Y (preimage a A letter) := by
      intro z
      rw [mem_setIntersection, mem_setDifference]
      tauto
    have hdisj : ∀ z, z ∈ setIntersection (preimage a A letter) Y →
        z ∉ setDifference Y (preimage a A letter) := by
      intro z hz1 hz2
      rw [mem_setIntersection] at hz1
      rw [mem_setDifference] at hz2
      exact hz2.2 hz1.1
    refine ⟨partition_split a P Y _ _ hP hY hI hD hmem hdisj
      ((preimage_nodup a A letter).filter _) ((hP.nodup Y hY).filter _), ?_, ?_⟩
    · intro Z hZ p hp q hq
      rcases (mem_split P Y _ _ Z).1 hZ with rfl | rfl | hZ
      · exact hhom Y hY p ((hmem p).2 (Or.inr hp)) q ((hmem q).2 (Or.inr hq))
      · exact hhom Y hY p ((hmem p).2 (Or.inl hp)) q ((hmem q).2 (Or.inl hq))
      · exact hhom Z hZ.1 p hp q hq
    · intro S hS
      rw [mem_split]
      rcases mem_updateQueue_strict hS with rfl | rfl | ⟨hSW, hne⟩
      · exact Or.inr (Or.inl rfl)
      · exact Or.inl rfl
      · exact Or.inr (Or.inr ⟨hW S hSW, hne⟩)

/-- With `Y` read by value in the queue update, every pair `(P, W)` that the loops of
`minimize` go through, from the initial pair on, after a block is taken from the queue and
after every split, has `P` a family of non-empty, pairwise disjoint blocks that cover the
states, every block with one accepting flag, and every block of `W` a block of `P`; the
final partition is such a pair. -/
theorem refinement_invariant (a : FSA) :
    (∀ P W, Reaches a P W →
      IsPartition a P ∧ (∀ Y ∈ P, ∀ p ∈ Y, ∀ q ∈ Y, a.acc p = a.acc q) ∧ ∀ S ∈ W, S ∈ P) ∧
    (∀ (A : IntSet) (c fuel : Nat) (P W : Fam) (r : Fam × Fam), Reaches a P W →
      refineLoop (preimage a A c) fuel P W = some r → Reaches a r.1 r.2) ∧
    (∀ (A : IntSet) (fuel : Nat) (letters : List Nat) (P W : Fam) (r : Fam × Fam),
      Reaches a P (A :: W) → letterLoop a A fuel letters P W = some r → Reaches a r.1 r.2) ∧
    ∀ P, finalPartition a = some P → Reaches a P [] :=
  ⟨reaches_invariant a, fun A c fuel P W r h hr => refineLoop_reaches a A c fuel P W r h hr,
    fun A fuel letters P W r h hr =>
      letterLoop_reaches a A fuel letters P W r (Reaches.pop P A W h) hr,
    finalPartition_reaches a⟩

/-! ## The measures of termination -/

theorem sumSquares_cons (Y : IntSet) (P : Fam) :
    sumSquares (Y :: P) = Y.length * Y.length + sumSquares P := by
  simp [sumSquares]

theorem sumSquares_famInsert_le (S : IntSet) (P : Fam) :
    sumSquares (famInsert S P) ≤ sumSquares P + S.length * S.length := by
  induction P with
  | nil => simp [famInsert, sumSquares]
  | cons U Us ih =>
    unfold famInsert
    split_ifs
    · simp only [sumSquares_cons]; omega
    · simp only [sumSquares_cons]; omega
    · simp only [sumSquares_cons]; omega

theorem sumSquares_famErase_le (S : IntSet) (P : Fam) :
    sumSquares (famErase S P) ≤ sumSquares P := by
  induction P with
  | nil => simp [famErase]
  | cons U Us ih =>
    unfold famErase at ih ⊢
    rw [List.filter_cons]
    split_ifs
    · simp only [sumSquares_cons]; omega
    · simp only [sumSquares_cons]; omega

theorem sumSquares_famErase_mem (Y : IntSet) (P : Fam) (h : Y ∈ P) :
    sumSquares (famErase Y P) + Y.length * Y.length ≤ sumSquares P := by
  induction P with
  | nil => simp at h
  | cons U Us ih =>
    by_cases hU : U = Y
    · subst hU
      have h1 : famErase U (U :: Us) = famErase U Us := by simp [famErase]
      rw [h1, sumSquares_cons]
      have := sumSquares_famErase_le U Us
      omega
    · have hm : Y ∈ Us := by
        rcases List.mem_cons.1 h with e | e
        · exact absurd e.symm hU
        · exact e
      have h1 : famErase Y (U :: Us) = U :: famErase Y Us := by simp [famErase, hU]
      rw [h1, sumSquares_cons, sumSquares_cons]
      have := ih hm
      omega

theorem sumSquares_split (X : IntSet) (hX : X.Nodup) (P : Fam) (Y : IntSet)
    (hP : ∀ Z ∈ P, Z.Nodup) (hY : Y ∈ P)
    (hI : setIntersection X Y ≠ []) (hD : setDifference Y X ≠ []) :
    sumSquares (famInsert (setDifference Y X) (famInsert (setIntersection X Y) (famErase Y P)))
      < sumSquares P := by
  have h1 := sumSquares_famInsert_le (setDifference Y X)
    (famInsert (setIntersection X Y) (famErase Y P))
  have h2 := sumSquares_famInsert_le (setIntersection X Y) (famErase Y P)
  have h3 := sumSquares_famErase_mem Y P hY
  have h4 := length_split X Y hX (hP Y hY)
  have h5 : 0 < (setIntersection X Y).length := List.length_pos.2 hI
  have h6 : 0 < (setDifference Y X).length := List.length_pos.2 hD
  have h7 := Nat.mul_pos h5 h6
  rw [← h4] at h3
  have h8 : ((setIntersection X Y).length + (setDifference Y X).length) *
      ((setIntersection X Y).length + (setDifference Y X).length) =
      (setIntersection X Y).length * (setIntersection X Y).length +
      2 * ((setIntersection X Y).length * (setDifference Y X).length) +
      (setDifference Y X).length * (setDifference Y X).length := by ring
  rw [h8] at h3
  omega

theorem refineLoop_no_split (X : IntSet) (fuel : Nat) (P W : Fam)
    (h : findSplit X P = none) : refineLoop X (fuel + 1) P W = some (P, W) := by
  unfold refineLoop
  rw [h]

theorem letterLoop_no_split (a : FSA) (A : IntSet) (fuel : Nat) (P W : Fam) :
    ∀ letters : List Nat, (∀ c ∈ letters, findSplit (preimage a A c) P = none) →
      letterLoop a A (fuel + 1) letters P W = some (P, W)
  | [], _ => rfl
  | c :: cs, h => by
    unfold letterLoop
    rw [refineLoop_no_split _ fuel P W (h c (List.mem_cons_self _ _))]
    exact letterLoop_no_split a A fuel P W cs (fun d hd => h d (List.mem_cons_of_mem _ hd))

/-- C19: the work-queue loop of `minimize` ends with a partition for every automaton; every
split of a block of a reachable `P` strictly decreases the sum of the squared block
cardinalities; and an iteration of the outer loop in which no letter splits a block leaves
`P` as it is and the queue one block shorter. -/
theorem refinement_terminates (a : FSA) :
    (∃ P, finalPartition a = some P) ∧
    (∀ (P W : Fam) (A : IntSet) (letter : Nat) (Y : IntSet), Reaches a P W →
      findSplit (preimage a A letter) P = some Y →
      sumSquares
        (famInsert (setDifference Y (preimage a A letter))
          (famInsert (setIntersection (preimage a A letter) Y) (famErase Y P)))
        < sumSquares P) ∧
    (∀ (P W : Fam) (A : IntSet) (innerFuel fuel : Nat),
      (∀ letter, letter < a.sigma.length → findSplit (preimage a A letter) P = none) →
      letterLoop a A (innerFuel + 1) (List.range a.sigma.length) P W = some (P, W) ∧
      W.length < (A :: W).length ∧
      whileLoop a (innerFuel + 1) (fuel + 1) P (A :: W) =
        whileLoop a (innerFuel + 1) fuel P W) := by
  refine ⟨finalPartition_some a, ?_, ?_⟩
  · intro P W A letter Y hR hf
    obtain ⟨hY, hI, hD⟩ := findSplit_some _ P Y hf
    exact sumSquares_split _ (preimage_nodup a A letter) P Y (reaches_invariant a P W hR).1.nodup
      hY hI hD
  · intro P W A innerFuel fuel hno
    have h1 := letterLoop_no_split a A innerFuel P W (List.range a.sigma.length)
      (fun c hc => hno c (List.mem_range.1 hc))
    refine ⟨h1, by simp, ?_⟩
    conv_lhs => unfold whileLoop
    rw [h1]


/-! ## The order of the blocks -/

theorem setLt_nil_right (S : IntSet) : setLt S [] = false := by
  cases S <;> rfl

theorem setLt_cons (x : Int) (xs : IntSet) (y : Int) (ys : IntSet) :
    setLt (x :: xs) (y :: ys) = if x < y then true else if y < x then false else setLt xs ys :=
  rfl

theorem setLt_trans : ∀ (S T U : IntSet), setLt S T = true → setLt T U = true →
    setLt S U = true
  | _, [], _, h, _ => by rw [setLt_nil_right] at h; exact absurd h (by decide)
  | _, _ :: _, [], _, h => by rw [setLt_nil_right] at h; exact absurd h (by decide)
  | [], _ :: _, _ :: _, _, _ => rfl
  | x :: xs, y :: ys, z :: zs, h1, h2 => by
    rw [setLt_cons] at h1 h2 ⊢
    by_cases hxy : x < y
    · by_cases hyz : y < z
      · rw [if_pos (lt_trans hxy hyz)]
      · rw [if_neg hyz] at h2
        by_cases hzy : z < y
        · rw [if_pos hzy] at h2; exact absurd h2 (by decide)
        · have : x < z := by omega
          rw [if_pos this]
    · rw [if_neg hxy] at h1
      by_cases hyx : y < x
      · rw [if_pos hyx] at h1; exact absurd h1 (by decide)
      · rw [if_neg hyx] at h1
        have exy : x = y := by omega
        subst exy
        by_cases hyz : x < z
        · rw [if_pos hyz]
        · rw [if_neg hyz] at h2 ⊢
          by_cases hzy : z < x
          · rw [if_pos hzy] at h2; exact absurd h2 (by decide)
          · rw [if_neg hzy] at h2 ⊢
            exact setLt_trans xs ys zs h1 h2

theorem famInsert_sorted (S : IntSet) (P : Fam)
    (h : P.Pairwise (fun A B => setLt A B = true)) :
    (famInsert S P).Pairwise (fun A B => setLt A B = true) := by
  induction P with
  | nil => simp [famInsert]
  | cons T Ts ih =>
    rw [List.pairwise_cons] at h
    unfold famInsert
    by_cases h1 : setLt S T = true
    · rw [if_pos h1]
      refine List.pairwise_cons.2 ⟨?_, List.pairwise_cons.2 h⟩
      intro Z hZ
      rcases List.mem_cons.1 hZ with rfl | hZ
      · exact h1
      · exact setLt_trans _ _ _ h1 (h.1 Z hZ)
    · rw [if_neg h1]
      by_cases h2 : setLt T S = true
      · rw [if_pos h2]
        refine List.pairwise_cons.2 ⟨?_, ih h.2⟩
        intro Z hZ
        rcases (mem_famInsert Z S Ts).1 hZ with rfl | hZ
        · exact h2
        · exact h.1 Z hZ
      · rw [if_neg h2]
        exact List.pairwise_cons.2 h

theorem reaches_sorted (a : FSA) (P W : Fam) (h : Reaches a P W) :
    (∀ Y ∈ P, Y.Pairwise (· < ·)) ∧ P.Pairwise (fun A B => setLt A B = true) := by
  induction h with
  | start =>
    obtain ⟨s1, s2, _⟩ := classify_spec a
    constructor
    · intro Y hY
      rcases (mem_initialBlocks a Y).1 hY with ⟨rfl, _⟩ | ⟨rfl, _⟩
      · exact s1
      · exact s2
    · unfold initialBlocks
      simp only
      split_ifs
      · exact famInsert_sorted _ _ (famInsert_sorted _ _ List.Pairwise.nil)
      · exact famInsert_sorted _ _ List.Pairwise.nil
      · exact famInsert_sorted _ _ List.Pairwise.nil
      · exact List.Pairwise.nil
  | pop P A W _ ih => exact ih
  | split P W A letter Y _ hf ih =>
    obtain ⟨hb, hp⟩ := ih
    obtain ⟨hY, _, _⟩ := findSplit_some _ P Y hf
    constructor
    · intro Z hZ
      rcases (mem_split P Y _ _ Z).1 hZ with rfl | rfl | hZ
      · exact (hb Y hY).filter _
      · exact (preimage_sorted_aux a A letter _ [] List.Pairwise.nil).filter _
      · exact hb Z hZ.1
    · exact famInsert_sorted _ _ (famInsert_sorted _ _ (hp.filter _))

theorem head_le_of_sorted {B : IntSet} (h : B.Pairwise (· < ·)) :
    ∀ x ∈ B, B.headD 0 ≤ x := by
  intro x hx
  cases B with
  | nil => exact absurd hx (List.not_mem_nil _)
  | cons y ys =>
    rw [List.pairwise_cons] at h
    rcases List.mem_cons.1 hx with rfl | hx
    · exact le_refl _
    · exact le_of_lt (h.1 x hx)

theorem head_le_of_setLt {S T : IntSet} (hS : S ≠ []) (hT : T ≠ [])
    (h : setLt S T = true) : S.headD 0 ≤ T.headD 0 := by
  cases S with
  | nil => exact absurd rfl hS
  | cons x xs =>
    cases T with
    | nil => exact absurd rfl hT
    | cons y ys =>
      rw [setLt_cons] at h
      show x ≤ y
      by_cases hxy : x < y
      · omega
      · rw [if_neg hxy] at h
        by_cases hyx : y < x
        · rw [if_pos hyx] at h; exact absurd h (by decide)
        · omega

/-- In a sorted partition, a block that comes earlier has a smaller first member. -/
theorem head_lt_of_index {a : FSA} {P : Fam} (hP : IsPartition a P)
    (hs : P.Pairwise (fun A B => setLt A B = true)) {i j : Nat} {Bi Bj : IntSet}
    (hi : P[i]? = some Bi) (hj : P[j]? = some Bj) (hij : i < j) :
    Bi.headD 0 < Bj.headD 0 := by
  have hjl : j < P.length := by
    by_contra h
    rw [List.getElem?_eq_none (by omega)] at hj
    simp at hj
  have hil : i < P.length := by omega
  have ei : P[i] = Bi := by
    rw [List.getElem?_eq_getElem hil] at hi
    simpa using hi
  have ej : P[j] = Bj := by
    rw [List.getElem?_eq_getElem hjl] at hj
    simpa using hj
  have hlt : setLt Bi Bj = true := by
    rw [← ei, ← ej]
    exact List.pairwise_iff_getElem.1 hs i j hil hjl hij
  have hBi : Bi ∈ P := List.getElem?_mem hi
  have hBj : Bj ∈ P := List.getElem?_mem hj
  have hle := head_le_of_setLt (hP.nonempty Bi hBi) (hP.nonempty Bj hBj) hlt
  have hne : Bi.headD 0 ≠ Bj.headD 0 := by
    intro e
    have h1 := head_mem_block (hP.nonempty Bi hBi)
    have h2 := head_mem_block (hP.nonempty Bj hBj)
    rw [e] at h1
    have := getElem?_eq_of_common hP hi hj h1 h2
    omega
  omega

/-! ## The labels of the output -/

theorem emitBlock_Q (a : FSA) (sm : Int → Int) (out : Draft) (p : IntSet) :
    (emitBlock a sm out p).Q =
      mapSet out.Q (toString (sm (p.headD 0))) (sm (p.headD 0)) := rfl

theorem emit_fold_labels (a : FSA) (sm : Int → Int) (out0 : Draft) (h0 : out0.Q = []) :
    ∀ (pre suf : Fam),
      (∀ (i : Nat) (p : IntSet), (pre ++ suf)[i]? = some p → sm (p.headD 0) = (i : Int)) →
      (pre.foldl (emitBlock a sm) out0).Q = stateLabels pre.length := by
  intro pre
  induction pre using List.reverseRecOn with
  | nil => intro suf _; exact h0
  | append_singleton pre p ih =>
    intro suf hidx
    have hassoc : pre ++ [p] ++ suf = pre ++ (p :: suf) := by simp
    rw [hassoc] at hidx
    have ih1 := ih (p :: suf) hidx
    have hp : sm (p.headD 0) = (pre.length : Int) := hidx pre.length p (by
      rw [List.getElem?_append_right (le_refl _)]; simp)
    rw [List.foldl_append, List.foldl_cons, List.foldl_nil, emitBlock_Q, ih1, hp,
      mapSet_stateLabels, List.length_append]
    rfl

theorem output_labels (a : FSA) (P : Fam) (hP : IsPartition a P) {m : FSA}
    (h : output a P = .ok m) : m.Q = stateLabels P.length := by
  have hidx : ∀ (i : Nat) (p : IntSet), (P ++ [])[i]? = some p →
      stateMap P (p.headD 0) = (i : Int) := by
    intro i p hi
    rw [List.append_nil] at hi
    exact stateMap_index hP hi (head_mem_block (hP.nonempty p (List.getElem?_mem hi)))
  have hQ := emit_fold_labels a (stateMap P)
    { δ := List.replicate P.length (List.replicate a.sigma.length (-1))
      F := List.replicate P.length false
      Q := [] } rfl P [] hidx
  unfold output at h
  simp only at h
  split_ifs at h
  simp only [Outcome.ok.injEq] at h
  rw [← h]
  exact hQ

theorem length_le_sum_lengths (P : Fam) (h : ∀ Y ∈ P, Y ≠ []) :
    P.length ≤ (P.map List.length).sum := by
  induction P with
  | nil => simp
  | cons Y Ys ih =>
    have h1 : 0 < Y.length := List.length_pos.2 (h Y (List.mem_cons_self _ _))
    have h2 := ih (fun Z hZ => h Z (List.mem_cons_of_mem _ hZ))
    simp only [List.length_cons, List.map_cons, List.sum_cons]
    omega


/-! ## The automaton returned by `minimize`, in full -/

theorem minimize_full (a : FSA) (hw : a.WellFormed) :
    ∃ P m, finalPartition a = some P ∧ minimize a = .ok m ∧
      Refining a (fun _ _ _ => False) P [] ∧ IsQuotient a P m ∧
      m.Q = stateLabels P.length ∧
      (∀ Y ∈ P, Y.Pairwise (· < ·)) ∧ P.Pairwise (fun A B => setLt A B = true) := by
  obtain ⟨P, m, hP, hm, hR, hq⟩ := minimize_isQuotient a hw
  have hout : output a P = .ok m := by
    unfold minimize at hm
    rw [hP] at hm
    exact hm
  obtain ⟨s1, s2⟩ := reaches_sorted a P [] (finalPartition_reaches a P hP)
  exact ⟨P, m, hP, hm, hR, hq, output_labels a P hR.part hout, s1, s2⟩

/-- C12: on a well-formed completed automaton with `n` states, `minimize` returns an
automaton with `k` rows, `1 ≤ k ≤ n`, every row with `|Σ|` entries in `[0, k)`, with `k`
accepting flags, the `k` state labels `"0"`, ..., each mapped to its number, a start index
in `[0, k)` and the alphabet map of the input. -/
theorem minimize_wellFormed (a : FSA) (hw : a.WellFormed) :
    ∃ m, minimize a = .ok m ∧ 1 ≤ m.δ.length ∧ m.δ.length ≤ a.δ.length ∧
      (∀ r ∈ m.δ, r.length = a.sigma.length) ∧
      (∀ r ∈ m.δ, ∀ e ∈ r, 0 ≤ e ∧ e < m.δ.length) ∧
      m.F.length = m.δ.length ∧
      m.Q = stateLabels m.δ.length ∧ m.Q.length = m.δ.length ∧
      (0 ≤ m.s ∧ m.s < m.δ.length) ∧ m.sigma = a.sigma := by
  obtain ⟨P, m, _, hm, hR, hq, hQ, _, _⟩ := minimize_full a hw
  have hmw := quot_wellFormed hR hq hw
  have hlen := quot_length hq
  have hle : P.length ≤ a.δ.length := by
    rw [← partition_card hR.part]
    exact length_le_sum_lengths P hR.part.nonempty
  refine ⟨m, hm, hmw.table.states, by omega, ?_, hmw.table.targets, hmw.table.flags, ?_, ?_,
    hmw.start, hq.sigma⟩
  · intro r hr
    rw [← hq.sigma]
    exact hmw.table.rows r hr
  · rw [hQ, hlen]
  · rw [hQ, length_stateLabels, hlen]

theorem minimize_wellFormed_witness :
    sample4.WellFormed ∧
    ∃ m, minimize sample4 = .ok m ∧ 1 ≤ m.δ.length ∧ m.δ.length ≤ sample4.δ.length ∧
      (∀ r ∈ m.δ, r.length = sample4.sigma.length) ∧
      (∀ r ∈ m.δ, ∀ e ∈ r, 0 ≤ e ∧ e < m.δ.length) ∧
      m.F.length = m.δ.length ∧
      m.Q = stateLabels m.δ.length ∧ m.Q.length = m.δ.length ∧
      (0 ≤ m.s ∧ m.s < m.δ.length) ∧ m.sigma = sample4.sigma :=
  ⟨sample4_wellFormed, minimize_wellFormed sample4 sample4_wellFormed⟩

/-- C17: on a well-formed completed automaton with final partition `P`, every state lies in
exactly one block and `state_map` sends it to the position of that block; the first member
of a block is its smallest, blocks are numbered in increasing order of their smallest
member and the block of state 0 is number 0; row `i` of the output holds, for each symbol,
the number of the block of the target of the smallest member of block `i`, flag `i` is the
flag of that member, and the start state is the number of the block of `a.s`. -/
theorem minimize_numbering (a : FSA) (hw : a.WellFormed) :
    ∃ P m, finalPartition a = some P ∧ minimize a = .ok m ∧ m.δ.length = P.length ∧
      (∀ x, a.IsState x → ∃ (i : Nat) (B : IntSet), P[i]? = some B ∧ x ∈ B ∧
        stateMap P x = i ∧ ∀ (j : Nat) (C : IntSet), P[j]? = some C → x ∈ C → j = i) ∧
      (∀ (i : Nat) (B : IntSet), P[i]? = some B →
        B.headD 0 ∈ B ∧ ∀ x ∈ B, B.headD 0 ≤ x ∧ stateMap P x = i) ∧
      (∀ (i j : Nat) (Bi Bj : IntSet), P[i]? = some Bi → P[j]? = some Bj → i < j →
        Bi.headD 0 < Bj.headD 0) ∧
      stateMap P 0 = 0 ∧
      (∀ (i : Nat) (B : IntSet), P[i]? = some B → ∀ c, c < a.sigma.length →
        m.entry i c = stateMap P (a.tr (B.headD 0) c)) ∧
      (∀ (i : Nat) (B : IntSet), P[i]? = some B → m.acc (i : Int) = a.acc (B.headD 0)) ∧
      m.s = stateMap P a.s := by
  obtain ⟨P, m, hP, hm, hR, hq, _, hsb, hsp⟩ := minimize_full a hw
  have hhead : ∀ (i : Nat) (B : IntSet), P[i]? = some B → B.headD 0 ∈ B :=
    fun i B hi => head_mem_block (hR.part.nonempty B (List.getElem?_mem hi))
  refine ⟨P, m, hP, hm, quot_length hq, ?_, ?_, ?_, ?_, ?_, ?_, hq.s⟩
  · intro x hx
    obtain ⟨i, B, hi, hxB, e⟩ := stateMap_of_state hR.part hx
    exact ⟨i, B, hi, hxB, e, fun j C hj hxC => getElem?_eq_of_common hR.part hj hi hxC hxB⟩
  · intro i B hi
    refine ⟨hhead i B hi, fun x hx => ⟨?_, stateMap_index hR.part hi hx⟩⟩
    exact head_le_of_sorted (hsb B (List.getElem?_mem hi)) x hx
  · intro i j Bi Bj hi hj hij
    exact head_lt_of_index hR.part hsp hi hj hij
  · have h0 : a.IsState 0 := ⟨le_refl _, by exact_mod_cast hw.table.states⟩
    obtain ⟨j, B, hj, h0B, e⟩ := stateMap_of_state hR.part h0
    rw [e]
    by_cases hj0 : j = 0
    · rw [hj0]; rfl
    · exfalso
      have hpos : 0 < P.length := List.length_pos.2 (List.ne_nil_of_mem (List.getElem?_mem hj))
      have hfirst : P[0]? = some P[0] := List.getElem?_eq_getElem hpos
      have hlt := head_lt_of_index hR.part hsp hfirst hj (by omega)
      have hle := head_le_of_sorted (hsb B (List.getElem?_mem hj)) 0 h0B
      have hst := hR.part.states _ (List.getElem?_mem hfirst) _ (hhead 0 _ hfirst)
      have := hst.1
      omega
  · intro i B hi c hc
    exact quot_entry hq hi hc
  · intro i B hi
    exact quot_flag hq hi

theorem minimize_numbering_witness :
    sample4.WellFormed ∧
    ∃ P m, finalPartition sample4 = some P ∧ minimize sample4 = .ok m ∧
      m.δ.length = P.length ∧
      (∀ x, sample4.IsState x → ∃ (i : Nat) (B : IntSet), P[i]? = some B ∧ x ∈ B ∧
        stateMap P x = i ∧ ∀ (j : Nat) (C : IntSet), P[j]? = some C → x ∈ C → j = i) ∧
      (∀ (i : Nat) (B : IntSet), P[i]? = some B →
        B.headD 0 ∈ B ∧ ∀ x ∈ B, B.headD 0 ≤ x ∧ stateMap P x = i) ∧
      (∀ (i j : Nat) (Bi Bj : IntSet), P[i]? = some Bi → P[j]? = some Bj → i < j →
        Bi.headD 0 < Bj.headD 0) ∧
      stateMap P 0 = 0 ∧
      (∀ (i : Nat) (B : IntSet), P[i]? = some B → ∀ c, c < sample4.sigma.length →
        m.entry i c = stateMap P (sample4.tr (B.headD 0) c)) ∧
      (∀ (i : Nat) (B : IntSet), P[i]? = some B →
        m.acc (i : Int) = sample4.acc (B.headD 0)) ∧
      m.s = stateMap P sample4.s :=
  ⟨sample4_wellFormed, minimize_numbering sample4 sample4_wellFormed⟩

/-! ## `parse_fsa` on the description of `sample3` -/

/-- C20 at a failing input: for the alphabet `a b` and the three state lines of `sample3`,
`parse_fsa` registers three states and returns two accepting flags, as many as symbols. -/
theorem parse_fsa_flags_by_symbols :
    ∃ a, parse_fsa 0 ["a", "b"] sample3Text = some a ∧
      a.Q = [("p0", 0), ("p1", 1), ("p2", 2)] ∧ a.δ = [[1, 2], [2, 2], [2, 2]] ∧
      a.F = [false, true] ∧ a.F.length = a.sigma.length ∧ a.F.length ≠ a.Q.length ∧
      a.s = 0 :=
  ⟨{ sigma := [("a", 0), ("b", 1)], Q := [("p0", 0), ("p1", 1), ("p2", 2)],
     δ := [[1, 2], [2, 2], [2, 2]], F := [false, true], s := 0 },
    by decide, rfl, rfl, rfl, by decide, by decide, rfl⟩


/-! ## The two copies of `minimize` -/

/-- The printed text of the set `{0, 2, 3}` lacks the last member and ends with the value
read past the end. -/
theorem showSet_sample : showSet 7 [0, 2, 3] = "\x7b0 2 7\x7d" := by decide

theorem refineLoop7_fst (g : IntSet → Int) (X : IntSet) :
    ∀ (fuel : Nat) (P W : Fam) (out : List String),
      (refineLoop7 g X fuel P W out).map (fun r => (r.1, r.2.1)) = refineLoop X fuel P W
  | 0, _, _, _ => rfl
  | fuel + 1, P, W, out => by
    unfold refineLoop7 refineLoop
    cases h : findSplit X P with
    | none => rfl
    | some Y => exact refineLoop7_fst g X fuel _ _ _

theorem letterLoop7_fst (g : IntSet → Int) (a : FSA) (A : IntSet) (fuel : Nat) :
    ∀ (letters : List Nat) (P W : Fam) (out : List String),
      (letterLoop7 g a A fuel letters P W out).map (fun r => (r.1, r.2.1)) =
        letterLoop a A fuel letters P W
  | [], _, _, _ => rfl
  | letter :: rest, P, W, out => by
    unfold letterLoop7 letterLoop
    rw [← refineLoop7_fst g (preimage a A letter) fuel P W out]
    cases refineLoop7 g (preimage a A letter) fuel P W out with
    | none => rfl
    | some r => exact letterLoop7_fst g a A fuel rest r.1 r.2.1 r.2.2

theorem whileLoop7_fst (g : IntSet → Int) (a : FSA) (innerFuel : Nat) :
    ∀ (fuel : Nat) (P W : Fam) (out : List String),
      (whileLoop7 g a innerFuel fuel P W out).map (fun r => r.1) =
        whileLoop a innerFuel fuel P W
  | 0, _, [], _ => rfl
  | _ + 1, _, [], _ => rfl
  | 0, _, _ :: _, _ => rfl
  | fuel + 1, P, A :: W, out => by
    unfold whileLoop7 whileLoop
    rw [← letterLoop7_fst g a A innerFuel (List.range a.sigma.length) P W
      (out ++ [debugLine g "A" A])]
    cases letterLoop7 g a A innerFuel (List.range a.sigma.length) P W
        (out ++ [debugLine g "A" A]) with
    | none => rfl
    | some r => exact whileLoop7_fst g a innerFuel fuel r.1 r.2.1 r.2.2

/-- What `minimize` of `extra-task-7.cpp` returns does not depend on what it prints: the
statement-by-statement model and `minimize7` have the same result. -/
theorem minimize7Traced_fst (g : IntSet → Int) (a : FSA) :
    (minimize7Traced g a).1 = minimize7 a := by
  unfold minimize7Traced minimize7 minimize finalPartition
  simp only
  split_ifs
  · rw [← whileLoop7_fst g a (a.δ.length + 1) (2 * a.δ.length + 3) (initialBlocks a)
      (initialBlocks a) []]
    cases whileLoop7 g a (a.δ.length + 1) (2 * a.δ.length + 3) (initialBlocks a)
        (initialBlocks a) [] with
    | none => rfl
    | some r => rfl
  · rfl
  · rfl

/-- C21: on a well-formed completed automaton with an accepting and a non-accepting state,
`minimize` of `extra-task-20.cpp` returns a well-formed automaton `m`, and `minimize` of
`extra-task-7.cpp`, whatever its printing reads past the end of a set, returns an automaton
with the same alphabet map, state labels, transition table, accepting flags and start
state. -/
theorem minimize_copies_agree (a : FSA) (hw : a.WellFormed)
    (hacc : ∃ p, a.IsState p ∧ a.acc p = true) (hrej : ∃ q, a.IsState q ∧ a.acc q = false) :
    ∃ m, minimize a = .ok m ∧ m.WellFormed ∧ minimize7 a = .ok m ∧
      ∀ pastEnd : IntSet → Int, ∃ m7, (minimize7Traced pastEnd a).1 = .ok m7 ∧
        m7.sigma = m.sigma ∧ m7.Q = m.Q ∧ m7.δ = m.δ ∧ m7.F = m.F ∧ m7.s = m.s := by
  obtain ⟨p, hp, hpa⟩ := hacc
  obtain ⟨q, hq, hqa⟩ := hrej
  obtain ⟨P, m, _, hm, hR, hquot⟩ := minimize_isQuotient a hw
  have h7 : minimize7 a = .ok m := by rw [minimize7_of_both hp hpa hq hqa, hm]
  refine ⟨m, hm, quot_wellFormed hR hquot hw, h7, fun pastEnd => ⟨m, ?_, rfl, rfl, rfl, rfl, rfl⟩⟩
  rw [minimize7Traced_fst, h7]

theorem minimize_copies_agree_witness :
    sample4.WellFormed ∧ (∃ p, sample4.IsState p ∧ sample4.acc p = true) ∧
    (∃ q, sample4.IsState q ∧ sample4.acc q = false) ∧
    ∃ m, minimize sample4 = .ok m ∧ m.WellFormed ∧ minimize7 sample4 = .ok m ∧
      ∀ pastEnd : IntSet → Int, ∃ m7, (minimize7Traced pastEnd sample4).1 = .ok m7 ∧
        m7.sigma = m.sigma ∧ m7.Q = m.Q ∧ m7.δ = m.δ ∧ m7.F = m.F ∧ m7.s = m.s :=
  ⟨sample4_wellFormed, ⟨1, by unfold FSA.IsState; decide, by decide⟩,
    ⟨0, by unfold FSA.IsState; decide, by decide⟩,
    minimize_copies_agree sample4 sample4_wellFormed
      ⟨1, by unfold FSA.IsState; decide, by decide⟩
      ⟨0, by unfold FSA.IsState; decide, by decide⟩⟩


/-! ## Automata with the same language, state by state -/

theorem acceptsFrom_cons (a : FSA) (p : Int) (c : Nat) (w : List Nat) :
    a.acceptsFrom p (c :: w) = a.acceptsFrom (a.tr p c) w := rfl

theorem acceptsFrom_run (a : FSA) :
    ∀ (u : List Nat) (p : Int) (w : List Nat),
      a.acceptsFrom (a.run p u) w = a.acceptsFrom p (u ++ w)
  | [], _, _ => rfl
  | c :: u, p, w => by
    rw [List.cons_append, acceptsFrom_cons, ← acceptsFrom_run a u (a.tr p c) w]
    rfl

theorem isWord_append {a : FSA} {u w : List Nat} (hu : a.IsWord u) (hw : a.IsWord w) :
    a.IsWord (u ++ w) := by
  intro c hc
  rcases List.mem_append.1 hc with h | h
  · exact hu c h
  · exact hw c h

theorem isWord_congr {a1 a2 : FSA} (hsig : a1.sigma = a2.sigma) (w : List Nat) :
    a1.IsWord w ↔ a2.IsWord w := by
  unfold FSA.IsWord
  rw [hsig]

theorem sameLanguage_of_reachable {a1 a2 : FSA} (hw2 : a2.WellFormed)
    (hsig : a1.sigma = a2.sigma)
    (hlang : ∀ w, a1.IsWord w → a1.accepts w = a2.accepts w) (hr1 : a1.AllReachable)
    {p : Int} (hp : a1.IsState p) : ∃ q, a2.IsState q ∧ SameLanguage a1 a2 p q := by
  obtain ⟨u, hu, rfl⟩ := hr1 p hp
  refine ⟨a2.run a2.s u, run_isState hw2.table u _ hw2.start ((isWord_congr hsig u).1 hu), ?_⟩
  intro w hw
  rw [acceptsFrom_run, acceptsFrom_run]
  exact hlang (u ++ w) (isWord_append hu hw)

theorem sameLanguage_of_reachable_right {a1 a2 : FSA} (hw1 : a1.WellFormed)
    (hsig : a1.sigma = a2.sigma)
    (hlang : ∀ w, a1.IsWord w → a1.accepts w = a2.accepts w) (hr2 : a2.AllReachable)
    {q : Int} (hq : a2.IsState q) : ∃ p, a1.IsState p ∧ SameLanguage a1 a2 p q := by
  obtain ⟨u, hu, rfl⟩ := hr2 q hq
  have hu1 := (isWord_congr hsig u).2 hu
  refine ⟨a1.run a1.s u, run_isState hw1.table u _ hw1.start hu1, ?_⟩
  intro w hw
  rw [acceptsFrom_run, acceptsFrom_run]
  exact hlang (u ++ w) (isWord_append hu1 hw)

theorem sameLanguage_tr {a1 a2 : FSA} {p q : Int} (h : SameLanguage a1 a2 p q) {c : Nat}
    (hc : c < a1.sigma.length) : SameLanguage a1 a2 (a1.tr p c) (a2.tr q c) := by
  intro w hw
  rw [← acceptsFrom_cons, ← acceptsFrom_cons]
  apply h
  intro d hd
  rcases List.mem_cons.1 hd with rfl | hd
  · exact hc
  · exact hw d hd

theorem sameLanguage_acc {a1 a2 : FSA} {p q : Int} (h : SameLanguage a1 a2 p q) :
    a1.acc p = a2.acc q :=
  h [] (fun _ hc => absurd hc (List.not_mem_nil _))

theorem sameLanguage_equiv {a1 a2 : FSA} (hsig : a1.sigma = a2.sigma) {p p' q q' : Int}
    (h : SameLanguage a1 a2 p q) (h1 : a1.Equiv p' p) (h2 : a2.Equiv q q') :
    SameLanguage a1 a2 p' q' := by
  intro w hw
  rw [h1 w hw, h w hw, h2 w ((isWord_congr hsig w).1 hw)]

/-! ## Blocks and their smallest members -/

theorem block_unique {a : FSA} {P : Fam} (hP : IsPartition a P) {Y Z : IntSet} (hY : Y ∈ P)
    (hZ : Z ∈ P) {x : Int} (hxY : x ∈ Y) (hxZ : x ∈ Z) : Y = Z := by
  by_contra hne
  exact disjoint_of_mem hP.disjoint hY hZ hne hxY hxZ

theorem head_equiv {a : FSA} {P : Fam} (hR : Refining a (fun _ _ _ => False) P [])
    {B : IntSet} (hB : B ∈ P) {x : Int} (hx : x ∈ B) : a.Equiv x (B.headD 0) :=
  (sameBlock_iff_equiv a P hR (hR.part.states B hB x hx)
    (hR.part.states B hB _ (head_mem_block (hR.part.nonempty B hB)))).1
    ⟨B, hB, hx, head_mem_block (hR.part.nonempty B hB)⟩

theorem head_isLeast {a : FSA} {P : Fam} (hR : Refining a (fun _ _ _ => False) P [])
    (hsb : ∀ Y ∈ P, Y.Pairwise (· < ·)) {B : IntSet} (hB : B ∈ P) :
    a.IsLeast (B.headD 0) := by
  have hh := head_mem_block (hR.part.nonempty B hB)
  have hs := hR.part.states B hB _ hh
  refine ⟨hs, fun q hq he => ?_⟩
  obtain ⟨Y, hY, hqY, hhY⟩ := (sameBlock_iff_equiv a P hR hq hs).2 he
  have e := block_unique hR.part hY hB hhY hh
  subst e
  exact head_le_of_sorted (hsb Y hB) q hqY

/-- A relation between the indices below `k1` and the indices below `k2` that is total on
both sides and preserves the order relates every index to itself, and `k1 = k2`. -/
theorem index_match (k1 k2 : Nat) (R : Nat → Nat → Prop)
    (hdom : ∀ i j, R i j → i < k1 ∧ j < k2)
    (hl : ∀ i, i < k1 → ∃ j, R i j) (hr : ∀ j, j < k2 → ∃ i, R i j)
    (hord : ∀ i j i' j', R i j → R i' j' → (i < i' ↔ j < j')) :
    k1 = k2 ∧ ∀ i j, R i j → i = j := by
  have main : ∀ n i j, R i j → (i = n ∨ j = n) → i = j := by
    intro n
    induction n using Nat.strong_induction_on with
    | _ n ih =>
      intro i j hij h
      rcases h with rfl | rfl
      · rcases Nat.lt_trichotomy j i with hlt | heq | hgt
        · exact ih j hlt i j hij (Or.inr rfl)
        · exact heq.symm
        · exfalso
          obtain ⟨i', hi'⟩ := hr i (by have := (hdom i j hij).2; omega)
          have h1 : i' < i := (hord i' i i j hi' hij).2 hgt
          have h2 := ih i' h1 i' i hi' (Or.inl rfl)
          omega
      · rcases Nat.lt_trichotomy i j with hlt | heq | hgt
        · exact ih i hlt i j hij (Or.inl rfl)
        · exact heq
        · exfalso
          obtain ⟨j', hj'⟩ := hl j (by have := (hdom i j hij).1; omega)
          have h1 : j' < j := (hord j j' i j hj' hij).1 hgt
          have h2 := ih j' h1 j j' hj' (Or.inr rfl)
          omega
  refine ⟨?_, fun i j hij => main i i j hij (Or.inl rfl)⟩
  rcases Nat.lt_trichotomy k1 k2 with hlt | heq | hgt
  · exfalso
    obtain ⟨i, hi⟩ := hr k1 hlt
    have := main k1 i k1 hi (Or.inr rfl)
    have := (hdom i k1 hi).1
    omega
  · exact heq
  · exfalso
    obtain ⟨j, hj⟩ := hl k2 hgt
    have := main k2 k2 j hj (Or.inl rfl)
    have := (hdom k2 j hj).2
    omega


/-! ## Two minimised automata with the same language -/

theorem index_of_getElem? {P : Fam} {i : Nat} {B : IntSet} (h : P[i]? = some B) :
    i < P.length := by
  by_contra hn
  rw [List.getElem?_eq_none (by omega)] at h
  exact absurd h (by simp)

theorem index_lt_iff_head_lt {a : FSA} {P : Fam} (hP : IsPartition a P)
    (hs : P.Pairwise (fun A B => setLt A B = true)) {i j : Nat} {Bi Bj : IntSet}
    (hi : P[i]? = some Bi) (hj : P[j]? = some Bj) :
    i < j ↔ Bi.headD 0 < Bj.headD 0 := by
  constructor
  · exact head_lt_of_index hP hs hi hj
  · intro h
    rcases Nat.lt_trichotomy i j with hlt | heq | hgt
    · exact hlt
    · exfalso
      subst heq
      rw [hi] at hj
      simp only [Option.some.injEq] at hj
      subst hj
      exact lt_irrefl _ h
    · exfalso
      have := head_lt_of_index hP hs hj hi hgt
      omega

theorem blocks_match {a1 a2 : FSA} {P1 P2 : Fam} (hw1 : a1.WellFormed) (hw2 : a2.WellFormed)
    (hsig : a1.sigma = a2.sigma)
    (hlang : ∀ w, a1.IsWord w → a1.accepts w = a2.accepts w)
    (hr1 : a1.AllReachable) (hr2 : a2.AllReachable) (hord : SameOrder a1 a2)
    (hR1 : Refining a1 (fun _ _ _ => False) P1 [])
    (hR2 : Refining a2 (fun _ _ _ => False) P2 [])
    (hb1 : ∀ Y ∈ P1, Y.Pairwise (· < ·)) (hs1 : P1.Pairwise (fun A B => setLt A B = true))
    (hb2 : ∀ Y ∈ P2, Y.Pairwise (· < ·)) (hs2 : P2.Pairwise (fun A B => setLt A B = true)) :
    P1.length = P2.length ∧
      ∀ (i j : Nat) (B C : IntSet), P1[i]? = some B → P2[j]? = some C →
        SameLanguage a1 a2 (B.headD 0) (C.headD 0) → i = j := by
  have key := index_match P1.length P2.length
    (fun i j => ∃ B C, P1[i]? = some B ∧ P2[j]? = some C ∧
      SameLanguage a1 a2 (B.headD 0) (C.headD 0))
    (by
      rintro i j ⟨B, C, hi, hj, _⟩
      exact ⟨index_of_getElem? hi, index_of_getElem? hj⟩)
    (by
      intro i hi
      have hB : P1[i]? = some P1[i] := List.getElem?_eq_getElem hi
      have hBm := List.getElem?_mem hB
      have hh := hR1.part.states _ hBm _ (head_mem_block (hR1.part.nonempty _ hBm))
      obtain ⟨q, hq, hpq⟩ := sameLanguage_of_reachable hw2 hsig hlang hr1 hh
      obtain ⟨j, C, hj, hqC, _⟩ := stateMap_of_state hR2.part hq
      exact ⟨j, P1[i], C, hB, hj, sameLanguage_equiv hsig hpq (equiv_refl _ _)
        (head_equiv hR2 (List.getElem?_mem hj) hqC)⟩)
    (by
      intro j hj
      have hC : P2[j]? = some P2[j] := List.getElem?_eq_getElem hj
      have hCm := List.getElem?_mem hC
      have hh := hR2.part.states _ hCm _ (head_mem_block (hR2.part.nonempty _ hCm))
      obtain ⟨p, hp, hpq⟩ := sameLanguage_of_reachable_right hw1 hsig hlang hr2 hh
      obtain ⟨i, B, hi, hpB, _⟩ := stateMap_of_state hR1.part hp
      exact ⟨i, B, P2[j], hi, hC, sameLanguage_equiv hsig hpq
        (equiv_symm (head_equiv hR1 (List.getElem?_mem hi) hpB)) (equiv_refl _ _)⟩)
    (by
      rintro i j i' j' ⟨B, C, hi, hj, h⟩ ⟨B', C', hi', hj', h'⟩
      rw [index_lt_iff_head_lt hR1.part hs1 hi hi', index_lt_iff_head_lt hR2.part hs2 hj hj']
      exact hord _ _ _ _ (head_isLeast hR1 hb1 (List.getElem?_mem hi))
        (head_isLeast hR1 hb1 (List.getElem?_mem hi'))
        (head_isLeast hR2 hb2 (List.getElem?_mem hj))
        (head_isLeast hR2 hb2 (List.getElem?_mem hj')) h h')
  exact ⟨key.1, fun i j B C hi hj h => key.2 i j ⟨B, C, hi, hj, h⟩⟩

theorem stateMap_match {a1 a2 : FSA} {P1 P2 : Fam} (hsig : a1.sigma = a2.sigma)
    (hR1 : Refining a1 (fun _ _ _ => False) P1 [])
    (hR2 : Refining a2 (fun _ _ _ => False) P2 [])
    (hm : ∀ (i j : Nat) (B C : IntSet), P1[i]? = some B → P2[j]? = some C →
      SameLanguage a1 a2 (B.headD 0) (C.headD 0) → i = j)
    {x y : Int} (hx : a1.IsState x) (hy : a2.IsState y) (h : SameLanguage a1 a2 x y) :
    stateMap P1 x = stateMap P2 y := by
  obtain ⟨i, B, hi, hxB, e1⟩ := stateMap_of_state hR1.part hx
  obtain ⟨j, C, hj, hyC, e2⟩ := stateMap_of_state hR2.part hy
  have := hm i j B C hi hj (sameLanguage_equiv hsig h
    (equiv_symm (head_equiv hR1 (List.getElem?_mem hi) hxB))
    (head_equiv hR2 (List.getElem?_mem hj) hyC))
  rw [e1, e2, this]

/-- Two well-formed automata over one alphabet with the same language, all states reachable
and the classes met in the same order have the same minimised automaton. -/
theorem minimize_eq_of_sameLanguage (a1 a2 : FSA) (hw1 : a1.WellFormed)
    (hw2 : a2.WellFormed) (hsig : a1.sigma = a2.sigma)
    (hlang : ∀ w, a1.IsWord w → a1.accepts w = a2.accepts w)
    (hr1 : a1.AllReachable) (hr2 : a2.AllReachable) (hord : SameOrder a1 a2) :
    ∃ m, minimize a1 = .ok m ∧ minimize a2 = .ok m := by
  obtain ⟨P1, m1, _, hm1, hR1, hq1, hQ1, hb1, hs1⟩ := minimize_full a1 hw1
  obtain ⟨P2, m2, _, hm2, hR2, hq2, hQ2, hb2, hs2⟩ := minimize_full a2 hw2
  obtain ⟨hlen, hmatch⟩ := blocks_match hw1 hw2 hsig hlang hr1 hr2 hord hR1 hR2 hb1 hs1 hb2 hs2
  have hsm : ∀ {x y : Int}, a1.IsState x → a2.IsState y → SameLanguage a1 a2 x y →
      stateMap P1 x = stateMap P2 y := fun hx hy h => stateMap_match hsig hR1 hR2 hmatch hx hy h
  have hheads : ∀ (n : Nat) (h1 : n < P1.length) (h2 : n < P2.length),
      a1.IsState (P1[n].headD 0) ∧ a2.IsState (P2[n].headD 0) ∧
        SameLanguage a1 a2 (P1[n].headD 0) (P2[n].headD 0) := by
    intro n h1 h2
    have hB : P1[n]? = some P1[n] := List.getElem?_eq_getElem h1
    have hBm := List.getElem?_mem hB
    have hC : P2[n]? = some P2[n] := List.getElem?_eq_getElem h2
    have hCm := List.getElem?_mem hC
    have hh1 := hR1.part.states _ hBm _ (head_mem_block (hR1.part.nonempty _ hBm))
    have hh2 := hR2.part.states _ hCm _ (head_mem_block (hR2.part.nonempty _ hCm))
    refine ⟨hh1, hh2, ?_⟩
    obtain ⟨q, hq, hpq⟩ := sameLanguage_of_reachable hw2 hsig hlang hr1 hh1
    obtain ⟨j, C, hj, hqC, _⟩ := stateMap_of_state hR2.part hq
    have hl := sameLanguage_equiv hsig hpq (equiv_refl _ _)
      (head_equiv hR2 (List.getElem?_mem hj) hqC)
    have e := hmatch n j _ C hB hj hl
    subst e
    rw [hC] at hj
    simp only [Option.some.injEq] at hj
    rw [hj]
    exact hl
  have hδ : m1.δ = m2.δ := by
    rw [hq1.δ, hq2.δ]
    apply List.ext_getElem
    · simp only [List.length_map]
      exact hlen
    · intro n h1 h2
      simp only [List.length_map] at h1 h2
      simp only [List.getElem_map]
      obtain ⟨hh1, hh2, hl⟩ := hheads n h1 h2
      have e : a2.sigma.length = a1.sigma.length := by rw [hsig]
      refine Eq.trans (List.map_congr_left ?_) (congrArg _ (congrArg List.range e.symm))
      intro c hc
      have hc' := List.mem_range.1 hc
      exact hsm (tr_isState hw1.table hh1 hc') (tr_isState hw2.table hh2 (by rw [← hsig]; exact hc'))
        (sameLanguage_tr hl hc')
  have hF : m1.F = m2.F := by
    rw [hq1.F, hq2.F]
    apply List.ext_getElem
    · simp only [List.length_map]
      exact hlen
    · intro n h1 h2
      simp only [List.length_map] at h1 h2
      simp only [List.getElem_map]
      exact sameLanguage_acc (hheads n h1 h2).2.2
  have hs : m1.s = m2.s := by
    rw [hq1.s, hq2.s]
    exact hsm hw1.start hw2.start (fun w hw => hlang w hw)
  have hQ : m1.Q = m2.Q := by rw [hQ1, hQ2, hlen]
  have hsg : m1.sigma = m2.sigma := by rw [hq1.sigma, hq2.sigma, hsig]
  have e : m1 = m2 := by
    cases m1
    cases m2
    simp only at hδ hF hs hQ hsg
    simp only [FSA.mk.injEq]
    exact ⟨hsg, hQ, hδ, hF, hs⟩
  exact ⟨m1, hm1, by rw [e]; exact hm2⟩


/-! ## The samples `sample4` and `sample3` have the same language -/

theorem sample4_tr (q : Int) (h0 : 0 ≤ q) (h4 : q < 4) (c : Nat) (hc : c < 2) :
    sample3.tr (if q = 3 then 2 else q) c =
      (if sample4.tr q c = 3 then 2 else sample4.tr q c) ∧
    0 ≤ sample4.tr q c ∧ sample4.tr q c < 4 := by
  interval_cases q <;> interval_cases c <;> decide

theorem sample4_run :
    ∀ (w : List Nat) (q : Int), 0 ≤ q → q < 4 → sample4.IsWord w →
      sample3.acceptsFrom (if q = 3 then 2 else q) w = sample4.acceptsFrom q w
  | [], q, h0, h4, _ => by
    interval_cases q <;> decide
  | c :: w, q, h0, h4, hw => by
    have hc : c < 2 := hw c (List.mem_cons_self _ _)
    obtain ⟨e1, e2, e3⟩ := sample4_tr q h0 h4 c hc
    have := sample4_run w (sample4.tr q c) e2 e3 (fun d hd => hw d (List.mem_cons_of_mem _ hd))
    rw [acceptsFrom_cons, acceptsFrom_cons, e1]
    exact this

theorem sample4_language (w : List Nat) (hw : sample4.IsWord w) :
    sample4.accepts w = sample3.accepts w :=
  (sample4_run w 0 (by decide) (by decide) hw).symm

theorem sample4_reachable : sample4.AllReachable := by
  intro p hp
  obtain ⟨h0, h4⟩ := hp
  have e : ((sample4.δ.length : Nat) : Int) = 4 := by decide
  rw [e] at h4
  interval_cases p
  · exact ⟨[], by unfold FSA.IsWord; decide, by decide⟩
  · exact ⟨[0], by unfold FSA.IsWord; decide, by decide⟩
  · exact ⟨[1], by unfold FSA.IsWord; decide, by decide⟩
  · exact ⟨[0, 1], by unfold FSA.IsWord; decide, by decide⟩

theorem sample3_reachable : sample3.AllReachable := by
  intro p hp
  obtain ⟨h0, h3⟩ := hp
  have e : ((sample3.δ.length : Nat) : Int) = 3 := by decide
  rw [e] at h3
  interval_cases p
  · exact ⟨[], by unfold FSA.IsWord; decide, by decide⟩
  · exact ⟨[0], by unfold FSA.IsWord; decide, by decide⟩
  · exact ⟨[1], by unfold FSA.IsWord; decide, by decide⟩

theorem sample4_pairs (p q : Int) (hp : sample4.IsLeast p) (hq : sample3.IsState q)
    (h : SameLanguage sample4 sample3 p q) : p = q := by
  obtain ⟨⟨p0, p4⟩, hleast⟩ := hp
  obtain ⟨q0, q3⟩ := hq
  have e4 : ((sample4.δ.length : Nat) : Int) = 4 := by decide
  have e3 : ((sample3.δ.length : Nat) : Int) = 3 := by decide
  rw [e4] at p4
  rw [e3] at q3
  have h1 := h [] (by unfold FSA.IsWord; decide)
  have h2 := h [0] (by unfold FSA.IsWord; decide)
  have h23 : sample4.Equiv 2 3 := by
    intro w hw
    rw [← sample4_run w 2 (by decide) (by decide) hw,
      ← sample4_run w 3 (by decide) (by decide) hw]
    rfl
  have h3 := hleast 2 (by unfold FSA.IsState; decide)
  interval_cases p <;> interval_cases q <;>
    first
      | rfl
      | exact absurd h1 (by decide)
      | exact absurd h2 (by decide)
      | exact absurd (h3 h23) (by decide)

theorem sample4_order : SameOrder sample4 sample3 := by
  intro p p' q q' hp hp' hq hq' h h'
  have e1 := sample4_pairs p q hp hq.1 h
  have e2 := sample4_pairs p' q' hp' hq'.1 h'
  rw [e1, e2]

/-! ## The claim about language equivalence and `fsa_equal` -/

/-- C6 (amended): two well-formed completed automata over the same alphabet that accept
the same language, with an accepting and a non-accepting state, with every state reachable
from the start state and with the classes of equivalent states met in the same order, have
the same minimised automaton, and `fsa_equal` returns true on it. -/
theorem fsa_equal_same_language (a1 a2 : FSA) (hw1 : a1.WellFormed) (hw2 : a2.WellFormed)
    (hsig : a1.sigma = a2.sigma)
    (hlang : ∀ w, a1.IsWord w → a1.accepts w = a2.accepts w)
    (hacc : ∃ p, a1.IsState p ∧ a1.acc p = true)
    (hrej : ∃ q, a1.IsState q ∧ a1.acc q = false)
    (hr1 : a1.AllReachable) (hr2 : a2.AllReachable) (hord : SameOrder a1 a2) :
    ∃ m1 m2, minimize7 a1 = .ok m1 ∧ minimize7 a2 = .ok m2 ∧ m1 = m2 ∧
      fsa_equal m1 m2 = true := by
  obtain ⟨m, h1, h2⟩ := minimize_eq_of_sameLanguage a1 a2 hw1 hw2 hsig hlang hr1 hr2 hord
  obtain ⟨p, hp, hpa⟩ := hacc
  obtain ⟨q, hq, hqa⟩ := hrej
  obtain ⟨p2, hp2, hl1⟩ := sameLanguage_of_reachable hw2 hsig hlang hr1 hp
  obtain ⟨q2, hq2, hl2⟩ := sameLanguage_of_reachable hw2 hsig hlang hr1 hq
  have hpa2 : a2.acc p2 = true := by rw [← sameLanguage_acc hl1]; exact hpa
  have hqa2 : a2.acc q2 = false := by rw [← sameLanguage_acc hl2]; exact hqa
  refine ⟨m, m, ?_, ?_, rfl, fsa_equal_of_table m m rfl rfl⟩
  · rw [minimize7_of_both hp hpa hq hqa, h1]
  · rw [minimize7_of_both hp2 hpa2 hq2 hqa2, h2]

theorem fsa_equal_same_language_witness :
    sample4.WellFormed ∧ sample3.WellFormed ∧ sample4.sigma = sample3.sigma ∧
    (∀ w, sample4.IsWord w → sample4.accepts w = sample3.accepts w) ∧
    (∃ p, sample4.IsState p ∧ sample4.acc p = true) ∧
    (∃ q, sample4.IsState q ∧ sample4.acc q = false) ∧
    sample4.AllReachable ∧ sample3.AllReachable ∧ SameOrder sample4 sample3 ∧
    ∃ m1 m2, minimize7 sample4 = .ok m1 ∧ minimize7 sample3 = .ok m2 ∧ m1 = m2 ∧
      fsa_equal m1 m2 = true :=
  ⟨sample4_wellFormed, sample3_wellFormed, by decide, sample4_language,
    ⟨1, by unfold FSA.IsState; decide, by decide⟩,
    ⟨0, by unfold FSA.IsState; decide, by decide⟩,
    sample4_reachable, sample3_reachable, sample4_order,
    fsa_equal_same_language sample4 sample3 sample4_wellFormed sample3_wellFormed (by decide)
      sample4_language ⟨1, by unfold FSA.IsState; decide, by decide⟩
      ⟨0, by unfold FSA.IsState; decide, by decide⟩
      sample4_reachable sample3_reachable sample4_order⟩

/-! ## A state that is not reachable is kept by `minimize` -/

theorem sample3extra_tr (q : Int) (h0 : 0 ≤ q) (h3 : q < 3) (c : Nat) (hc : c < 2) :
    sample3extra.tr q c = sample3.tr q c ∧ 0 ≤ sample3.tr q c ∧ sample3.tr q c < 3 := by
  interval_cases q <;> interval_cases c <;> decide

theorem sample3extra_run :
    ∀ (w : List Nat) (q : Int), 0 ≤ q → q < 3 → sample3.IsWord w →
      sample3extra.acceptsFrom q w = sample3.acceptsFrom q w
  | [], q, h0, h3, _ => by
    interval_cases q <;> decide
  | c :: w, q, h0, h3, hw => by
    have hc : c < 2 := hw c (List.mem_cons_self _ _)
    obtain ⟨e1, e2, e3⟩ := sample3extra_tr q h0 h3 c hc
    have := sample3extra_run w (sample3.tr q c) e2 e3
      (fun d hd => hw d (List.mem_cons_of_mem _ hd))
    rw [acceptsFrom_cons, acceptsFrom_cons, e1]
    exact this

/-- The automata `sample3` and `sample3extra` are well formed, have the same alphabet and
accept the same words; state 3 of `sample3extra` is not reachable, `minimize` keeps it, and
`fsa_equal` of the minimised automata is `false`. -/
theorem unreachable_state_is_kept :
    sample3.WellFormed ∧ sample3extra.WellFormed ∧ sample3.sigma = sample3extra.sigma ∧
    (∀ w, sample3.IsWord w → sample3.accepts w = sample3extra.accepts w) ∧
    (∀ w, sample3extra.IsWord w → sample3extra.run sample3extra.s w ≠ 3) ∧
    ∃ m1 m2, minimize7 sample3 = .ok m1 ∧ minimize7 sample3extra = .ok m2 ∧
      m1.δ.length = 3 ∧ m2.δ.length = 4 ∧ fsa_equal m1 m2 = false := by
  refine ⟨sample3_wellFormed,
    ⟨⟨by decide, by decide, by decide, by decide⟩, by unfold FSA.IsState; decide⟩,
    by decide, ?_, ?_, ?_⟩
  · intro w hw
    exact (sample3extra_run w 0 (by decide) (by decide) hw).symm
  · have key : ∀ (w : List Nat) (q : Int), 0 ≤ q → q < 3 → sample3extra.IsWord w →
        0 ≤ sample3extra.run q w ∧ sample3extra.run q w < 3 := by
      intro w
      induction w with
      | nil => intro q h0 h3 _; exact ⟨h0, h3⟩
      | cons c w ih =>
        intro q h0 h3 hw
        have hc : c < 2 := hw c (List.mem_cons_self _ _)
        obtain ⟨e1, e2, e3⟩ := sample3extra_tr q h0 h3 c hc
        have := ih (sample3extra.tr q c) (by rw [e1]; exact e2) (by rw [e1]; exact e3)
          (fun d hd => hw d (List.mem_cons_of_mem _ hd))
        exact this
    intro w hw h
    have := (key w 0 (by decide) (by decide) hw).2
    rw [show sample3extra.s = 0 from rfl] at h
    omega
  · refine ⟨{ sigma := [("a", 0), ("b", 1)], Q := [("0", 0), ("1", 1), ("2", 2)],
              δ := [[1, 2], [2, 2], [2, 2]], F := [false, true, false], s := 0 },
            { sigma := [("a", 0), ("b", 1)], Q := [("0", 0), ("1", 1), ("2", 2), ("3", 3)],
              δ := [[1, 2], [2, 2], [2, 2], [3, 3]], F := [false, true, false, true],
              s := 0 },
            by decide, by decide, rfl, rfl, by decide⟩


/-! ## The loops with the queue update of the compiled program -/

theorem updateQueueStale_eq (W : Fam) (I D : IntSet) :
    updateQueueStale W I D = updateQueue W I I D := rfl

theorem mem_updateQueueStale_old {W : Fam} {I D S : IntSet} (hS : S ∈ W) :
    S ∈ updateQueueStale W I D := by
  rw [updateQueueStale_eq]
  by_cases hne : S = I
  · subst hne
    exact (mem_updateQueue_both S D hS).1
  · exact mem_updateQueue_old hS hne

theorem refineLoopStale_inv (X : IntSet) (Inv : Fam → Fam → Prop)
    (hstep : ∀ P W Y, Inv P W → findSplit X P = some Y →
      Inv (famInsert (setDifference Y X) (famInsert (setIntersection X Y) (famErase Y P)))
        (updateQueueStale W (setIntersection X Y) (setDifference Y X))) :
    ∀ (fuel : Nat) (P W : Fam) (r : Fam × Fam), Inv P W →
      refineLoopStale X fuel P W = some r → Inv r.1 r.2 ∧ findSplit X r.1 = none := by
  intro fuel
  induction fuel with
  | zero => intro P W r _ h; simp [refineLoopStale] at h
  | succ fuel ih =>
    intro P W r hInv h
    unfold refineLoopStale at h
    cases hf : findSplit X P with
    | none =>
      rw [hf] at h
      simp only [Option.some.injEq] at h
      subst h
      exact ⟨hInv, hf⟩
    | some Y =>
      rw [hf] at h
      exact ih _ _ r (hstep P W Y hInv hf) h

theorem refineLoopStale_reaches (a : FSA) (A : IntSet) (c : Nat) (fuel : Nat) (P W : Fam)
    (r : Fam × Fam) (h : ReachesStale a P W)
    (hr : refineLoopStale (preimage a A c) fuel P W = some r) : ReachesStale a r.1 r.2 :=
  (refineLoopStale_inv (preimage a A c) (ReachesStale a)
    (fun P W Y hInv hf => ReachesStale.split P W A c Y hInv hf) fuel P W r h hr).1

theorem letterLoopStale_reaches (a : FSA) (A : IntSet) (fuel : Nat) :
    ∀ (letters : List Nat) (P W : Fam) (r : Fam × Fam), ReachesStale a P W →
      letterLoopStale a A fuel letters P W = some r → ReachesStale a r.1 r.2
  | [], P, W, r, h, hr => by
    simp only [letterLoopStale, Option.some.injEq] at hr
    subst hr
    exact h
  | c :: cs, P, W, r, h, hr => by
    unfold letterLoopStale at hr
    cases hf : refineLoopStale (preimage a A c) fuel P W with
    | none => rw [hf] at hr; simp at hr
    | some PW =>
      rw [hf] at hr
      exact letterLoopStale_reaches a A fuel cs PW.1 PW.2 r
        (refineLoopStale_reaches a A c fuel P W PW h hf) hr

theorem whileLoopStale_reaches (a : FSA) (innerFuel : Nat) :
    ∀ (fuel : Nat) (P W R : Fam), ReachesStale a P W →
      whileLoopStale a innerFuel fuel P W = some R → ReachesStale a R [] := by
  intro fuel
  induction fuel with
  | zero =>
    intro P W R h hR
    cases W with
    | nil =>
      simp only [whileLoopStale, Option.some.injEq] at hR
      subst hR
      exact h
    | cons A W => simp [whileLoopStale] at hR
  | succ fuel ih =>
    intro P W R h hR
    cases W with
    | nil =>
      simp only [whileLoopStale, Option.some.injEq] at hR
      subst hR
      exact h
    | cons A W =>
      unfold whileLoopStale at hR
      cases hf : letterLoopStale a A innerFuel (List.range a.sigma.length) P W with
      | none => rw [hf] at hR; simp at hR
      | some PW =>
        rw [hf] at hR
        exact ih PW.1 PW.2 R
          (letterLoopStale_reaches a A innerFuel _ P W PW (ReachesStale.pop P A W h) hf) hR

theorem finalPartitionStale_reaches (a : FSA) (P : Fam) (h : finalPartitionStale a = some P) :
    ReachesStale a P [] :=
  whileLoopStale_reaches a _ _ _ _ P ReachesStale.start h

/-- The partitions are those of the reading by value: only the queue differs. -/
theorem reachesStale_partition (a : FSA) (P W : Fam) (h : ReachesStale a P W) :
    ∃ W0, Reaches a P W0 := by
  induction h with
  | start => exact ⟨_, Reaches.start⟩
  | pop P A W _ ih => exact ih
  | split P W A letter Y _ hf ih =>
    obtain ⟨W0, h0⟩ := ih
    exact ⟨_, Reaches.split P W0 A letter Y h0 hf⟩

/-- What holds of every pair `(P, W)` that the loops go through with the queue update of
the compiled program: `P` is a partition of the states into blocks with one accepting flag,
and every set of `W` is non-empty and a union of blocks of `P`. -/
theorem reachesStale_invariant (a : FSA) (P W : Fam) (h : ReachesStale a P W) :
    IsPartition a P ∧ (∀ Y ∈ P, ∀ p ∈ Y, ∀ q ∈ Y, a.acc p = a.acc q) ∧
      ∀ S ∈ W, S ≠ [] ∧ ∀ Y ∈ P, (∀ x ∈ Y, x ∈ S) ∨ (∀ x ∈ Y, x ∉ S) := by
  have hpart : ∀ P W, ReachesStale a P W →
      IsPartition a P ∧ (∀ Y ∈ P, ∀ p ∈ Y, ∀ q ∈ Y, a.acc p = a.acc q) := by
    intro P W h
    obtain ⟨W0, h0⟩ := reachesStale_partition a P W h
    exact ⟨(reaches_invariant a P W0 h0).1, (reaches_invariant a P W0 h0).2.1⟩
  refine ⟨(hpart P W h).1, (hpart P W h).2, ?_⟩
  induction h with
  | start =>
    intro S hS
    have hP := initialBlocks_partition a
    refine ⟨hP.nonempty S hS, fun Y hY => ?_⟩
    by_cases e : Y = S
    · subst e
      exact Or.inl fun x hx => hx
    · exact Or.inr fun x hx hxS => disjoint_of_mem hP.disjoint hY hS e hx hxS
  | pop P A W _ ih => exact fun S hS => ih S (List.mem_cons_of_mem _ hS)
  | split P W A letter Y hprev hf ih =>
    obtain ⟨hY, hI, hD⟩ := findSplit_some _ P Y hf
    have hP := (hpart P W hprev).1
    intro S hS
    have hsubI : ∀ x ∈ setIntersection (preimage a A letter) Y, x ∈ Y :=
      fun x hx => ((mem_setIntersection _ _ _).1 hx).2
    have hsubD : ∀ x ∈ setDifference Y (preimage a A letter), x ∈ Y :=
      fun x hx => ((mem_setDifference _ _ _).1 hx).1
    have hdisj : ∀ x, x ∈ setIntersection (preimage a A letter) Y →
        x ∉ setDifference Y (preimage a A letter) := by
      intro x hx1 hx2
      rw [mem_setIntersection] at hx1
      rw [mem_setDifference] at hx2
      exact hx2.2 hx1.1
    rw [updateQueueStale_eq] at hS
    rcases mem_updateQueue_cases hS with rfl | rfl | hSW
    · refine ⟨hI, fun Z hZ => ?_⟩
      rcases (mem_split P Y _ _ Z).1 hZ with rfl | rfl | hZ
      · exact Or.inr fun x hx hx2 => hdisj x hx2 hx
      · exact Or.inl fun x hx => hx
      · exact Or.inr fun x hx hx2 => disjoint_of_mem hP.disjoint hZ.1 hY hZ.2 hx (hsubI x hx2)
    · refine ⟨hD, fun Z hZ => ?_⟩
      rcases (mem_split P Y _ _ Z).1 hZ with rfl | rfl | hZ
      · exact Or.inl fun x hx => hx
      · exact Or.inr fun x hx hx2 => hdisj x hx hx2
      · exact Or.inr fun x hx hx2 => disjoint_of_mem hP.disjoint hZ.1 hY hZ.2 hx (hsubD x hx2)
    · obtain ⟨hne, hun⟩ := ih S hSW
      refine ⟨hne, fun Z hZ => ?_⟩
      rcases (mem_split P Y _ _ Z).1 hZ with rfl | rfl | hZ
      · rcases hun Y hY with h1 | h1
        · exact Or.inl fun x hx => h1 x (hsubD x hx)
        · exact Or.inr fun x hx => h1 x (hsubD x hx)
      · rcases hun Y hY with h1 | h1
        · exact Or.inl fun x hx => h1 x (hsubI x hx)
        · exact Or.inr fun x hx => h1 x (hsubI x hx)
      · exact hun Z hZ.1


/-! ## The loops of the compiled program return -/

theorem refineLoopStale_terminates (X : IntSet) (hX : X.Nodup) :
    ∀ (fuel : Nat) (P W : Fam), (∀ Z ∈ P, Z.Nodup) → potential P < fuel →
      ∃ r, refineLoopStale X fuel P W = some r ∧ (∀ Z ∈ r.1, Z.Nodup) ∧
        potential r.1 ≤ potential P ∧
        2 * potential r.1 + r.2.length ≤ 2 * potential P + W.length := by
  intro fuel
  induction fuel with
  | zero => intro P W _ h; omega
  | succ fuel ih =>
    intro P W hP hfuel
    unfold refineLoopStale
    cases hf : findSplit X P with
    | none => exact ⟨(P, W), rfl, hP, le_refl _, le_refl _⟩
    | some Y =>
      obtain ⟨hY, hI, hD⟩ := findSplit_some X P Y hf
      have hpot := potential_split X hX P Y hP hY hI hD
      have hnd := blocksNodup_split X hX P Y hP hY
      have hq := length_updateQueue_le W (setIntersection X Y) (setIntersection X Y)
        (setDifference Y X)
      rw [← updateQueueStale_eq] at hq
      obtain ⟨r, hr, hr1, hr2, hr3⟩ := ih _ (updateQueueStale W (setIntersection X Y)
        (setDifference Y X)) hnd (by omega)
      exact ⟨r, hr, hr1, by omega, by omega⟩

theorem letterLoopStale_terminates (a : FSA) (A : IntSet) (fuel : Nat) :
    ∀ (letters : List Nat) (P W : Fam), (∀ Z ∈ P, Z.Nodup) → potential P < fuel →
      ∃ r, letterLoopStale a A fuel letters P W = some r ∧ (∀ Z ∈ r.1, Z.Nodup) ∧
        potential r.1 ≤ potential P ∧
        2 * potential r.1 + r.2.length ≤ 2 * potential P + W.length := by
  intro letters
  induction letters with
  | nil => intro P W hP _; exact ⟨(P, W), rfl, hP, le_refl _, le_refl _⟩
  | cons c cs ih =>
    intro P W hP hfuel
    obtain ⟨r, hr, hr1, hr2, hr3⟩ :=
      refineLoopStale_terminates (preimage a A c) (preimage_nodup a A c) fuel P W hP hfuel
    obtain ⟨r2, hs, hs1, hs2, hs3⟩ := ih r.1 r.2 hr1 (by omega)
    refine ⟨r2, ?_, hs1, by omega, by omega⟩
    unfold letterLoopStale
    rw [hr]
    exact hs

theorem whileLoopStale_terminates (a : FSA) (innerFuel : Nat) :
    ∀ (fuel : Nat) (P W : Fam), (∀ Z ∈ P, Z.Nodup) → potential P < innerFuel →
      2 * potential P + W.length ≤ fuel →
      ∃ R, whileLoopStale a innerFuel fuel P W = some R := by
  intro fuel
  induction fuel with
  | zero =>
    intro P W _ _ h
    have hW : W = [] := List.length_eq_zero.1 (by omega)
    subst hW
    exact ⟨P, by simp [whileLoopStale]⟩
  | succ fuel ih =>
    intro P W hP hin hfuel
    cases W with
    | nil => exact ⟨P, by simp [whileLoopStale]⟩
    | cons A W =>
      obtain ⟨r, hr, hr1, hr2, hr3⟩ :=
        letterLoopStale_terminates a A innerFuel (List.range a.sigma.length) P W hP hin
      simp only [List.length_cons] at hfuel
      obtain ⟨R, hR⟩ := ih r.1 r.2 hr1 (by omega) (by omega)
      refine ⟨R, ?_⟩
      unfold whileLoopStale
      rw [hr]
      exact hR

theorem finalPartitionStale_some (a : FSA) : ∃ P, finalPartitionStale a = some P := by
  unfold finalPartitionStale
  have h1 := initialBlocks_potential a
  have h2 := initialBlocks_length a
  exact whileLoopStale_terminates a _ _ _ _ (initialBlocks_nodup a) (by omega) (by omega)

/-! ## The refinement invariant with the queue update of the compiled program -/

theorem split_keeps_pending_stale (P W : Fam) (Y I D : IntSet) (x y : Int)
    (hmem : ∀ z, z ∈ Y ↔ z ∈ I ∨ z ∈ D) (hdisj : ∀ z, z ∈ I → z ∉ D)
    (h : SameBlock P x y ∨ Separated W x y) :
    SameBlock (famInsert D (famInsert I (famErase Y P))) x y ∨
      Separated (updateQueueStale W I D) x y := by
  have hsep : ∀ u v : Int, u ∈ I → v ∈ D → Separated (updateQueueStale W I D) u v ∧
      Separated (updateQueueStale W I D) v u := by
    intro u v hu hv
    rw [updateQueueStale_eq]
    rcases mem_updateQueue_one W I I D with hq | hq
    · exact ⟨⟨I, hq, fun e => hdisj v (e.1 hu) hv⟩, ⟨I, hq, fun e => hdisj v (e.2 hu) hv⟩⟩
    · exact ⟨⟨D, hq, fun e => hdisj u hu (e.2 hv)⟩, ⟨D, hq, fun e => hdisj u hu (e.1 hv)⟩⟩
  rcases h with ⟨B, hB, hx, hy⟩ | ⟨S, hS, hxy⟩
  · by_cases hBY : B = Y
    · subst hBY
      rcases (hmem x).1 hx with hxI | hxD <;> rcases (hmem y).1 hy with hyI | hyD
      · exact Or.inl ⟨I, (mem_split P B I D I).2 (Or.inr (Or.inl rfl)), hxI, hyI⟩
      · exact Or.inr (hsep x y hxI hyD).1
      · exact Or.inr (hsep y x hyI hxD).2
      · exact Or.inl ⟨D, (mem_split P B I D D).2 (Or.inl rfl), hxD, hyD⟩
    · exact Or.inl ⟨B, (mem_split P Y I D B).2 (Or.inr (Or.inr ⟨hB, hBY⟩)), hx, hy⟩
  · exact Or.inr ⟨S, mem_updateQueueStale_old hS, hxy⟩

theorem refining_split_stale (a : FSA) (pend : Int → Int → Nat → Prop) (P W : Fam)
    (Y I D : IntSet) (h : Refining a pend P W) (hY : Y ∈ P) (hI : I ≠ []) (hD : D ≠ [])
    (hmem : ∀ z, z ∈ Y ↔ z ∈ I ∨ z ∈ D) (hdisj : ∀ z, z ∈ I → z ∉ D)
    (hIn : I.Nodup) (hDn : D.Nodup) (hIs : Saturated a I) (hDs : Saturated a D) :
    Refining a pend (famInsert D (famInsert I (famErase Y P))) (updateQueueStale W I D) := by
  have hsub : ∀ Z ∈ famInsert D (famInsert I (famErase Y P)),
      ∃ Z0 ∈ P, ∀ z ∈ Z, z ∈ Z0 := by
    intro Z hZ
    rcases (mem_split P Y I D Z).1 hZ with rfl | rfl | hZ
    · exact ⟨Y, hY, fun z hz => (hmem z).2 (Or.inr hz)⟩
    · exact ⟨Y, hY, fun z hz => (hmem z).2 (Or.inl hz)⟩
    · exact ⟨Z, hZ.1, fun z hz => hz⟩
  refine ⟨partition_split a P Y I D h.part hY hI hD hmem hdisj hIn hDn, ?_, ?_, ?_, ?_⟩
  · intro Z hZ p hp q hq
    obtain ⟨Z0, hZ0, hs⟩ := hsub Z hZ
    exact h.hom Z0 hZ0 p (hs p hp) q (hs q hq)
  · intro Z hZ p hp q hq c hc
    obtain ⟨Z0, hZ0, hs⟩ := hsub Z hZ
    rcases h.pending Z0 hZ0 p (hs p hp) q (hs q hq) c hc with h1 | h1 | h1
    · rcases split_keeps_pending_stale P W Y I D _ _ hmem hdisj (Or.inl h1) with h2 | h2
      · exact Or.inl h2
      · exact Or.inr (Or.inl h2)
    · rcases split_keeps_pending_stale P W Y I D _ _ hmem hdisj (Or.inr h1) with h2 | h2
      · exact Or.inl h2
      · exact Or.inr (Or.inl h2)
    · exact Or.inr (Or.inr h1)
  · intro Z hZ
    rcases (mem_split P Y I D Z).1 hZ with rfl | rfl | hZ
    · exact hDs
    · exact hIs
    · exact h.satP Z hZ.1
  · intro S hS
    rw [updateQueueStale_eq] at hS
    rcases mem_updateQueue_cases hS with rfl | rfl | hS
    · exact hIs
    · exact hDs
    · exact h.satW S hS

theorem refineLoopStale_refining (a : FSA) (ht : a.TableOk) (pend : Int → Int → Nat → Prop)
    (A : IntSet) (hA : Saturated a A) (c : Nat) (hc : c < a.sigma.length)
    (fuel : Nat) (P W : Fam) (r : Fam × Fam) (h : Refining a pend P W)
    (hr : refineLoopStale (preimage a A c) fuel P W = some r) :
    Refining a pend r.1 r.2 ∧
      ∀ Y ∈ r.1, ∀ p ∈ Y, ∀ q ∈ Y, (a.tr p c ∈ A ↔ a.tr q c ∈ A) := by
  have hX := preimage_nodup a A c
  have hXs := saturated_preimage hA ht hc
  obtain ⟨h1, h2⟩ := refineLoopStale_inv (preimage a A c) (Refining a pend) (by
    intro P W Y hInv hf
    obtain ⟨hY, hI, hD⟩ := findSplit_some _ P Y hf
    refine refining_split_stale a pend P W Y _ _ hInv hY hI hD ?_ ?_ (hX.filter _)
      ((hInv.part.nodup Y hY).filter _) (saturated_inter hXs (hInv.satP Y hY))
      (saturated_diff hXs (hInv.satP Y hY))
    · intro z
      rw [mem_setIntersection, mem_setDifference]
      tauto
    · intro z hz1 hz2
      rw [mem_setIntersection] at hz1
      rw [mem_setDifference] at hz2
      exact hz2.2 hz1.1) fuel P W r h hr
  refine ⟨h1, ?_⟩
  intro Y hY p hp q hq
  have hps := h1.part.states Y hY p hp
  have hqs := h1.part.states Y hY q hq
  rw [← mem_preimage_state a A c hps, ← mem_preimage_state a A c hqs]
  rcases findSplit_none _ _ h2 Y hY with he | he
  · have e1 : p ∉ preimage a A c := fun hm => by
      have : p ∈ setIntersection (preimage a A c) Y := (mem_setIntersection _ _ _).2 ⟨hm, hp⟩
      rw [he] at this
      exact List.not_mem_nil _ this
    have e2 : q ∉ preimage a A c := fun hm => by
      have : q ∈ setIntersection (preimage a A c) Y := (mem_setIntersection _ _ _).2 ⟨hm, hq⟩
      rw [he] at this
      exact List.not_mem_nil _ this
    exact ⟨fun e => absurd e e1, fun e => absurd e e2⟩
  · have e1 : p ∈ preimage a A c := by
      by_contra hm
      have : p ∈ setDifference Y (preimage a A c) := (mem_setDifference _ _ _).2 ⟨hp, hm⟩
      rw [he] at this
      exact List.not_mem_nil _ this
    have e2 : q ∈ preimage a A c := by
      by_contra hm
      have : q ∈ setDifference Y (preimage a A c) := (mem_setDifference _ _ _).2 ⟨hq, hm⟩
      rw [he] at this
      exact List.not_mem_nil _ this
    exact ⟨fun _ => e2, fun _ => e1⟩

theorem letterLoopStale_refining (a : FSA) (ht : a.TableOk) (A : IntSet)
    (hA : Saturated a A) (fuel : Nat) :
    ∀ (letters : List Nat) (P W : Fam) (r : Fam × Fam), (∀ c ∈ letters, c < a.sigma.length) →
      Refining a (fun x y c => c ∈ letters ∧ ¬(x ∈ A ↔ y ∈ A)) P W →
      letterLoopStale a A fuel letters P W = some r →
      Refining a (fun _ _ _ => False) r.1 r.2 := by
  intro letters
  induction letters with
  | nil =>
    intro P W r _ h hr
    simp only [letterLoopStale, Option.some.injEq] at hr
    subst hr
    refine ⟨h.part, h.hom, ?_, h.satP, h.satW⟩
    intro Y hY p hp q hq c hc
    rcases h.pending Y hY p hp q hq c hc with h1 | h1 | h1
    · exact Or.inl h1
    · exact Or.inr (Or.inl h1)
    · exact absurd h1.1 (List.not_mem_nil _)
  | cons c cs ih =>
    intro P W r hcs h hr
    unfold letterLoopStale at hr
    cases hf : refineLoopStale (preimage a A c) fuel P W with
    | none => rw [hf] at hr; simp at hr
    | some PW =>
      rw [hf] at hr
      obtain ⟨h1, h2⟩ := refineLoopStale_refining a ht _ A hA c
        (hcs c (List.mem_cons_self _ _)) fuel P W PW h hf
      refine ih PW.1 PW.2 r (fun d hd => hcs d (List.mem_cons_of_mem _ hd)) ?_ hr
      refine ⟨h1.part, h1.hom, ?_, h1.satP, h1.satW⟩
      intro Y hY p hp q hq d hd
      rcases h1.pending Y hY p hp q hq d hd with h3 | h3 | h3
      · exact Or.inl h3
      · exact Or.inr (Or.inl h3)
      · rcases List.mem_cons.1 h3.1 with rfl | hmem
        · exact absurd (h2 Y hY p hp q hq) h3.2
        · exact Or.inr (Or.inr ⟨hmem, h3.2⟩)

theorem whileLoopStale_refining (a : FSA) (ht : a.TableOk) (innerFuel : Nat) :
    ∀ (fuel : Nat) (P W R : Fam), Refining a (fun _ _ _ => False) P W →
      whileLoopStale a innerFuel fuel P W = some R →
      Refining a (fun _ _ _ => False) R [] := by
  intro fuel
  induction fuel with
  | zero =>
    intro P W R h hR
    cases W with
    | nil =>
      simp only [whileLoopStale, Option.some.injEq] at hR
      subst hR
      exact h
    | cons A W => simp [whileLoopStale] at hR
  | succ fuel ih =>
    intro P W R h hR
    cases W with
    | nil =>
      simp only [whileLoopStale, Option.some.injEq] at hR
      subst hR
      exact h
    | cons A W =>
      unfold whileLoopStale at hR
      cases hf : letterLoopStale a A innerFuel (List.range a.sigma.length) P W with
      | none => rw [hf] at hR; simp at hR
      | some PW =>
        rw [hf] at hR
        refine ih PW.1 PW.2 R ?_ hR
        refine letterLoopStale_refining a ht A (h.satW A (List.mem_cons_self _ _)) innerFuel
          (List.range a.sigma.length) P W PW (fun c hc => List.mem_range.1 hc) ?_ hf
        refine ⟨h.part, h.hom, ?_, h.satP, fun S hS => h.satW S (List.mem_cons_of_mem _ hS)⟩
        intro Y hY p hp q hq c hc
        rcases h.pending Y hY p hp q hq c hc with h1 | ⟨S, hS, hsep⟩ | h1
        · exact Or.inl h1
        · rcases List.mem_cons.1 hS with rfl | hS
          · exact Or.inr (Or.inr ⟨List.mem_range.2 hc, hsep⟩)
          · exact Or.inr (Or.inl ⟨S, hS, hsep⟩)
        · exact absurd h1 id

theorem finalPartitionStale_refining (a : FSA) (ht : a.TableOk) (P : Fam)
    (h : finalPartitionStale a = some P) : Refining a (fun _ _ _ => False) P [] :=
  whileLoopStale_refining a ht _ _ _ _ P (initial_refining a ht) h


/-! ## The final partition does not depend on the reading of `Y` -/

theorem setLt_irrefl : ∀ S : IntSet, setLt S S = false
  | [] => rfl
  | x :: xs => by
    rw [setLt_cons, if_neg (lt_irrefl x), if_neg (lt_irrefl x)]
    exact setLt_irrefl xs

theorem sorted_ext {S T : IntSet} (hS : S.Pairwise (· < ·)) (hT : T.Pairwise (· < ·))
    (h : ∀ x, x ∈ S ↔ x ∈ T) : S = T :=
  List.eq_of_perm_of_sorted
    ((List.perm_ext_iff_of_nodup (sorted_nodup hS) (sorted_nodup hT)).2 h) hS hT

theorem fam_ext {P Q : Fam} (hP : P.Pairwise (fun A B => setLt A B = true))
    (hQ : Q.Pairwise (fun A B => setLt A B = true)) (h : ∀ Y, Y ∈ P ↔ Y ∈ Q) : P = Q := by
  have hne : ∀ A B : IntSet, setLt A B = true → A ≠ B := by
    intro A B hlt e
    subst e
    rw [setLt_irrefl] at hlt
    exact absurd hlt (by decide)
  haveI : IsAntisymm IntSet (fun A B => setLt A B = true) :=
    ⟨fun A B h1 h2 => absurd rfl (hne A A (setLt_trans A B A h1 h2))⟩
  exact List.eq_of_perm_of_sorted
    ((List.perm_ext_iff_of_nodup (hP.imp (hne _ _)) (hQ.imp (hne _ _))).2 h) hP hQ

theorem block_of_sameBlock {a : FSA} {P Q : Fam} (hP : IsPartition a P) (hQ : IsPartition a Q)
    (hbP : ∀ Y ∈ P, Y.Pairwise (· < ·)) (hbQ : ∀ Y ∈ Q, Y.Pairwise (· < ·))
    (hsame : ∀ x y, a.IsState x → a.IsState y → SameBlock P x y → SameBlock Q x y)
    (hsame2 : ∀ x y, a.IsState x → a.IsState y → SameBlock Q x y → SameBlock P x y)
    {Y : IntSet} (hY : Y ∈ P) : Y ∈ Q := by
  have hh := head_mem_block (hP.nonempty Y hY)
  have hs := hP.states Y hY _ hh
  obtain ⟨Z, hZ, hxZ⟩ := hQ.cover _ hs
  have e : Y = Z := by
    apply sorted_ext (hbP Y hY) (hbQ Z hZ)
    intro z
    constructor
    · intro hz
      obtain ⟨Z1, hZ1, h1, h2⟩ := hsame _ z hs (hP.states Y hY z hz) ⟨Y, hY, hh, hz⟩
      rw [block_unique hQ hZ hZ1 hxZ h1]
      exact h2
    · intro hz
      obtain ⟨Y1, hY1, h1, h2⟩ := hsame2 _ z hs (hQ.states Z hZ z hz) ⟨Z, hZ, hxZ, hz⟩
      rw [block_unique hP hY hY1 hh h1]
      exact h2
  rw [e]
  exact hZ

/-- On a completed table the loops end with the same partition whether `Y` is read by value
or as the compiled program reads it. -/
theorem finalPartitionStale_eq (a : FSA) (ht : a.TableOk) :
    finalPartitionStale a = finalPartition a := by
  obtain ⟨P, hP⟩ := finalPartition_some a
  obtain ⟨Q, hQ⟩ := finalPartitionStale_some a
  have hRP := finalPartition_refining a ht P hP
  have hRQ := finalPartitionStale_refining a ht Q hQ
  obtain ⟨hbP, hsP⟩ := reaches_sorted a P [] (finalPartition_reaches a P hP)
  obtain ⟨W0, h0⟩ := reachesStale_partition a Q [] (finalPartitionStale_reaches a Q hQ)
  obtain ⟨hbQ, hsQ⟩ := reaches_sorted a Q W0 h0
  have h1 : ∀ x y, a.IsState x → a.IsState y → SameBlock P x y → SameBlock Q x y :=
    fun x y hx hy h =>
      (sameBlock_iff_equiv a Q hRQ hx hy).2 ((sameBlock_iff_equiv a P hRP hx hy).1 h)
  have h2 : ∀ x y, a.IsState x → a.IsState y → SameBlock Q x y → SameBlock P x y :=
    fun x y hx hy h =>
      (sameBlock_iff_equiv a P hRP hx hy).2 ((sameBlock_iff_equiv a Q hRQ hx hy).1 h)
  have e : Q = P := fam_ext hsQ hsP (fun Y =>
    ⟨block_of_sameBlock hRQ.part hRP.part hbQ hbP h2 h1,
      block_of_sameBlock hRP.part hRQ.part hbP hbQ h1 h2⟩)
  rw [hP, hQ, e]

/-- On a completed table `minimize` returns the same automaton whether `Y` is read by value
or as the compiled program reads it. -/
theorem minimizeStale_eq (a : FSA) (ht : a.TableOk) : minimizeStale a = minimize a := by
  obtain ⟨P, hP⟩ := finalPartition_some a
  have hQ : finalPartitionStale a = some P := by rw [finalPartitionStale_eq a ht, hP]
  unfold minimizeStale minimize
  rw [hP, hQ]

theorem sampleStale_wellFormed : sampleStale.WellFormed :=
  ⟨⟨by decide, by decide, by decide, by decide⟩, by unfold FSA.IsState; decide⟩

/-- C18 at a failing input: on the well-formed automaton `sampleStale`, with the queue
update of the compiled program, the first iteration of the work-queue loop takes the block
`{0, 1}` and splits `{2, 3}`; the next iteration starts with `P = {{0, 1}, {2}, {3}}` and
`W = {{2}, {2, 3}}`, and the set `{2, 3}` of `W` is not a block of `P`. With `Y` read by
value the queue would be `{{2}, {3}}`; the automaton returned is the same. -/
theorem queue_keeps_split_block :
    sampleStale.WellFormed ∧
    initialBlocks sampleStale = [[0, 1], [2, 3]] ∧
    letterLoopStale sampleStale [0, 1] (sampleStale.δ.length + 1)
        (List.range sampleStale.sigma.length) [[0, 1], [2, 3]] [[2, 3]] =
      some ([[0, 1], [2], [3]], [[2], [2, 3]]) ∧
    ReachesStale sampleStale [[0, 1], [2], [3]] [[2], [2, 3]] ∧
    (∃ S ∈ ([[2], [2, 3]] : Fam), S ∉ ([[0, 1], [2], [3]] : Fam)) ∧
    letterLoop sampleStale [0, 1] (sampleStale.δ.length + 1)
        (List.range sampleStale.sigma.length) [[0, 1], [2, 3]] [[2, 3]] =
      some ([[0, 1], [2], [3]], [[2], [3]]) ∧
    minimizeStale sampleStale = minimize sampleStale := by
  have e0 : initialBlocks sampleStale = [[0, 1], [2, 3]] := by decide
  have e1 : letterLoopStale sampleStale [0, 1] (sampleStale.δ.length + 1)
      (List.range sampleStale.sigma.length) [[0, 1], [2, 3]] [[2, 3]] =
      some ([[0, 1], [2], [3]], [[2], [2, 3]]) := by decide
  have h0 : ReachesStale sampleStale [[0, 1], [2, 3]] [[0, 1], [2, 3]] := by
    have := ReachesStale.start (a := sampleStale)
    rw [e0] at this
    exact this
  refine ⟨sampleStale_wellFormed, e0, e1, ?_, ⟨[2, 3], by decide, by decide⟩, by decide,
    minimizeStale_eq sampleStale sampleStale_wellFormed.table⟩
  exact letterLoopStale_reaches sampleStale [0, 1] _ _ _ _ _
    (ReachesStale.pop _ _ _ h0) e1

end Tafya
